import Mathlib

/-
Verification of the rustomaton automaton library: a shallow embedding of its
NFA/DFA engines (src/nfa.rs, src/dfa.rs) and regex parser (src/parser.rs),
with theorems about the embedded definitions.

Rust `HashSet<T>` values are modelled as `List T` (iteration order fixed by the
list, membership is what the algorithms consume), `HashMap<K, V>` values as
association lists `List (K × V)` with unique keys, and `usize` state indices as
`Nat`.  `Vec` indexing `v[i]` is modelled by `List.getD i` where the library
only ever indexes in bounds under the data-model invariant; the one place the
sources index out of bounds on inputs relevant to the claims
(`NFA::small_to_dfa` on the output of `NFA::new_length`) is modelled
explicitly with an `RErr.panicked` result.  Worklist loops are given explicit
fuel, with lemmas showing the chosen fuel suffices on well-formed input.
-/

namespace Rustomaton

/-- Association-list lookup, modelling `HashMap::get` (keys are unique). -/
def lookupA {V α : Type} [DecidableEq V] : List (V × α) → V → Option α
  | [], _ => none
  | p :: m, v => if p.1 = v then some p.2 else lookupA m v

/-- `HashMap::insert`: replace the binding when the key is present, append it
otherwise. -/
def insertA {V α : Type} [DecidableEq V] (m : List (V × α)) (v : V) (a : α) :
    List (V × α) :=
  if (lookupA m v).isSome then m.map (fun p => if p.1 = v then (v, a) else p)
  else m ++ [(v, a)]

/-- `HashSet::insert`. -/
def sinsert {α : Type} [DecidableEq α] (x : α) (s : List α) : List α :=
  if x ∈ s then s else x :: s

/-- Modelled from the spec: `append_hashset` from the crate's `utils` module
(that module is not among the given sources); per the spec's description of
`unite` it "simply merges alphabets/initials/finals", i.e. it inserts every
element of the second set into the first. -/
def append_hashset {α : Type} [DecidableEq α] (dst src : List α) : List α :=
  src.foldl (fun s x => sinsert x s) dst

/-- Modelled from the spec: `append_shift_hashset` from the crate's `utils`
module; per the spec's "disjoint-union of state graphs with index shifting" it
inserts every element of the second set shifted by `l` into the first. -/
def append_shift_hashset (dst src : List Nat) (l : Nat) : List Nat :=
  append_hashset dst (src.map (· + l))

/-- The non-deterministic automaton of `src/nfa.rs`:
`alphabet: HashSet<V>`, `initials: HashSet<usize>`, `finals: HashSet<usize>`,
`transitions: Vec<HashMap<V, Vec<usize>>>`. -/
structure NFA (V : Type) where
  alphabet : List V
  initials : List Nat
  finals : List Nat
  transitions : List (List (V × List Nat))
  deriving DecidableEq

/-- The deterministic automaton of `src/dfa.rs`:
`alphabet: HashSet<V>`, `initial: usize`, `finals: HashSet<usize>`,
`transitions: Vec<HashMap<V, usize>>`. -/
structure DFA (V : Type) where
  alphabet : List V
  initial : Nat
  finals : List Nat
  transitions : List (List (V × Nat))
  deriving DecidableEq

variable {V : Type} [DecidableEq V]

/-- The target list of state `g` in a transition table under symbol `v`
(`transitions[g].get(&v)`, absent key giving no successors). -/
def tgt (tr : List (List (V × List Nat))) (g : Nat) (v : V) : List Nat :=
  (lookupA (tr.getD g []) v).getD []

/-- The target list of state `q` under symbol `v`
(`self.transitions[q].get(&v)`, absent key giving no successors). -/
def targets (a : NFA V) (q : Nat) (v : V) : List Nat :=
  tgt a.transitions q v

/-- One step of the subset simulation: the union of successor states of `s`
under `v`, accumulated by `HashSet::insert` exactly as both `NFA::run` and
`NFA::small_to_dfa` build it. -/
def stepSet (a : NFA V) (s : List Nat) (v : V) : List Nat :=
  s.foldl (fun acc q => (targets a q v).foldl (fun ac t => sinsert t ac) acc) []

/-- The loop of `NFA::run`: step the active set through the word, returning
`false` as soon as the active set empties, and on exhaustion of the word test
whether some active state is final. -/
def runFrom (a : NFA V) : List Nat → List V → Bool
  | actuals, [] => actuals.any (· ∈ a.finals)
  | actuals, l :: ls =>
    let next := stepSet a actuals l
    if next = [] then false else runFrom a next ls

/-- `NFA::run` (`impl Runnable for NFA`): rejects immediately when there are no
initial states, else simulates the set of active states. -/
def NFA.run (a : NFA V) (w : List V) : Bool :=
  if a.initials = [] then false else runFrom a a.initials w

/-- `DFA::run`: deterministic walk, missing transition means immediate
reject. -/
def DFA.runFrom (d : DFA V) : Nat → List V → Bool
  | actual, [] => actual ∈ d.finals
  | actual, l :: ls =>
    match lookupA (d.transitions.getD actual []) l with
    | none => false
    | some t => DFA.runFrom d t ls

def DFA.run (d : DFA V) (w : List V) : Bool :=
  d.runFrom d.initial w

/-- `NFA::new_empty`. -/
def NFA.new_empty (alphabet : List V) : NFA V :=
  { alphabet := alphabet, initials := [], finals := [], transitions := [] }

/-- `NFA::new_full`: one state, initial and final, looping to itself on every
alphabet symbol. -/
def NFA.new_full (alphabet : List V) : NFA V :=
  { alphabet := alphabet
    initials := [0]
    finals := [0]
    transitions := [alphabet.map (fun v => (v, [0]))] }

/-- `NFA::new_length`: `l + 1` states `0..=l`, state `0` initial, state `l`
final, and **every** state `i` (the loop runs over all `l + 1` rows) mapping
every alphabet symbol to `[i + 1]`. -/
def NFA.new_length (alphabet : List V) (l : Nat) : NFA V :=
  { alphabet := alphabet
    initials := [0]
    finals := [l]
    transitions :=
      (List.range (l + 1)).map (fun i => alphabet.map (fun v => (v, [i + 1]))) }

/-- `NFA::new_matching`: states `0..=s.len()`, state `i` stepping to `i + 1`
on the `i`-th symbol of `s`. -/
def NFA.new_matching (alphabet : List V) (s : List V) : NFA V :=
  { alphabet := alphabet
    initials := [0]
    finals := [s.length]
    transitions :=
      (List.range (s.length + 1)).map
        (fun i => match s.get? i with
          | some c => [(c, [i + 1])]
          | none => []) }

/-- `NFA::new_empty_word`. -/
def NFA.new_empty_word (alphabet : List V) : NFA V :=
  { alphabet := alphabet, initials := [0], finals := [0], transitions := [[]] }

/-- `NFA::is_complete`: false when there is no initial state or some
(state, symbol) pair has no (or an empty) target list. -/
def NFA.is_complete (a : NFA V) : Bool :=
  decide (a.initials ≠ []) &&
    a.transitions.all (fun m => a.alphabet.all (fun v => ((lookupA m v).getD []) ≠ []))

/-- The row rewrite `NFA::complete` performs on every transition map:
`m.entry(v).or_insert(vec![])` followed by pushing the sink `l` when the entry
is empty. -/
def completeRow (alphabet : List V) (l : Nat) (m : List (V × List Nat)) :
    List (V × List Nat) :=
  alphabet.foldl
    (fun m v =>
      match lookupA m v with
      | none => m ++ [(v, [l])]
      | some t => if t = [] then insertA m v [l] else m)
    m

/-- `NFA::complete`: if incomplete, append a sink state, wire every missing
(state, symbol) pair to it, and make the sink initial when there were no
initials. -/
def NFA.complete (a : NFA V) : NFA V :=
  if a.is_complete then a
  else
    let l := a.transitions.length
    { a with
      transitions := (a.transitions ++ [[]]).map (completeRow a.alphabet l)
      initials := if a.initials = [] then sinsert l a.initials else a.initials }

/-- `HashMap::entry(k).or_insert(Vec::new()).push(i)`: append `i` to the
target list of `k`, creating the entry when absent. -/
def pushEntry (m : List (V × List Nat)) (k : V) (i : Nat) : List (V × List Nat) :=
  if (lookupA m k).isSome then
    m.map (fun p => if p.1 = k then (p.1, p.2 ++ [i]) else p)
  else m ++ [(k, [i])]

/-- The inverted transition table built by `NFA::reverse`: for every edge
`i --k--> e` of the original table, push `i` onto entry `k` of row `e`. -/
def reverseTable (a : NFA V) : List (List (V × List Nat)) :=
  (List.range a.transitions.length).foldl
    (fun tr i =>
      (a.transitions.getD i []).foldl
        (fun tr p =>
          p.2.foldl (fun tr e => tr.set e (pushEntry (tr.getD e []) p.1 i)) tr)
        tr)
    (List.replicate a.transitions.length [])

/-- `NFA::reverse`: rebuild the table by inverting every
(source, symbol, target) edge, then swap initials and finals. -/
def NFA.reverse (a : NFA V) : NFA V :=
  { a with transitions := reverseTable a, initials := a.finals, finals := a.initials }

/-- Modelled from the spec: `append_shift_transitions` from the crate's
`utils` module; per the spec's "disjoint-union of state graphs with index
shifting" it appends the second transition table with every target shifted by
the first table's length. -/
def append_shift_transitions (dst src : List (List (V × List Nat))) :
    List (List (V × List Nat)) :=
  dst ++ src.map (fun m => m.map (fun p => (p.1, p.2.map (· + dst.length))))

/-- `NFA::unite` (`Automata::unite`): disjoint union with index shifting. -/
def NFA.unite (a b : NFA V) : NFA V :=
  { alphabet := append_hashset a.alphabet b.alphabet
    initials := append_shift_hashset a.initials b.initials a.transitions.length
    finals := append_shift_hashset a.finals b.finals a.transitions.length
    transitions := append_shift_transitions a.transitions b.transitions }

/-- Modelled from the spec: `shift_fnda` from the crate's `utils` module; per
the spec's index-shifting composition it shifts every state index of the
automaton (initials, finals, transition targets) by `l`. -/
def shift_fnda (b : NFA V) (l : Nat) : NFA V :=
  { b with
    initials := b.initials.map (· + l)
    finals := b.finals.map (· + l)
    transitions := b.transitions.map (fun m => m.map (fun p => (p.1, p.2.map (· + l)))) }

/-- `HashMap::entry(v).or_insert(Vec::new()).append(&mut ts.clone())`: append
the whole list `ts` to the entry of `v`, creating it when absent. -/
def appendEntry (m : List (V × List Nat)) (v : V) (ts : List Nat) :
    List (V × List Nat) :=
  if (lookupA m v).isSome then
    m.map (fun p => if p.1 = v then (p.1, p.2 ++ ts) else p)
  else m ++ [(v, ts)]

/-- `NFA::concatenate` (`Automata::concatenate`): shift the second operand by
the first's state count, copy every transition leaving a (shifted) initial
state of the second operand onto every final state of the first, keep the
second operand's finals alone when its finals and initials are disjoint and
the union of both final sets otherwise, and append the shifted table. -/
def concatRewired (a b' : NFA V) (l : Nat) : List (List (V × List Nat)) :=
  b'.initials.foldl
    (fun tr e =>
      (b'.transitions.getD (e - l) []).foldl
        (fun tr p =>
          a.finals.foldl
            (fun tr f => tr.set f (appendEntry (tr.getD f []) p.1 p.2)) tr)
        tr)
    a.transitions

def NFA.concatenate (a b : NFA V) : NFA V :=
  let l := a.transitions.length
  let b' := shift_fnda b l
  { alphabet := append_hashset a.alphabet b'.alphabet
    initials := a.initials
    finals :=
      if b'.finals.all (· ∉ b'.initials) then b'.finals
      else append_hashset a.finals b'.finals
    transitions := concatRewired a b' l ++ b'.transitions }

/-- The `HashMap<V, HashSet<usize>>` accumulation in `NFA::kleene`: insert
target `x` into the set bound to `k`. -/
def mapInsertSet (mp : List (V × List Nat)) (k : V) (x : Nat) :
    List (V × List Nat) :=
  match lookupA mp k with
  | none => mp ++ [(k, sinsert x [])]
  | some s => insertA mp k (sinsert x s)

/-- The per-final-state merge in `NFA::kleene`: the entry of `k` in row `i`
is drained into a set, `v` is inserted, and the set is written back. -/
def kleeneMergeRow (row : List (V × List Nat)) (k : V) (v : List Nat) :
    List (V × List Nat) :=
  let old := (lookupA row k).getD []
  let s := v.foldl (fun s x => sinsert x s) (old.foldl (fun s x => sinsert x s) [])
  insertA (if (lookupA row k).isSome then row else row ++ [(k, [])]) k s

/-- `NFA::kleene` (`Automata::kleene`): collect the union of the initial
states' outgoing transitions, merge that map into every final state's row,
append it as one new state, and make that new state the sole initial state
and also final. -/
def kleeneMap (a : NFA V) : List (V × List Nat) :=
  a.initials.foldl
    (fun mp i =>
      (a.transitions.getD i []).foldl
        (fun mp p => p.2.foldl (fun mp x => mapInsertSet mp p.1 x) mp) mp)
    []

def kleeneTable (a : NFA V) (map : List (V × List Nat)) :
    List (List (V × List Nat)) :=
  a.finals.foldl
    (fun tr i =>
      tr.set i (map.foldl (fun row p => kleeneMergeRow row p.1 p.2) (tr.getD i [])))
    a.transitions

def NFA.kleene (a : NFA V) : NFA V :=
  { a with
    transitions := kleeneTable a (kleeneMap a) ++ [kleeneMap a]
    initials := [a.transitions.length]
    finals := sinsert a.transitions.length a.finals }

/-- `NFA::at_most` (`Automata::at_most`): ensure the empty word is accepted
(adding a fresh isolated initial+final state when it is not), then concatenate
`u` copies of the result onto the empty-word automaton. -/
def NFA.at_most (a : NFA V) (u : Nat) : NFA V :=
  let a' :=
    if a.initials.any (· ∈ a.finals) then a
    else
      { a with
        initials := sinsert a.transitions.length a.initials
        finals := sinsert a.transitions.length a.finals
        transitions := a.transitions ++ [[]] }
  (List.range u).foldl (fun acc _ => acc.concatenate a') (NFA.new_empty_word a.alphabet)

/-- `NFA::at_least` (`Automata::at_least`): concatenate `u` copies of the
automaton onto the empty-word automaton, then its Kleene closure. -/
def NFA.at_least (a : NFA V) (u : Nat) : NFA V :=
  ((List.range u).foldl (fun acc _ => acc.concatenate a) (NFA.new_empty_word a.alphabet)).concatenate
    a.kleene

/-- A `std::ops::Bound<&usize>` as consumed by `NFA::repeat`. -/
inductive RBound where
  | incl (n : Nat)
  | excl (n : Nat)
  | unb
  deriving DecidableEq

/-- The lower bound derivation of `NFA::repeat`:
`Included a => a`, `Excluded a => a + 1`, `Unbounded => 0`. -/
def startOfBound : RBound → Nat
  | .incl a => a
  | .excl a => a + 1
  | .unb => 0

/-- The upper bound derivation of `NFA::repeat`: `Included a => Some(a)`,
`Excluded a => Some(a - 1)`, `Unbounded => None`.  `a - 1` is `usize`
subtraction, which panics on underflow when `a = 0` (overflow check in debug
builds); the outer `none` models that panic. -/
def endOfBound : RBound → Option (Option Nat)
  | .incl a => some (some a)
  | .excl 0 => none
  | .excl (a + 1) => some (some a)
  | .unb => some none

/-- `NFA::repeat` (`Automata::repeat`): derive the bounds from the range,
return the empty-language automaton when the upper bound is below the lower,
otherwise unfold into concatenations and `at_most`/`at_least`.  `none` is the
`usize` underflow panic of the bound derivation. -/
def NFA.repeat (a : NFA V) (lo hi : RBound) : Option (NFA V) :=
  let start := startOfBound lo
  match endOfBound hi with
  | none => none
  | some (some e) =>
    if e < start then some (NFA.new_empty a.alphabet)
    else
      some
        (((List.range start).foldl (fun acc _ => acc.concatenate a)
            (NFA.new_empty_word a.alphabet)).concatenate
          (a.at_most (e - start)))
  | some none => some (a.at_least start)

/-- All successors of state `e`, in row order: the flattening of
`for (_, v) in &self.transitions[e] { for t in v { ... } }`. -/
def succsAll (tr : List (List (V × List Nat))) (e : Nat) : List Nat :=
  ((tr.getD e []).map Prod.snd).flatten

/-- The inner loop shared by the worklist traversals of `NFA::is_empty`,
`NFA::is_full`, `NFA::make_reachable` and `NFA::is_reachable`: scan the target
list, abort (`none`) at the first target satisfying `bad`, and insert unseen
targets into the accumulator and the stack. -/
def scanT (bad : Nat → Bool) : List Nat → List Nat → List Nat →
    Option (List Nat × List Nat)
  | [], acc, stack => some (acc, stack)
  | t :: ts, acc, stack =>
    if bad t then none
    else if t ∈ acc then scanT bad ts acc stack
    else scanT bad ts (t :: acc) (t :: stack)

/-- The early-exit worklist traversal of `NFA::is_empty` / `NFA::is_full`:
pop a state, scan its targets, return `false` at the first bad target, and
`true` when the stack empties. -/
def guardedDfs (succ : Nat → List Nat) (bad : Nat → Bool) :
    Nat → List Nat → List Nat → Bool
  | 0, _, _ => true
  | _ + 1, _, [] => true
  | f + 1, acc, e :: stack =>
    match scanT bad (succ e) acc stack with
    | none => false
    | some (acc', stack') => guardedDfs succ bad f acc' stack'

/-- The closure-collecting worklist traversal of `NFA::make_reachable` /
`NFA::is_reachable`. -/
def reachAux (succ : Nat → List Nat) : Nat → List Nat → List Nat → List Nat
  | 0, acc, _ => acc
  | _ + 1, acc, [] => acc
  | f + 1, acc, e :: stack =>
    match scanT (fun _ => false) (succ e) acc stack with
    | some (acc', stack') => reachAux succ f acc' stack'
    | none => acc

/-- Fuel that provably suffices for the worklist traversals on automata whose
transition targets are in range: one unit per initial stack entry, per state,
and per transition target, plus one. -/
def dfsFuel (tr : List (List (V × List Nat))) (stack0 : List Nat) : Nat :=
  stack0.length + tr.length +
    (tr.map (fun m => (m.map (fun p => p.2.length)).sum)).sum + 1

/-- `NFA::is_empty`: false when initials and finals intersect, else a
traversal from the initials that fails at the first final target. -/
def NFA.is_empty (a : NFA V) : Bool :=
  if a.initials.any (· ∈ a.finals) then false
  else
    guardedDfs (succsAll a.transitions) (· ∈ a.finals)
      (dfsFuel a.transitions a.initials) a.initials a.initials

/-- `NFA::is_full`: false when initials and finals are disjoint, else a
traversal from the initials that fails at the first non-final target. -/
def NFA.is_full (a : NFA V) : Bool :=
  if a.initials.any (· ∈ a.finals) then
    guardedDfs (succsAll a.transitions) (fun t => !(decide (t ∈ a.finals)))
      (dfsFuel a.transitions a.initials) a.initials a.initials
  else false

/-- The visited set of `NFA::make_reachable` / `NFA::is_reachable`. -/
def reachClosure (a : NFA V) : List Nat :=
  reachAux (succsAll a.transitions) (dfsFuel a.transitions a.initials)
    a.initials a.initials

/-- The surviving states of `NFA::make_reachable`, in index order (the order
the source's `swap`/`truncate` compaction preserves); the old-to-new map sends
a kept state to its rank in this list. -/
def keepList (a : NFA V) : List Nat :=
  (List.range a.transitions.length).filter (· ∈ reachClosure a)

/-- `NFA::make_reachable`: collect the forward closure of the initials, keep
exactly the visited states (renumbered densely in index order), and remap
every stored index through the old-to-new map. -/
def NFA.make_reachable (a : NFA V) : NFA V :=
  { alphabet := a.alphabet
    initials := a.initials.map (fun x => (keepList a).indexOf x)
    finals :=
      (a.finals.filter (· ∈ reachClosure a)).map (fun x => (keepList a).indexOf x)
    transitions :=
      (keepList a).map
        (fun i => (a.transitions.getD i []).map
          (fun p => (p.1, p.2.map (fun x => (keepList a).indexOf x)))) }

/-- `NFA::make_coreachable`: `reverse` → `make_reachable` → `reverse`. -/
def NFA.make_coreachable (a : NFA V) : NFA V :=
  a.reverse.make_reachable.reverse

/-- `NFA::trim`: `make_reachable` then `make_coreachable`. -/
def NFA.trim (a : NFA V) : NFA V :=
  a.make_reachable.make_coreachable

/-- `DFA::is_complete`. -/
def DFA.is_complete (d : DFA V) : Bool :=
  d.transitions.all (fun m => d.alphabet.all (fun v => (lookupA m v).isSome))

/-- The row rewrite of `DFA::complete`: insert the sink `l` for every
alphabet symbol not already present. -/
def fillRow (alphabet : List V) (l : Nat) (m : List (V × Nat)) : List (V × Nat) :=
  alphabet.foldl (fun m v => if (lookupA m v).isSome then m else m ++ [(v, l)]) m

/-- `DFA::complete`: on incompleteness, append one sink state and fill every
missing (state, symbol) pair with it. -/
def DFA.complete (d : DFA V) : DFA V :=
  if d.is_complete then d
  else
    { d with
      transitions :=
        (d.transitions ++ [[]]).map (fillRow d.alphabet d.transitions.length) }

/-- `DFA::negate`: complete, then replace the finals by their complement over
all states. -/
def DFA.negate (d : DFA V) : DFA V :=
  let c := d.complete
  { c with finals := (List.range c.transitions.length).filter (fun x => x ∉ c.finals) }

/-- `DFA::to_nfa`. -/
def DFA.to_nfa (d : DFA V) : NFA V :=
  { alphabet := d.alphabet
    initials := [d.initial]
    finals := d.finals
    transitions := d.transitions.map (fun m => m.map (fun p => (p.1, [p.2]))) }

/-- The bit-set key of a subset of NFA states:
`iter.fold(0, |acc, x| acc | (1 << x))`. -/
def maskOf (s : List Nat) : Nat :=
  s.foldl (fun acc x => acc ||| (1 <<< x)) 0

/-- The in-progress state of the subset construction `NFA::small_to_dfa`:
the DFA built so far, the bit-set-to-DFA-state map, and the worklist queue. -/
structure BuildSt (V : Type) where
  dfa : DFA V
  map : List (Nat × Nat)
  queue : List (Nat × List Nat)

/-- One symbol of the subset-construction loop body: compute the successor
subset, skip it when empty, allocate a new DFA state for an unseen subset
(final iff the subset contains an original final state) and enqueue it, then
record the transition.  `none` models the `Vec` index panic
`self.transitions[*state]` when the popped subset mentions a state that is out
of range. -/
def smallStep (a : NFA V) (iter : List Nat) (elemNum : Nat) (st : BuildSt V)
    (v : V) : Option (BuildSt V) :=
  if ¬ iter.all (· < a.transitions.length) then none
  else
    let it := stepSet a iter v
    if it = [] then some st
    else
      let other := maskOf it
      let st' :=
        if (lookupA st.map other).isSome then st
        else
          { dfa :=
              { st.dfa with
                finals :=
                  if it.any (· ∈ a.finals) then
                    sinsert st.dfa.transitions.length st.dfa.finals
                  else st.dfa.finals
                transitions := st.dfa.transitions ++ [[]] }
            map := st.map ++ [(other, st.dfa.transitions.length)]
            queue := st.queue ++ [(other, it)] }
      some
        { st' with
          dfa :=
            { st'.dfa with
              transitions :=
                st'.dfa.transitions.set elemNum
                  (insertA (st'.dfa.transitions.getD elemNum []) v
                    ((lookupA st'.map other).getD 0)) } }

/-- The breadth-first fixed-point loop of `NFA::small_to_dfa`: pop the front
subset, process every alphabet symbol, and recurse until the queue is
empty. -/
def smallLoop (a : NFA V) : Nat → BuildSt V → Option (BuildSt V)
  | 0, st => some st
  | f + 1, st =>
    match st.queue with
    | [] => some st
    | (elem, iter) :: rest =>
      match
        a.alphabet.foldl
          (fun ost v => ost.bind (fun s => smallStep a iter ((lookupA st.map elem).getD 0) s v))
          (some { st with queue := rest })
      with
      | none => none
      | some st' => smallLoop a f st'

/-- Fuel that provably suffices for `smallLoop` on in-range automata: every
iteration pops one subset, and at most `2 ^ n` distinct subsets are ever
enqueued, each enqueueing at most `|alphabet|` more. -/
def smallFuel (a : NFA V) : Nat :=
  2 ^ a.transitions.length * (a.alphabet.length + 1) + 2

/-- `NFA::small_to_dfa` (returning the whole final build state; the source
returns its `.dfa` component).  The initial DFA state `0` encodes the initial
subset and is final iff some initial state is final. -/
def NFA.small_to_dfa (a : NFA V) : Option (BuildSt V) :=
  let i := maskOf a.initials
  smallLoop a (smallFuel a)
    { dfa :=
        { alphabet := a.alphabet
          initial := 0
          finals := if a.initials.any (· ∈ a.finals) then [0] else []
          transitions := [[]] }
      map := [(i, 0)]
      queue := [(i, a.initials.dedup)] }

/-- The failure modes of the library surfaced by the embedding: a `Vec`
indexing panic, and the `unimplemented!()` abort of `NFA::big_to_dfa`. -/
inductive RErr where
  | panicked
  | unimplemented
  deriving DecidableEq

/-- `ToDfa for NFA` (`to_dfa`): the one-state empty DFA for an empty-language
NFA, the subset construction below 128 states, and the unimplemented
`big_to_dfa` path otherwise. -/
def NFA.to_dfa (a : NFA V) : Except RErr (DFA V) :=
  if a.is_empty then
    .ok { alphabet := a.alphabet, initial := 0, finals := [], transitions := [[]] }
  else if a.transitions.length < 128 then
    match a.small_to_dfa with
    | some st => .ok st.dfa
    | none => .error .panicked
  else .error .unimplemented

/-- `NFA::negate`: `self.to_dfa().negate()`. -/
def NFA.negate (a : NFA V) : Except RErr (DFA V) :=
  a.to_dfa.map DFA.negate

/-- `DFA::unite` (`Buildable::unite`): through the NFA engine and back. -/
def DFA.unite (d1 d2 : DFA V) : Except RErr (DFA V) :=
  (d1.to_nfa.unite d2.to_nfa).to_dfa

/-- `DFA::is_empty`: through the NFA view. -/
def DFA.is_empty (d : DFA V) : Bool :=
  d.to_nfa.is_empty

/-- `DFA::intersect`: De Morgan, `negate(unite(negate(self), negate(other)))`. -/
def DFA.intersect (d1 d2 : DFA V) : Except RErr (DFA V) :=
  (d1.negate.unite d2.negate).map DFA.negate

/-- `NFA::contains`: `self.clone().negate().intersect(b.to_dfa()).is_empty()`. -/
def NFA.contains (a b : NFA V) : Except RErr Bool := do
  let aut1 ← a.negate
  let bd ← b.to_dfa
  let i ← aut1.intersect bd
  pure i.is_empty

/-- `DFA::contains`: through the NFA views of both sides. -/
def DFA.contains (d1 d2 : DFA V) : Except RErr Bool :=
  d1.to_nfa.contains d2.to_nfa

/-- The data-model invariant of the spec: every transition target is a valid
index of the table. -/
def wfTargets (tr : List (List (V × List Nat))) : Prop :=
  ∀ m ∈ tr, ∀ p ∈ m, ∀ t ∈ p.2, t < tr.length

/-- The data-model invariant of the spec for an NFA: every index referenced in
`initials`, `finals`, or any transition-target list is `< transitions.length`. -/
def NFA.wfIdx (a : NFA V) : Prop :=
  (∀ i ∈ a.initials, i < a.transitions.length) ∧
    (∀ i ∈ a.finals, i < a.transitions.length) ∧ wfTargets a.transitions

/-- Transition rows as produced by `HashMap`: unique keys, all of them
alphabet symbols. -/
def rowsOk (alphabet : List V) (tr : List (List (V × List Nat))) : Prop :=
  ∀ m ∈ tr, (m.map Prod.fst).Nodup ∧ ∀ p ∈ m, p.1 ∈ alphabet

/-- Full well-formedness of an NFA value as the library maintains it: the
index invariant, an alphabet without duplicates (it models a `HashSet`), and
`HashMap`-shaped rows keyed by alphabet symbols. -/
def NFA.WF (a : NFA V) : Prop :=
  a.wfIdx ∧ a.alphabet.Nodup ∧ rowsOk a.alphabet a.transitions

/-- Full well-formedness of a DFA value as the library maintains it. -/
def DFA.WF (d : DFA V) : Prop :=
  d.initial < d.transitions.length ∧
    (∀ i ∈ d.finals, i < d.transitions.length) ∧
    (∀ m ∈ d.transitions,
      (m.map Prod.fst).Nodup ∧ ∀ p ∈ m, p.2 < d.transitions.length ∧ p.1 ∈ d.alphabet) ∧
    d.alphabet.Nodup

instance decWfTargets (tr : List (List (V × List Nat))) : Decidable (wfTargets tr) := by
  unfold wfTargets
  infer_instance

instance decWfIdx (a : NFA V) : Decidable a.wfIdx := by
  unfold NFA.wfIdx
  infer_instance

instance decRowsOk (al : List V) (tr : List (List (V × List Nat))) :
    Decidable (rowsOk al tr) := by
  unfold rowsOk
  infer_instance

instance decNfaWF (a : NFA V) : Decidable a.WF := by
  unfold NFA.WF
  infer_instance

instance decDfaWF (d : DFA V) : Decidable d.WF := by
  unfold DFA.WF
  infer_instance

/-- States reachable from `init` through a successor function, the
specification-side notion of reachability against which the worklist
traversals are characterised. -/
inductive ReachG (succ : Nat → List Nat) (init : List Nat) : Nat → Prop where
  | base (x : Nat) : x ∈ init → ReachG succ init x
  | step (e t : Nat) : ReachG succ init e → t ∈ succ e → ReachG succ init t

/-- Reachability from `init` through a transition table. -/
def Reach (tr : List (List (V × List Nat))) (init : List Nat) (x : Nat) : Prop :=
  ReachG (succsAll tr) init x

/-- The token kinds of `src/parser.rs` (`#[derive(Logos)] enum Token`).  The
`endTok` kind models `Token::End`, which `tokens` never pushes into the
deque. -/
inductive Token where
  | error
  | union
  | lpar
  | rpar
  | dot
  | kleene
  | question
  | plus
  | epsilon
  | letter
  | endTok
  deriving DecidableEq

/-- Modelled from the spec: the `Operations` regex tree of the crate's
`regex` module (not among the given sources): match-nothing `epsilon`,
any-symbol `dot`, one-symbol `letter`, n-ary `concat` and `union`, and
`repeat` with a lower bound and an optional upper bound.  Symbols are Unicode
code points. -/
inductive Operations where
  | dot
  | epsilon
  | letter (c : Nat)
  | concat (os : List Operations)
  | union (os : List Operations)
  | repeated (o : Operations) (lo : Nat) (hi : Option Nat)

/-- A continuation byte of a UTF-8 sequence. -/
def isCont (b : Nat) : Bool := 128 ≤ b && b < 192

/-- Modelled from the spec: one UTF-8 character decode, returning the code
point and the number of bytes consumed; `none` on an invalid sequence (the
spec's "unrecognized byte sequences"). -/
def decodeChar : List Nat → Option (Nat × Nat)
  | [] => none
  | b :: bs =>
    if b < 128 then some (b, 1)
    else if b < 192 then none
    else if b < 224 then
      match bs with
      | c1 :: _ => if isCont c1 then some ((b - 192) * 64 + (c1 - 128), 2) else none
      | [] => none
    else if b < 240 then
      match bs with
      | c1 :: c2 :: _ =>
        if isCont c1 && isCont c2 then
          some (((b - 224) * 64 + (c1 - 128)) * 64 + (c2 - 128), 3)
        else none
      | _ => none
    else if b < 248 then
      match bs with
      | c1 :: c2 :: c3 :: _ =>
        if isCont c1 && isCont c2 && isCont c3 then
          some (((((b - 240) * 64 + (c1 - 128)) * 64 + (c2 - 128)) * 64 + (c3 - 128)), 4)
        else none
      | _ => none
    else none

/-- Modelled from the spec: token classification of one character — the eight
reserved symbols `| ( ) . * ? + 𝜀` are structural, every other character is a
`Letter`. -/
def tokenOfChar (cp : Nat) : Token :=
  if cp = 124 then .union
  else if cp = 40 then .lpar
  else if cp = 41 then .rpar
  else if cp = 46 then .dot
  else if cp = 42 then .kleene
  else if cp = 63 then .question
  else if cp = 43 then .plus
  else if cp = 120576 then .epsilon
  else .letter

/-- Modelled from the spec: the scanning loop of `tokens` over the
logos-generated lexer — each step consumes one character (or one invalid
byte, yielding an `Error` token), and `End` is never pushed.  Each token
carries the first code point of its slice (all that the parser ever reads
from a slice). -/
def tokenizeAux : Nat → List Nat → List (Token × Nat)
  | 0, _ => []
  | _ + 1, [] => []
  | f + 1, b :: bs =>
    match decodeChar (b :: bs) with
    | some (cp, cnt) => (tokenOfChar cp, cp) :: tokenizeAux f ((b :: bs).drop cnt)
    | none => (.error, b) :: tokenizeAux f bs

/-- `tokens`: the full token stream of a byte string. -/
def tokens (s : List Nat) : List (Token × Nat) :=
  tokenizeAux s.length s

/-- `peak`: the kind of the front token, if any. -/
def peak (ts : List (Token × Nat)) : Option Token :=
  ts.head?.map Prod.fst

/-- The outcome of a parsing function: `Ok(tree)` with the remaining deque,
`Err(msg)`, the `unreachable!()` abort of `read_concat` on an `Error` token,
or exhaustion of the recursion fuel (shown unreachable with the fuel the
entry points pass). -/
inductive PResult where
  | ok (o : Operations) (rest : List (Token × Nat))
  | err (msg : String)
  | crashed
  | nofuel

/-- `read_quantif`: wrap the node while `*`, `+` or `?` tokens follow. -/
def read_quantif : List (Token × Nat) → Operations → Operations × List (Token × Nat)
  | [], o => (o, [])
  | (t, c) :: rest, o =>
    if t = .plus then read_quantif rest (.repeated o 1 none)
    else if t = .kleene then read_quantif rest (.repeated o 0 none)
    else if t = .question then read_quantif rest (.repeated o 0 (some 1))
    else (o, (t, c) :: rest)

/-- `read_letter`: a `.`, `𝜀` or letter leaf followed by its quantifiers, or
`Err("Expected letter")`. -/
def read_letter (ts : List (Token × Nat)) : PResult :=
  match ts with
  | [] => .err "Expected letter"
  | (t, c) :: rest =>
    if t = .dot then
      let (o, rest') := read_quantif rest .dot
      .ok o rest'
    else if t = .epsilon then
      let (o, rest') := read_quantif rest .epsilon
      .ok o rest'
    else if t = .letter then
      let (o, rest') := read_quantif rest (.letter c)
      .ok o rest'
    else .err "Expected letter"

/-- The singleton collapse shared by `read_union` and `read_concat`: a
one-element group is returned bare. -/
def collapseWith (wrap : List Operations → Operations) (acc : List Operations)
    (ts : List (Token × Nat)) : PResult :=
  match acc with
  | [o] => .ok o ts
  | os => .ok (wrap os) ts

mutual

/-- The `loop` of `read_union`, with the already-parsed concat-groups in
`acc`: parse a group, and continue after a `|` separator. -/
def read_union_aux (f : Nat) (acc : List Operations) (ts : List (Token × Nat)) :
    PResult :=
  match f with
  | 0 => .nofuel
  | f + 1 =>
    match read_concat f ts with
    | .ok o rest =>
      if peak rest = some .union then read_union_aux f (acc ++ [o]) (rest.drop 1)
      else collapseWith .union (acc ++ [o]) rest
    | r => r

/-- The `while` of `read_concat`: letters and parenthesised groups extend the
group; a quantifier with no operand is an error; `)`/`|`/end-of-input ends the
group; an `Error` token reaches the source's `unreachable!()`. -/
def read_concat (f : Nat) (ts : List (Token × Nat)) : PResult :=
  match f with
  | 0 => .nofuel
  | f + 1 => read_concat_aux f [] ts

def read_concat_aux (f : Nat) (acc : List Operations) (ts : List (Token × Nat)) :
    PResult :=
  match f with
  | 0 => .nofuel
  | f + 1 =>
    match peak ts with
    | none => collapseWith .concat acc ts
    | some t =>
      if t = .dot ∨ t = .epsilon ∨ t = .letter then
        match read_letter ts with
        | .ok o rest => read_concat_aux f (acc ++ [o]) rest
        | r => r
      else if t = .lpar then
        match read_paren f ts with
        | .ok o rest => read_concat_aux f (acc ++ [o]) rest
        | r => r
      else if t = .kleene ∨ t = .plus ∨ t = .question then
        .err ("Unexpected " ++ toString (Char.ofNat (ts.headD (.error, 0)).2))
      else if t = .rpar ∨ t = .union ∨ t = .endTok then collapseWith .concat acc ts
      else .crashed

/-- `read_paren`: `(` Union `)` followed by quantifiers. -/
def read_paren (f : Nat) (ts : List (Token × Nat)) : PResult :=
  match f with
  | 0 => .nofuel
  | f + 1 =>
    if peak ts ≠ some .lpar then .err "Expected left parenthesis."
    else
      match read_union_aux f [] (ts.drop 1) with
      | .ok o rest =>
        if peak rest ≠ some .rpar then .err "Expected right parenthesis."
        else
          let (o', rest') := read_quantif (rest.drop 1) o
          .ok o' rest'
      | r => r

end

/-- `read_union`, the parser entry point, with fuel that provably suffices. -/
def read_union (ts : List (Token × Nat)) : PResult :=
  read_union_aux (5 * ts.length + 5) [] ts

/-- A 128-state NFA with a non-empty language: `contains` on it reaches
`big_to_dfa`'s `unimplemented!()`. -/
def bigNfa : NFA Char :=
  { alphabet := ['a'], initials := [0], finals := [0],
    transitions := List.replicate 128 [] }

/-- A 128-state NFA with an empty language: `to_dfa` succeeds on it through
the `is_empty` fast path despite the state count. -/
def bigEmptyNfa : NFA Char :=
  { alphabet := ['a'], initials := [0], finals := [],
    transitions := List.replicate 128 [] }

/-- A token stream free of `Error` tokens (the streams on which the parser's
`unreachable!()` branch cannot fire). -/
def noErr (ts : List (Token × Nat)) : Prop :=
  ∀ p ∈ ts, p.1 ≠ Token.error

/-- A one-state complete DFA over `{a}` accepting `a*`, used as a concrete
well-formed instance. -/
def exDfa : DFA Char :=
  { alphabet := ['a'], initial := 0, finals := [0], transitions := [[('a', 0)]] }

/-- Two initial states `0`, `1`, only `0` final, no transitions: `is_full`
never looks at the reachable state `1`. -/
def twoInitialNfa : NFA Char :=
  { alphabet := ['a'], initials := [0, 1], finals := [0], transitions := [[], []] }

/-- The transition row of DFA state `j` in a build state. -/
def rowFor (st : BuildSt V) (j : Nat) : List (V × Nat) :=
  st.dfa.transitions.getD j []

/-- A correctly recorded transition of DFA state `j` (standing for subset `s`)
under symbol `v`: no entry when the successor subset is empty, otherwise an
entry pointing at the DFA state allocated for the successor subset's mask. -/
def entryOk (a : NFA V) (st : BuildSt V) (j : Nat) (s : List Nat) (v : V) :
    Prop :=
  (stepSet a s v = [] → lookupA (rowFor st j) v = none) ∧
  (stepSet a s v ≠ [] → ∃ j', lookupA (rowFor st j) v = some j' ∧
    (maskOf (stepSet a s v), j') ∈ st.map)

/-- A fully processed DFA state: correct entries on the whole alphabet and no
entry off it. -/
def rowCorrect (a : NFA V) (st : BuildSt V) (j : Nat) (s : List Nat) : Prop :=
  (∀ v ∈ a.alphabet, entryOk a st j s v) ∧
  (∀ v, v ∉ a.alphabet → lookupA (rowFor st j) v = none)

/-- A usable subset of NFA states: non-empty and in range. -/
def subOk (a : NFA V) (s : List Nat) : Prop :=
  s ≠ [] ∧ ∀ x ∈ s, x < a.transitions.length

/-- The invariant of the subset-construction worklist loop, between
iterations. -/
def SInv (a : NFA V) (st : BuildSt V) : Prop :=
  st.dfa.alphabet = a.alphabet ∧
  st.dfa.initial = 0 ∧
  st.map.map Prod.snd = List.range st.dfa.transitions.length ∧
  (st.map.map Prod.fst).Nodup ∧
  (st.queue.map Prod.fst).Nodup ∧
  (∀ q ∈ st.queue, q.1 ∈ st.map.map Prod.fst ∧ subOk a q.2 ∧ maskOf q.2 = q.1) ∧
  (∀ p ∈ st.map, ∃ s, subOk a s ∧ maskOf s = p.1 ∧
    (p.2 ∈ st.dfa.finals ↔ s.any (· ∈ a.finals) = true) ∧
    ((p.1 ∈ st.queue.map Prod.fst ∧ rowFor st p.2 = []) ∨
     (p.1 ∉ st.queue.map Prod.fst ∧ rowCorrect a st p.2 s))) ∧
  (∀ i ∈ st.dfa.finals, i < st.dfa.transitions.length) ∧
  (∀ m ∈ st.dfa.transitions, (m.map Prod.fst).Nodup ∧
    ∀ p ∈ m, p.2 < st.dfa.transitions.length ∧ p.1 ∈ a.alphabet) ∧
  (maskOf a.initials, 0) ∈ st.map

/-- The invariant inside the per-subset alphabet fold: state `j` (standing for
the popped subset `s`, whose mask has left the queue) has correct entries
exactly on the processed prefix `pre` of the alphabet. -/
def PInv (a : NFA V) (j : Nat) (s : List Nat) (pre : List V) (st : BuildSt V) :
    Prop :=
  st.dfa.alphabet = a.alphabet ∧
  st.dfa.initial = 0 ∧
  st.map.map Prod.snd = List.range st.dfa.transitions.length ∧
  (st.map.map Prod.fst).Nodup ∧
  (st.queue.map Prod.fst).Nodup ∧
  (∀ q ∈ st.queue, q.1 ∈ st.map.map Prod.fst ∧ subOk a q.2 ∧ maskOf q.2 = q.1) ∧
  (maskOf s, j) ∈ st.map ∧
  maskOf s ∉ st.queue.map Prod.fst ∧
  (∀ v ∈ pre, entryOk a st j s v) ∧
  (∀ v, v ∉ pre → lookupA (rowFor st j) v = none) ∧
  (∀ p ∈ st.map, ∃ s', subOk a s' ∧ maskOf s' = p.1 ∧
    (p.2 ∈ st.dfa.finals ↔ s'.any (· ∈ a.finals) = true) ∧
    (p.1 = maskOf s ∨
     (p.1 ∈ st.queue.map Prod.fst ∧ rowFor st p.2 = []) ∨
     (p.1 ∉ st.queue.map Prod.fst ∧ rowCorrect a st p.2 s'))) ∧
  (∀ i ∈ st.dfa.finals, i < st.dfa.transitions.length) ∧
  (∀ m ∈ st.dfa.transitions, (m.map Prod.fst).Nodup ∧
    ∀ p ∈ m, p.2 < st.dfa.transitions.length ∧ p.1 ∈ a.alphabet) ∧
  (maskOf a.initials, 0) ∈ st.map ∧
  subOk a s

/-- The termination measure of the worklist loop: pending queue entries plus
capacity for subsets not yet allocated, each weighted by the work one
iteration can add. -/
def phiM (a : NFA V) (st : BuildSt V) : Nat :=
  st.queue.length +
    (2 ^ a.transitions.length - st.map.length) * (a.alphabet.length + 1)

theorem mem_sinsert {α : Type} [DecidableEq α] (x y : α) (s : List α) :
    x ∈ sinsert y s ↔ x = y ∨ x ∈ s := by
  unfold sinsert
  split <;> rename_i h
  · constructor
    · exact Or.inr
    · rintro (rfl | hx) <;> assumption
  · simp [List.mem_cons]

theorem mem_foldl_sinsert {α : Type} [DecidableEq α] (l s₀ : List α) (x : α) :
    x ∈ l.foldl (fun s y => sinsert y s) s₀ ↔ x ∈ l ∨ x ∈ s₀ := by
  induction l generalizing s₀ with
  | nil => simp
  | cons a l ih =>
    rw [List.foldl_cons, ih, mem_sinsert]
    simp only [List.mem_cons]
    tauto

theorem mem_append_hashset {α : Type} [DecidableEq α] (dst src : List α) (x : α) :
    x ∈ append_hashset dst src ↔ x ∈ dst ∨ x ∈ src := by
  unfold append_hashset
  rw [mem_foldl_sinsert]
  tauto

theorem lookupA_append {α : Type} [DecidableEq V] (m m' : List (V × α)) (v : V) :
    lookupA (m ++ m') v = ((lookupA m v).orElse (fun _ => lookupA m' v)) := by
  induction m with
  | nil => simp [lookupA]
  | cons p m ih =>
    by_cases h : p.1 = v <;> simp [lookupA, h, ih]

theorem lookupA_mapReplace {α : Type} [DecidableEq V] (m : List (V × α)) (v w : V)
    (a : α) :
    lookupA (m.map (fun p => if p.1 = v then (v, a) else p)) w =
      if v = w then (lookupA m v).map (fun _ => a) else lookupA m w := by
  induction m with
  | nil => simp only [List.map_nil, lookupA]; split <;> simp
  | cons p m ih =>
    by_cases hp : p.1 = v
    · by_cases hw : v = w
      · subst hw
        simp [lookupA, hp]
      · have hpw : ¬ p.1 = w := by rw [hp]; exact hw
        simpa [lookupA, hp, hpw, hw] using ih
    · by_cases hw : v = w
      · subst hw
        simpa [lookupA, hp] using ih
      · by_cases hpw : p.1 = w
        · have hw' : ¬ w = v := fun h => hw h.symm
          simp [lookupA, hp, hpw, hw, hw']
        · simpa [lookupA, hp, hpw, hw] using ih

theorem lookupA_insertA {α : Type} [DecidableEq V] (m : List (V × α)) (v w : V)
    (a : α) :
    lookupA (insertA m v a) w = if v = w then some a else lookupA m w := by
  unfold insertA
  split <;> rename_i hsome
  · rw [lookupA_mapReplace]
    cases hlk : lookupA m v with
    | some a' => simp
    | none => rw [hlk] at hsome; simp at hsome
  · rw [lookupA_append]
    by_cases hvw : v = w
    · subst hvw
      cases hlk : lookupA m v with
      | some a' => rw [hlk] at hsome; simp at hsome
      | none => simp [hlk, lookupA, Option.orElse]
    · cases hlk : lookupA m w with
      | some a' => simp [hlk, hvw, Option.orElse]
      | none => simp [hlk, hvw, lookupA, Option.orElse]

theorem mem_foldl_sinsert_rev {α : Type} [DecidableEq α] (l s₀ : List α) (x : α) :
    x ∈ l.foldl (fun s y => sinsert y s) s₀ ↔ x ∈ l ∨ x ∈ s₀ :=
  mem_foldl_sinsert l s₀ x

theorem mem_stepSet (a : NFA V) (s : List Nat) (v : V) (t : Nat) :
    t ∈ stepSet a s v ↔ ∃ q ∈ s, t ∈ targets a q v := by
  have key : ∀ (s : List Nat) (acc : List Nat),
      t ∈ s.foldl (fun acc q => (targets a q v).foldl (fun ac u => sinsert u ac) acc) acc ↔
        (∃ q ∈ s, t ∈ targets a q v) ∨ t ∈ acc := by
    intro s
    induction s with
    | nil => simp
    | cons q s ih =>
      intro acc
      rw [List.foldl_cons, ih]
      have : t ∈ (targets a q v).foldl (fun ac u => sinsert u ac) acc ↔
          t ∈ targets a q v ∨ t ∈ acc := mem_foldl_sinsert (targets a q v) acc t
      rw [this]
      simp only [List.mem_cons]
      constructor
      · rintro (⟨q', hq', ht⟩ | h | h)
        · exact Or.inl ⟨q', Or.inr hq', ht⟩
        · exact Or.inl ⟨q, Or.inl rfl, h⟩
        · exact Or.inr h
      · rintro (⟨q', hq' | hq', ht⟩ | h)
        · subst hq'; exact Or.inr (Or.inl ht)
        · exact Or.inl ⟨q', hq', ht⟩
        · exact Or.inr (Or.inr h)
  rw [stepSet, key]
  simp

/-- `stepSet` only depends on the membership of the source set. -/
theorem stepSet_congr (a : NFA V) (s s' : List Nat) (v : V)
    (h : ∀ q, q ∈ s ↔ q ∈ s') (t : Nat) :
    t ∈ stepSet a s v ↔ t ∈ stepSet a s' v := by
  rw [mem_stepSet, mem_stepSet]
  constructor
  · rintro ⟨q, hq, ht⟩; exact ⟨q, (h q).1 hq, ht⟩
  · rintro ⟨q, hq, ht⟩; exact ⟨q, (h q).2 hq, ht⟩

theorem testBit_maskOf (s : List Nat) (q : Nat) :
    (maskOf s).testBit q = true ↔ q ∈ s := by
  have key : ∀ (s : List Nat) (a₀ : Nat),
      (s.foldl (fun acc x => acc ||| (1 <<< x)) a₀).testBit q = true ↔
        q ∈ s ∨ a₀.testBit q = true := by
    intro s
    induction s with
    | nil => simp
    | cons x s ih =>
      intro a₀
      have hone : ((1 : Nat) <<< x).testBit q = true ↔ q = x := by
        rw [Nat.shiftLeft_eq, one_mul, Nat.testBit_two_pow]
        simp [eq_comm]
      rw [List.foldl_cons, ih, Nat.testBit_lor]
      simp only [Bool.or_eq_true, List.mem_cons, hone]
      tauto
  rw [maskOf, key]
  simp

theorem maskOf_lt (s : List Nat) (n : Nat) (h : ∀ x ∈ s, x < n) :
    maskOf s < 2 ^ n := by
  have key : ∀ (s : List Nat) (a₀ : Nat), (∀ x ∈ s, x < n) → a₀ < 2 ^ n →
      s.foldl (fun acc x => acc ||| (1 <<< x)) a₀ < 2 ^ n := by
    intro s
    induction s with
    | nil => intro a₀ _ ha; simpa using ha
    | cons x s ih =>
      intro a₀ hs ha
      rw [List.foldl_cons]
      refine ih _ (fun y hy => hs y (List.mem_cons_of_mem _ hy)) ?_
      refine Nat.or_lt_two_pow ha ?_
      rw [Nat.shiftLeft_eq, one_mul]
      exact Nat.pow_lt_pow_right (by omega) (hs x (List.mem_cons_self _ _))
  exact key s 0 h (Nat.pos_pow_of_pos n (by omega))

theorem maskOf_eq_iff (s s' : List Nat) :
    maskOf s = maskOf s' ↔ ∀ q, q ∈ s ↔ q ∈ s' := by
  constructor
  · intro h q
    rw [← testBit_maskOf, ← testBit_maskOf, h]
  · intro h
    refine Nat.eq_of_testBit_eq fun i => ?_
    by_cases hq : i ∈ s
    · rw [(testBit_maskOf s i).2 hq, (testBit_maskOf s' i).2 ((h i).1 hq)]
    · have h1 : (maskOf s).testBit i = false := by
        rcases Bool.eq_false_or_eq_true ((maskOf s).testBit i) with hb | hb
        · exact absurd ((testBit_maskOf s i).1 hb) hq
        · exact hb
      have h2 : (maskOf s').testBit i = false := by
        rcases Bool.eq_false_or_eq_true ((maskOf s').testBit i) with hb | hb
        · exact absurd ((h i).2 ((testBit_maskOf s' i).1 hb)) hq
        · exact hb
      rw [h1, h2]

/-- C10: `NFA::kleene` has exactly one initial state, the newly appended state
whose index equals the prior state count; that state is also final; every
previously final state remains final; and `kleene().run` of the empty word is
`true` for every NFA, including the empty-language one. -/
theorem c10_kleene_initial_final_empty_word (a : NFA V) :
    a.kleene.initials = [a.transitions.length] ∧
      a.transitions.length ∈ a.kleene.finals ∧
      (∀ f ∈ a.finals, f ∈ a.kleene.finals) ∧
      a.kleene.run [] = true := by
  refine ⟨rfl, ?_, ?_, ?_⟩
  · show a.transitions.length ∈ sinsert a.transitions.length a.finals
    rw [mem_sinsert]
    exact Or.inl rfl
  · intro f hf
    show f ∈ sinsert a.transitions.length a.finals
    rw [mem_sinsert]
    exact Or.inr hf
  · show NFA.run _ [] = true
    rw [NFA.run]
    have h1 : a.kleene.initials = [a.transitions.length] := rfl
    rw [h1]
    simp only [List.cons_ne_self]
    rw [if_neg (by simp)]
    show List.any [a.transitions.length] (· ∈ a.kleene.finals) = true
    simp only [List.any_cons, List.any_nil, Bool.or_false, decide_eq_true_eq]
    show a.transitions.length ∈ sinsert a.transitions.length a.finals
    rw [mem_sinsert]
    exact Or.inl rfl

/-- C6: evaluating `NFA::repeat` at the failing input: the range `0..0`
(exclusive upper bound `0`) panics in the `usize` subtraction `a - 1` of the
bound derivation instead of returning the empty-language automaton, while
every included-bound range with upper bound below lower bound does return the
empty-language automaton. -/
theorem c6_repeat_excl_zero_panics :
    (NFA.new_empty_word ['a']).repeat (.incl 0) (.excl 0) = none ∧
      ∀ (a : NFA Char) (lo hi : Nat), hi < lo →
        a.repeat (.incl lo) (.incl hi) = some (NFA.new_empty a.alphabet) := by
  refine ⟨rfl, ?_⟩
  intro a lo hi h
  rw [NFA.repeat]
  simp only [endOfBound, startOfBound]
  rw [if_pos h]

theorem c6_repeat_excl_zero_panics_witness :
    (2 : Nat) < 3 ∧
      (NFA.new_full ['a']).repeat (.incl 3) (.incl 2) =
        some (NFA.new_empty ['a']) :=
  ⟨by decide, (c6_repeat_excl_zero_panics.2 (NFA.new_full ['a']) 3 2 (by decide))⟩

set_option maxRecDepth 40000 in
/-- C3: evaluating the pipeline at the claim's input:
`NFA::new_length({a,b}, 2).to_dfa()` panics (out-of-bounds `Vec` index) —
`new_length` wires state `2` to the nonexistent state `3`, the subset
construction enqueues the subset `{3}`, and processing it indexes
`transitions[3]` — instead of producing a DFA for the length-2 words. -/
theorem c3_new_length_to_dfa_panics :
    (NFA.new_length ['a', 'b'] 2).to_dfa = .error .panicked := by rfl

set_option maxRecDepth 40000 in
/-- C1 counterexample: the claim's failure clause is wrong on both sides: the
128-state empty-language NFA `bigEmptyNfa` is determinised successfully
(through the `is_empty` fast path) instead of failing, and the 3-state (hence
`< 128`) NFA `new_length({a,b}, 2)` panics instead of accepting the same
language. -/
theorem c1_to_dfa_cex :
    bigEmptyNfa.transitions.length = 128 ∧
      bigEmptyNfa.to_dfa =
        .ok { alphabet := ['a'], initial := 0, finals := [], transitions := [[]] } ∧
      (NFA.new_length ['a', 'b'] 2).transitions.length < 128 ∧
      (NFA.new_length ['a', 'b'] 2).to_dfa = .error .panicked := by
  refine ⟨by decide, by rfl, by decide, by rfl⟩

/-- C4 counterexample: with `a` the empty-word automaton and `b` the
one-letter automaton, `b`'s initials and finals are disjoint, yet the very
first final state of `a` (state `0`) is *not* final in `a.concatenate(b)`:
the result keeps `b`'s shifted finals `[2]`, not `a`'s finals. -/
theorem c4_concatenate_finals_cex :
    (∀ x ∈ (NFA.new_matching ['a'] ['a']).finals,
        x ∉ (NFA.new_matching ['a'] ['a']).initials) ∧
      0 ∈ (NFA.new_empty_word ['a'] : NFA Char).finals ∧
      0 ∉ ((NFA.new_empty_word ['a']).concatenate (NFA.new_matching ['a'] ['a'])).finals ∧
      ((NFA.new_empty_word ['a']).concatenate (NFA.new_matching ['a'] ['a'])).finals = [2] := by
  decide

/-- C8 counterexample: `twoInitialNfa` has intersecting initials and finals,
state `1` is reachable from the initials (it is initial), and not final — so
the claimed characterisation demands `is_full = false` — yet `is_full`
returns `true`: the traversal only ever checks transition targets, never the
initial states themselves. -/
theorem c8_is_full_cex :
    twoInitialNfa.is_full = true ∧
      0 ∈ twoInitialNfa.initials ∧ 0 ∈ twoInitialNfa.finals ∧
      Reach twoInitialNfa.transitions twoInitialNfa.initials 1 ∧
      1 ∉ twoInitialNfa.finals := by
  refine ⟨by decide, by decide, by decide, ReachG.base 1 (by decide), by decide⟩

set_option maxRecDepth 100000 in
/-- C9 counterexample: on the 128-state `bigNfa` (whose language is not
empty), `a.contains(a)` does not return `true`: it aborts in the
`unimplemented!()` big-automaton path of the determinisation. -/
theorem c9_contains_self_cex :
    bigNfa.contains bigNfa = .error .unimplemented := by rfl
theorem lookupA_mem {α : Type} (m : List (V × α)) (v : V) (b : α)
    (h : lookupA m v = some b) : (v, b) ∈ m := by
  induction m with
  | nil => simp [lookupA] at h
  | cons p m ih =>
    rw [lookupA] at h
    split at h
    · rename_i hp
      cases h
      have heq : (v, p.2) = p := by rw [← hp]
      exact heq ▸ List.mem_cons_self p m
    · exact List.mem_cons_of_mem _ (ih h)

theorem mem_succsAll_of_targets (a : NFA V) (e t : Nat) (v : V)
    (h : t ∈ targets a e v) : t ∈ succsAll a.transitions e := by
  rw [targets, tgt] at h
  cases hlk : lookupA (a.transitions.getD e []) v with
  | none => rw [hlk] at h; simp at h
  | some ts =>
    rw [hlk] at h
    simp only [Option.getD_some] at h
    have hmem := lookupA_mem _ _ _ hlk
    rw [succsAll, List.mem_flatten]
    exact ⟨ts, List.mem_map_of_mem Prod.snd hmem, h⟩

theorem lookupA_of_mem_nodup {α : Type} (m : List (V × α)) (p : V × α)
    (hm : (m.map Prod.fst).Nodup) (hp : p ∈ m) : lookupA m p.1 = some p.2 := by
  induction m with
  | nil => simp at hp
  | cons q m ih =>
    rcases List.mem_cons.1 hp with rfl | hp'
    · simp [lookupA]
    · rw [lookupA]
      have hq : ¬ q.1 = p.1 := by
        intro hq
        rw [List.map_cons, List.nodup_cons] at hm
        exact hm.1 (hq ▸ List.mem_map_of_mem Prod.fst hp')
      rw [if_neg hq]
      exact ih (List.nodup_cons.1 (by rw [List.map_cons] at hm; exact hm)).2 hp'

theorem targets_of_mem_succsAll (a : NFA V) (e t : Nat)
    (hrow : ((a.transitions.getD e []).map Prod.fst).Nodup)
    (h : t ∈ succsAll a.transitions e) : ∃ v, t ∈ targets a e v := by
  rw [succsAll, List.mem_flatten] at h
  obtain ⟨ts, hts, htmem⟩ := h
  rw [List.mem_map] at hts
  obtain ⟨p, hp, rfl⟩ := hts
  refine ⟨p.1, ?_⟩
  rw [targets, tgt, lookupA_of_mem_nodup _ p hrow hp]
  exact htmem

theorem scanT_eq_none_iff (bad : Nat → Bool) (ts acc stack : List Nat) :
    scanT bad ts acc stack = none ↔ ∃ t ∈ ts, bad t = true := by
  induction ts generalizing acc stack with
  | nil => simp [scanT]
  | cons t ts ih =>
    rw [scanT]
    by_cases hb : bad t
    · simp [hb]
    · rw [if_neg hb]
      by_cases ha : t ∈ acc
      · rw [if_pos ha, ih]
        simp only [List.mem_cons]
        constructor
        · rintro ⟨u, hu, hbu⟩; exact ⟨u, Or.inr hu, hbu⟩
        · rintro ⟨u, rfl | hu, hbu⟩
          · exact absurd hbu (by simpa using hb)
          · exact ⟨u, hu, hbu⟩
      · rw [if_neg ha, ih]
        simp only [List.mem_cons]
        constructor
        · rintro ⟨u, hu, hbu⟩; exact ⟨u, Or.inr hu, hbu⟩
        · rintro ⟨u, rfl | hu, hbu⟩
          · exact absurd hbu (by simpa using hb)
          · exact ⟨u, hu, hbu⟩

theorem scanT_some_mem_acc (bad : Nat → Bool) (ts acc stack acc' stack' : List Nat)
    (h : scanT bad ts acc stack = some (acc', stack')) (x : Nat) :
    x ∈ acc' ↔ x ∈ acc ∨ x ∈ ts := by
  induction ts generalizing acc stack with
  | nil =>
    rw [scanT] at h
    cases h
    simp
  | cons t ts ih =>
    rw [scanT] at h
    split at h
    · cases h
    · split at h <;> rename_i ha
      · rw [ih _ _ h]
        simp only [List.mem_cons]
        constructor
        · rintro (hx | hx)
          · exact Or.inl hx
          · exact Or.inr (Or.inr hx)
        · rintro (hx | rfl | hx)
          · exact Or.inl hx
          · exact Or.inl ha
          · exact Or.inr hx
      · rw [ih _ _ h]
        simp only [List.mem_cons]
        tauto

theorem scanT_some_mem_stack (bad : Nat → Bool) (ts acc stack acc' stack' : List Nat)
    (h : scanT bad ts acc stack = some (acc', stack')) (x : Nat) :
    x ∈ stack' → x ∈ stack ∨ x ∈ ts := by
  induction ts generalizing acc stack with
  | nil =>
    rw [scanT] at h
    cases h
    exact fun hx => Or.inl hx
  | cons t ts ih =>
    rw [scanT] at h
    split at h
    · cases h
    · split at h <;> rename_i ha
      · intro hx
        rcases ih _ _ h hx with hx | hx
        · exact Or.inl hx
        · exact Or.inr (List.mem_cons_of_mem _ hx)
      · intro hx
        rcases ih _ _ h hx with hx | hx
        · rcases List.mem_cons.1 hx with rfl | hx
          · exact Or.inr (List.mem_cons_self _ _)
          · exact Or.inl hx
        · exact Or.inr (List.mem_cons_of_mem _ hx)

theorem scanT_some_stack_superset (bad : Nat → Bool) (ts acc stack acc' stack' : List Nat)
    (h : scanT bad ts acc stack = some (acc', stack')) (x : Nat) :
    x ∈ stack → x ∈ stack' := by
  induction ts generalizing acc stack with
  | nil =>
    rw [scanT] at h
    cases h
    exact id
  | cons t ts ih =>
    rw [scanT] at h
    split at h
    · cases h
    · split at h
      · exact ih _ _ h
      · exact fun hx => ih _ _ h (List.mem_cons_of_mem _ hx)

theorem scanT_some_new_in_stack (bad : Nat → Bool) (ts acc stack acc' stack' : List Nat)
    (h : scanT bad ts acc stack = some (acc', stack')) (x : Nat) :
    x ∈ acc' → x ∉ acc → x ∈ stack' := by
  induction ts generalizing acc stack with
  | nil =>
    rw [scanT] at h
    cases h
    exact fun hx hn => absurd hx hn
  | cons t ts ih =>
    rw [scanT] at h
    split at h
    · cases h
    · split at h <;> rename_i ha
      · intro hx hn
        exact ih _ _ h hx hn
      · intro hx hn
        by_cases hxt : x ∈ t :: acc
        · rcases List.mem_cons.1 hxt with rfl | hx'
          · exact scanT_some_stack_superset _ _ _ _ _ _ h _ (List.mem_cons_self _ _)
          · exact absurd hx' hn
        · exact ih _ _ h hx (fun hc => hxt hc)

theorem scanT_some_no_bad (bad : Nat → Bool) (ts acc stack acc' stack' : List Nat)
    (h : scanT bad ts acc stack = some (acc', stack')) (t : Nat) (ht : t ∈ ts) :
    bad t = false := by
  by_cases hb : bad t = true
  · exfalso
    have hn : scanT bad ts acc stack = none :=
      (scanT_eq_none_iff bad ts acc stack).2 ⟨t, ht, hb⟩
    rw [hn] at h
    cases h
  · exact Bool.eq_false_iff.2 hb
/-- The termination measure of the worklist traversals: stack length plus, for
every unvisited state of the universe `U`, one unit for the pop and one per
outgoing target. -/
def dfsMeasure (succ : Nat → List Nat) (U : Finset Nat) (acc stack : List Nat) : Nat :=
  stack.length + ∑ u ∈ U \ acc.toFinset, (1 + (succ u).length)

theorem scanT_some_card (bad : Nat → Bool) (ts acc stack acc' stack' : List Nat)
    (h : scanT bad ts acc stack = some (acc', stack')) :
    stack'.length + acc.toFinset.card = stack.length + acc'.toFinset.card := by
  induction ts generalizing acc stack with
  | nil =>
    rw [scanT] at h
    cases h
    rfl
  | cons t ts ih =>
    rw [scanT] at h
    split at h
    · cases h
    · split at h <;> rename_i ha
      · exact ih _ _ h
      · have := ih _ _ h
        have hins : (t :: acc).toFinset = insert t acc.toFinset := by
          simp
        rw [hins, Finset.card_insert_of_not_mem (by simpa using ha)] at this
        simp only [List.length_cons] at this
        omega

theorem scanT_some_acc_subset (bad : Nat → Bool) (ts acc stack acc' stack' : List Nat)
    (h : scanT bad ts acc stack = some (acc', stack')) (x : Nat) (hx : x ∈ acc) :
    x ∈ acc' :=
  (scanT_some_mem_acc bad ts acc stack acc' stack' h x).2 (Or.inl hx)

theorem dfsMeasure_decreases (succ : Nat → List Nat) (U : Finset Nat)
    (bad : Nat → Bool) (e : Nat) (acc stack acc' stack' : List Nat)
    (h : scanT bad (succ e) acc stack = some (acc', stack'))
    (hU : ∀ t ∈ succ e, t ∈ U) :
    dfsMeasure succ U acc' stack' < dfsMeasure succ U acc (e :: stack) := by
  have hsub : acc.toFinset ⊆ acc'.toFinset := by
    intro x hx
    rw [List.mem_toFinset] at hx ⊢
    exact scanT_some_acc_subset _ _ _ _ _ _ h x hx
  have hsub2 : U \ acc'.toFinset ⊆ U \ acc.toFinset := by
    intro x hx
    rw [Finset.mem_sdiff] at hx ⊢
    exact ⟨hx.1, fun hc => hx.2 (hsub hc)⟩
  have hcard := scanT_some_card bad (succ e) acc stack acc' stack' h
  have hnew : acc'.toFinset \ acc.toFinset ⊆
      (U \ acc.toFinset) \ (U \ acc'.toFinset) := by
    intro x hx
    rw [Finset.mem_sdiff] at hx
    have hx1 := List.mem_toFinset.1 hx.1
    have hx2 : x ∉ acc := fun hc => hx.2 (List.mem_toFinset.2 hc)
    have hxU : x ∈ U := by
      rcases (scanT_some_mem_acc bad (succ e) acc stack acc' stack' h x).1 hx1 with
        hc | hc
      · exact absurd hc hx2
      · exact hU x hc
    rw [Finset.mem_sdiff, Finset.mem_sdiff, Finset.mem_sdiff]
    refine ⟨⟨hxU, hx.2⟩, ?_⟩
    intro hc
    exact hc.2 hx.1
  have hsplit :
      (∑ u ∈ (U \ acc.toFinset) \ (U \ acc'.toFinset), (1 + (succ u).length)) +
        (∑ u ∈ U \ acc'.toFinset, (1 + (succ u).length)) =
        ∑ u ∈ U \ acc.toFinset, (1 + (succ u).length) :=
    Finset.sum_sdiff hsub2
  have hkcard : acc'.toFinset.card - acc.toFinset.card ≤
      ((U \ acc.toFinset) \ (U \ acc'.toFinset)).card := by
    have h1 : (acc'.toFinset \ acc.toFinset).card =
        acc'.toFinset.card - acc.toFinset.card := Finset.card_sdiff hsub
    have h2 := Finset.card_le_card hnew
    omega
  have hterm : ((U \ acc.toFinset) \ (U \ acc'.toFinset)).card ≤
      ∑ u ∈ (U \ acc.toFinset) \ (U \ acc'.toFinset), (1 + (succ u).length) := by
    calc ((U \ acc.toFinset) \ (U \ acc'.toFinset)).card
        = ∑ _u ∈ (U \ acc.toFinset) \ (U \ acc'.toFinset), 1 := by
          rw [Finset.sum_const, smul_eq_mul, mul_one]
      _ ≤ _ := Finset.sum_le_sum (fun u _ => by omega)
  have hmono := Finset.card_le_card hsub
  rw [dfsMeasure, dfsMeasure, List.length_cons]
  omega
theorem reachAux_spec (succ : Nat → List Nat) (U : Finset Nat) (init : List Nat)
    (hU : ∀ e, ∀ t ∈ succ e, t ∈ U) :
    ∀ (fuel : Nat) (acc stack : List Nat),
      dfsMeasure succ U acc stack < fuel →
      (∀ x ∈ acc, ReachG succ init x) →
      (∀ x ∈ stack, x ∈ acc) →
      (∀ x ∈ init, x ∈ acc) →
      (∀ e ∈ acc, e ∉ stack → ∀ t ∈ succ e, t ∈ acc) →
      ∀ x, x ∈ reachAux succ fuel acc stack ↔ ReachG succ init x := by
  intro fuel
  induction fuel with
  | zero => intro acc stack hm; omega
  | succ f ih =>
    intro acc stack hm hsound hstack hinit hclosed x
    cases stack with
    | nil =>
      rw [reachAux]
      constructor
      · exact hsound x
      · intro hr
        induction hr with
        | base y hy => exact hinit y hy
        | step e t he ht ihe => exact hclosed e ihe (by simp) t ht
    | cons e stack₀ =>
      have hscan : ∃ p, scanT (fun _ => false) (succ e) acc stack₀ = some p := by
        cases h : scanT (fun _ => false) (succ e) acc stack₀ with
        | none =>
          rw [scanT_eq_none_iff] at h
          obtain ⟨t, _, ht⟩ := h
          simp at ht
        | some p => exact ⟨p, rfl⟩
      obtain ⟨⟨acc', stack'⟩, hscan⟩ := hscan
      rw [reachAux, hscan]
      have hdec := dfsMeasure_decreases succ U (fun _ => false) e acc stack₀ acc' stack'
        hscan (hU e)
      have hre : ReachG succ init e := hsound e (hstack e (List.mem_cons_self _ _))
      refine ih acc' stack' (by omega) ?_ ?_ ?_ ?_ x
      · intro y hy
        rcases (scanT_some_mem_acc _ _ _ _ _ _ hscan y).1 hy with hy' | hy'
        · exact hsound y hy'
        · exact ReachG.step e y hre hy'
      · intro y hy
        rcases scanT_some_mem_stack _ _ _ _ _ _ hscan y hy with hy' | hy'
        · exact scanT_some_acc_subset _ _ _ _ _ _ hscan y (hstack y (List.mem_cons_of_mem _ hy'))
        · exact (scanT_some_mem_acc _ _ _ _ _ _ hscan y).2 (Or.inr hy')
      · intro y hy
        exact scanT_some_acc_subset _ _ _ _ _ _ hscan y (hinit y hy)
      · intro e' he' hnst t ht
        by_cases hacc : e' ∈ acc
        · by_cases hee : e' = e
          · subst hee
            exact (scanT_some_mem_acc _ _ _ _ _ _ hscan t).2 (Or.inr ht)
          · have hnst₀ : e' ∉ e :: stack₀ := by
              intro hc
              rcases List.mem_cons.1 hc with hc | hc
              · exact hee hc
              · exact hnst (scanT_some_stack_superset _ _ _ _ _ _ hscan e' hc)
            exact scanT_some_acc_subset _ _ _ _ _ _ hscan t
              (hclosed e' hacc hnst₀ t ht)
        · exact absurd (scanT_some_new_in_stack _ _ _ _ _ _ hscan e' he' hacc) hnst

theorem guardedDfs_spec (succ : Nat → List Nat) (U : Finset Nat) (init : List Nat)
    (bad : Nat → Bool) (hU : ∀ e, ∀ t ∈ succ e, t ∈ U) :
    ∀ (fuel : Nat) (acc stack : List Nat),
      dfsMeasure succ U acc stack < fuel →
      (∀ x ∈ acc, ReachG succ init x) →
      (∀ x ∈ stack, x ∈ acc) →
      (∀ x ∈ init, x ∈ acc) →
      (∀ e ∈ acc, e ∉ stack → ∀ t ∈ succ e, t ∈ acc) →
      (∀ e ∈ acc, e ∉ stack → ∀ t ∈ succ e, bad t = false) →
      (guardedDfs succ bad fuel acc stack = true ↔
        ∀ e, ReachG succ init e → ∀ t ∈ succ e, bad t = false) := by
  intro fuel
  induction fuel with
  | zero => intro acc stack hm; omega
  | succ f ih =>
    intro acc stack hm hsound hstack hinit hclosed hgood
    cases stack with
    | nil =>
      rw [guardedDfs]
      simp only [true_iff]
      intro e he t ht
      have hacc : ∀ y, ReachG succ init y → y ∈ acc := by
        intro y hy
        induction hy with
        | base z hz => exact hinit z hz
        | step e' t' he' ht' ihe => exact hclosed e' ihe (by simp) t' ht'
      exact hgood e (hacc e he) (by simp) t ht
    | cons e stack₀ =>
      have hre : ReachG succ init e := hsound e (hstack e (List.mem_cons_self _ _))
      rw [guardedDfs]
      cases hscan : scanT bad (succ e) acc stack₀ with
      | none =>
        rw [scanT_eq_none_iff] at hscan
        obtain ⟨t, htmem, htbad⟩ := hscan
        constructor
        · intro hc
          cases hc
        · intro hall
          rw [hall e hre t htmem] at htbad
          cases htbad
      | some p =>
        obtain ⟨acc', stack'⟩ := p
        have hdec := dfsMeasure_decreases succ U bad e acc stack₀ acc' stack'
          hscan (hU e)
        refine ih acc' stack' (by omega) ?_ ?_ ?_ ?_ ?_
        · intro y hy
          rcases (scanT_some_mem_acc _ _ _ _ _ _ hscan y).1 hy with hy' | hy'
          · exact hsound y hy'
          · exact ReachG.step e y hre hy'
        · intro y hy
          rcases scanT_some_mem_stack _ _ _ _ _ _ hscan y hy with hy' | hy'
          · exact scanT_some_acc_subset _ _ _ _ _ _ hscan y
              (hstack y (List.mem_cons_of_mem _ hy'))
          · exact (scanT_some_mem_acc _ _ _ _ _ _ hscan y).2 (Or.inr hy')
        · intro y hy
          exact scanT_some_acc_subset _ _ _ _ _ _ hscan y (hinit y hy)
        · intro e' he' hnst t ht
          by_cases hacc : e' ∈ acc
          · by_cases hee : e' = e
            · subst hee
              exact (scanT_some_mem_acc _ _ _ _ _ _ hscan t).2 (Or.inr ht)
            · have hnst₀ : e' ∉ e :: stack₀ := by
                intro hc
                rcases List.mem_cons.1 hc with hc | hc
                · exact hee hc
                · exact hnst (scanT_some_stack_superset _ _ _ _ _ _ hscan e' hc)
              exact scanT_some_acc_subset _ _ _ _ _ _ hscan t
                (hclosed e' hacc hnst₀ t ht)
          · exact absurd (scanT_some_new_in_stack _ _ _ _ _ _ hscan e' he' hacc) hnst
        · intro e' he' hnst t ht
          by_cases hee : e' = e
          · subst hee
            exact scanT_some_no_bad _ _ _ _ _ _ hscan t ht
          · by_cases hacc : e' ∈ acc
            · have hnst₀ : e' ∉ e :: stack₀ := by
                intro hc
                rcases List.mem_cons.1 hc with hc | hc
                · exact hee hc
                · exact hnst (scanT_some_stack_superset _ _ _ _ _ _ hscan e' hc)
              exact hgood e' hacc hnst₀ t ht
            · exact absurd (scanT_some_new_in_stack _ _ _ _ _ _ hscan e' he' hacc) hnst
theorem length_succsAll (tr : List (List (V × List Nat))) (u : Nat) :
    (succsAll tr u).length = ((tr.getD u []).map (fun p => p.2.length)).sum := by
  rw [succsAll, List.length_flatten, List.map_map]
  rfl

theorem sum_range_length_succsAll (tr : List (List (V × List Nat))) :
    ∑ u ∈ Finset.range tr.length, (succsAll tr u).length =
      (tr.map (fun m => (m.map (fun p => p.2.length)).sum)).sum := by
  induction tr with
  | nil => simp
  | cons m tr ih =>
    rw [List.length_cons, Finset.sum_range_succ']
    have h0 : (succsAll (m :: tr) 0).length = (m.map (fun p => p.2.length)).sum := by
      rw [length_succsAll]
      rfl
    have hs : ∀ u, (succsAll (m :: tr) (u + 1)).length = (succsAll tr u).length := by
      intro u
      rw [length_succsAll, length_succsAll]
      rfl
    simp only [hs, h0]
    rw [ih, List.map_cons, List.sum_cons]
    omega

theorem succsAll_mem_range (tr : List (List (V × List Nat)))
    (hwf : wfTargets tr) (e t : Nat) (ht : t ∈ succsAll tr e) :
    t ∈ Finset.range tr.length := by
  rw [succsAll, List.mem_flatten] at ht
  obtain ⟨ts, hts, htmem⟩ := ht
  rw [List.mem_map] at hts
  obtain ⟨p, hp, rfl⟩ := hts
  by_cases he : e < tr.length
  · have hrow : tr.getD e [] ∈ tr := by
      rw [List.getD_eq_getElem?_getD, List.getElem?_eq_getElem he]
      exact List.getElem_mem _
    rw [Finset.mem_range]
    exact hwf _ hrow p hp _ htmem
  · rw [List.getD_eq_getElem?_getD, List.getElem?_eq_none (by omega)] at hp
    simp at hp

theorem dfsMeasure_lt_dfsFuel (tr : List (List (V × List Nat))) (init : List Nat) :
    dfsMeasure (succsAll tr) (Finset.range tr.length) init init < dfsFuel tr init := by
  rw [dfsMeasure, dfsFuel]
  have h1 : ∑ u ∈ Finset.range tr.length \ init.toFinset, (1 + (succsAll tr u).length) ≤
      ∑ u ∈ Finset.range tr.length, (1 + (succsAll tr u).length) :=
    Finset.sum_le_sum_of_subset (Finset.sdiff_subset)
  have h2 : ∑ u ∈ Finset.range tr.length, (1 + (succsAll tr u).length) =
      tr.length + ∑ u ∈ Finset.range tr.length, (succsAll tr u).length := by
    rw [Finset.sum_add_distrib, Finset.sum_const, Finset.card_range, smul_eq_mul,
      mul_one]
  rw [sum_range_length_succsAll] at h2
  omega

/-- The closure traversal shared by `make_reachable` and `is_reachable`
computes exactly the reachable states. -/
theorem mem_reachAux_iff (tr : List (List (V × List Nat))) (init : List Nat)
    (hwf : wfTargets tr) (x : Nat) :
    x ∈ reachAux (succsAll tr) (dfsFuel tr init) init init ↔ Reach tr init x := by
  refine reachAux_spec (succsAll tr) (Finset.range tr.length) init
    (fun e t ht => succsAll_mem_range tr hwf e t ht) (dfsFuel tr init) init init
    (dfsMeasure_lt_dfsFuel tr init) ?_ ?_ ?_ ?_ x
  · exact fun y hy => ReachG.base y hy
  · exact fun y hy => hy
  · exact fun y hy => hy
  · intro e he hns
    exact absurd he hns

/-- `NFA::is_empty` is true exactly when no state reachable from the initials
is final. -/
theorem is_empty_iff_no_reachable_final (a : NFA V)
    (hwf : wfTargets a.transitions) :
    a.is_empty = true ↔
      ∀ x, Reach a.transitions a.initials x → x ∉ a.finals := by
  rw [NFA.is_empty]
  by_cases hint : a.initials.any (· ∈ a.finals)
  · rw [if_pos hint]
    simp only [List.any_eq_true, decide_eq_true_eq] at hint
    obtain ⟨x, hx, hxf⟩ := hint
    constructor
    · intro hc
      cases hc
    · intro hall
      exact absurd hxf (hall x (ReachG.base x hx))
  · rw [if_neg hint]
    have hspec := guardedDfs_spec (succsAll a.transitions)
      (Finset.range a.transitions.length) a.initials (fun t => decide (t ∈ a.finals))
      (fun e t ht => succsAll_mem_range a.transitions hwf e t ht)
      (dfsFuel a.transitions a.initials) a.initials a.initials
      (dfsMeasure_lt_dfsFuel a.transitions a.initials)
      (fun y hy => ReachG.base y hy) (fun y hy => hy) (fun y hy => hy)
      (fun e he hns => absurd he hns) (fun e he hns => absurd he hns)
    rw [hspec]
    simp only [List.any_eq_true, decide_eq_true_eq, not_exists] at hint
    constructor
    · intro hall x hx
      induction hx with
      | base y hy =>
        intro hc
        exact hint y ⟨hy, hc⟩
      | step e t he ht ihe =>
        intro hc
        have := hall e he t ht
        simp only [decide_eq_false_iff_not] at this
        exact this hc
    · intro hall e he t ht
      simp only [decide_eq_false_iff_not]
      exact hall t (ReachG.step e t he ht)

/-- `NFA::is_full` is true exactly when initials and finals intersect and
every transition target reachable from the initials is final. -/
theorem is_full_iff_step_reachable_final (a : NFA V)
    (hwf : wfTargets a.transitions) :
    a.is_full = true ↔
      (∃ x ∈ a.initials, x ∈ a.finals) ∧
        ∀ e, Reach a.transitions a.initials e →
          ∀ t ∈ succsAll a.transitions e, t ∈ a.finals := by
  rw [NFA.is_full]
  by_cases hint : a.initials.any (· ∈ a.finals)
  · rw [if_pos hint]
    simp only [List.any_eq_true, decide_eq_true_eq] at hint
    have hspec := guardedDfs_spec (succsAll a.transitions)
      (Finset.range a.transitions.length) a.initials
      (fun t => !(decide (t ∈ a.finals)))
      (fun e t ht => succsAll_mem_range a.transitions hwf e t ht)
      (dfsFuel a.transitions a.initials) a.initials a.initials
      (dfsMeasure_lt_dfsFuel a.transitions a.initials)
      (fun y hy => ReachG.base y hy) (fun y hy => hy) (fun y hy => hy)
      (fun e he hns => absurd he hns) (fun e he hns => absurd he hns)
    rw [hspec]
    constructor
    · intro hall
      refine ⟨hint, fun e he t ht => ?_⟩
      have := hall e he t ht
      simpa using this
    · intro hall e he t ht
      simp only [Bool.not_eq_false', decide_eq_true_eq]
      exact hall.2 e he t ht
  · rw [if_neg hint]
    simp only [List.any_eq_true, decide_eq_true_eq, not_exists] at hint
    constructor
    · intro hc
      cases hc
    · intro hall
      obtain ⟨⟨x, hx, hxf⟩, _⟩ := hall
      exact absurd ⟨hx, hxf⟩ (hint x)
theorem wfIdx_new_empty (alphabet : List V) : (NFA.new_empty alphabet).wfIdx := by
  refine ⟨?_, ?_, ?_⟩ <;> simp [NFA.new_empty, wfTargets]

theorem wfIdx_new_full (alphabet : List V) : (NFA.new_full alphabet).wfIdx := by
  refine ⟨?_, ?_, ?_⟩
  · simp [NFA.new_full]
  · simp [NFA.new_full]
  · intro m hm p hp t ht
    simp only [NFA.new_full, List.mem_singleton] at hm
    subst hm
    rw [List.mem_map] at hp
    obtain ⟨v, _, rfl⟩ := hp
    simp only [List.mem_singleton] at ht
    simp [NFA.new_full, ht]

theorem wfIdx_new_matching (alphabet : List V) (s : List V) :
    (NFA.new_matching alphabet s).wfIdx := by
  have hlen : (NFA.new_matching alphabet s).transitions.length = s.length + 1 := by
    simp [NFA.new_matching]
  refine ⟨?_, ?_, ?_⟩
  · intro i hi
    simp only [NFA.new_matching, List.mem_singleton] at hi
    subst hi
    omega
  · intro i hi
    simp only [NFA.new_matching, List.mem_singleton] at hi
    subst hi
    omega
  · intro m hm p hp t ht
    rw [hlen]
    simp only [NFA.new_matching, List.mem_map, List.mem_range] at hm
    obtain ⟨i, hi, rfl⟩ := hm
    cases hs : s.get? i with
    | none => rw [hs] at hp; simp at hp
    | some c =>
      rw [hs] at hp
      simp only [List.mem_singleton] at hp
      subst hp
      simp only [List.mem_singleton] at ht
      subst ht
      have : i < s.length := List.get?_eq_some.1 hs |>.choose
      omega

theorem wfIdx_new_empty_word (alphabet : List V) :
    (NFA.new_empty_word alphabet).wfIdx := by
  refine ⟨?_, ?_, ?_⟩ <;> simp [NFA.new_empty_word, wfTargets]

theorem mem_append_shift_hashset (dst src : List Nat) (l x : Nat) :
    x ∈ append_shift_hashset dst src l ↔ x ∈ dst ∨ ∃ y ∈ src, x = y + l := by
  rw [append_shift_hashset, mem_append_hashset, List.mem_map]
  constructor
  · rintro (h | ⟨y, hy, rfl⟩)
    · exact Or.inl h
    · exact Or.inr ⟨y, hy, rfl⟩
  · rintro (h | ⟨y, hy, rfl⟩)
    · exact Or.inl h
    · exact Or.inr ⟨y, hy, rfl⟩

theorem wfIdx_unite (a b : NFA V) (ha : a.wfIdx) (hb : b.wfIdx) :
    (a.unite b).wfIdx := by
  obtain ⟨hai, haf, hat⟩ := ha
  obtain ⟨hbi, hbf, hbt⟩ := hb
  have hlen : (a.unite b).transitions.length =
      a.transitions.length + b.transitions.length := by
    simp [NFA.unite, append_shift_transitions]
  refine ⟨?_, ?_, ?_⟩
  · intro i hi
    rw [hlen]
    rcases (mem_append_shift_hashset _ _ _ _).1 hi with h | ⟨y, hy, rfl⟩
    · have := hai i h
      omega
    · have := hbi y hy
      omega
  · intro i hi
    rw [hlen]
    rcases (mem_append_shift_hashset _ _ _ _).1 hi with h | ⟨y, hy, rfl⟩
    · have := haf i h
      omega
    · have := hbf y hy
      omega
  · intro m hm p hp t ht
    rw [hlen]
    rcases List.mem_append.1 hm with h | h
    · have := hat m h p hp t ht
      omega
    · rw [List.mem_map] at h
      obtain ⟨m₀, hm₀, rfl⟩ := h
      rw [List.mem_map] at hp
      obtain ⟨p₀, hp₀, rfl⟩ := hp
      simp only [List.mem_map] at ht
      obtain ⟨t₀, ht₀, rfl⟩ := ht
      have := hbt m₀ hm₀ p₀ hp₀ t₀ ht₀
      omega

theorem mem_insertA {α : Type} (m : List (V × α)) (v : V) (a : α) (p : V × α)
    (hp : p ∈ insertA m v a) : p ∈ m ∨ p = (v, a) := by
  rw [insertA] at hp
  split at hp
  · rw [List.mem_map] at hp
    obtain ⟨q, hq, rfl⟩ := hp
    split
    · exact Or.inr rfl
    · exact Or.inl hq
  · rcases List.mem_append.1 hp with h | h
    · exact Or.inl h
    · simp only [List.mem_singleton] at h
      exact Or.inr h

theorem mem_pushEntry_targets (m : List (V × List Nat)) (k : V) (i : Nat)
    (p : V × List Nat) (hp : p ∈ pushEntry m k i) (t : Nat) (ht : t ∈ p.2) :
    (∃ q ∈ m, t ∈ q.2) ∨ t = i := by
  rw [pushEntry] at hp
  split at hp
  · rw [List.mem_map] at hp
    obtain ⟨q, hq, rfl⟩ := hp
    split at ht
    · rcases List.mem_append.1 ht with h | h
      · exact Or.inl ⟨q, hq, h⟩
      · simp only [List.mem_singleton] at h
        exact Or.inr h
    · exact Or.inl ⟨q, hq, ht⟩
  · rcases List.mem_append.1 hp with h | h
    · exact Or.inl ⟨p, h, ht⟩
    · simp only [List.mem_singleton] at h
      subst h
      simp only [List.mem_singleton] at ht
      exact Or.inr ht

theorem mem_appendEntry_targets (m : List (V × List Nat)) (v : V) (ts : List Nat)
    (p : V × List Nat) (hp : p ∈ appendEntry m v ts) (t : Nat) (ht : t ∈ p.2) :
    (∃ q ∈ m, t ∈ q.2) ∨ t ∈ ts := by
  rw [appendEntry] at hp
  split at hp
  · rw [List.mem_map] at hp
    obtain ⟨q, hq, rfl⟩ := hp
    split at ht
    · rcases List.mem_append.1 ht with h | h
      · exact Or.inl ⟨q, hq, h⟩
      · exact Or.inr h
    · exact Or.inl ⟨q, hq, ht⟩
  · rcases List.mem_append.1 hp with h | h
    · exact Or.inl ⟨p, h, ht⟩
    · simp only [List.mem_singleton] at h
      subst h
      exact Or.inr ht

theorem completeRow_targets (alphabet : List V) (l : Nat) (m : List (V × List Nat)) :
    ∀ p ∈ completeRow alphabet l m, ∀ t ∈ p.2, t = l ∨ ∃ q ∈ m, t ∈ q.2 := by
  rw [completeRow]
  refine @List.foldlRecOn _ _
    (fun b => ∀ p ∈ b, ∀ t ∈ p.2, t = l ∨ ∃ q ∈ m, t ∈ q.2) alphabet _ m ?_ ?_
  · intro p hp t ht
    exact Or.inr ⟨p, hp, ht⟩
  · intro m' hm' v _
    split
    · intro p hp t ht
      rcases List.mem_append.1 hp with h | h
      · exact hm' p h t ht
      · simp only [List.mem_singleton] at h
        subst h
        simp only [List.mem_singleton] at ht
        exact Or.inl ht
    · split
      · intro p hp t ht
        rcases mem_insertA m' v [l] p hp with h | h
        · exact hm' p h t ht
        · subst h
          simp only [List.mem_singleton] at ht
          exact Or.inl ht
      · exact hm'

theorem wfIdx_complete (a : NFA V) (ha : a.wfIdx) : a.complete.wfIdx := by
  obtain ⟨hai, haf, hat⟩ := ha
  rw [NFA.complete]
  split
  · exact ⟨hai, haf, hat⟩
  · have hlen : ((a.transitions ++ [[]]).map
        (completeRow a.alphabet a.transitions.length)).length =
        a.transitions.length + 1 := by
      simp
    refine ⟨?_, ?_, ?_⟩
    · intro i hi
      simp only at hi
      split at hi
      · rw [mem_sinsert] at hi
        rcases hi with rfl | hi
        · simp only [hlen]
          omega
        · rename_i hemp
          rw [hemp] at hi
          simp at hi
      · have := hai i hi
        simp only [hlen]
        omega
    · intro i hi
      have := haf i hi
      simp only [hlen]
      omega
    · intro m hm p hp t ht
      simp only [hlen]
      simp only [List.mem_map] at hm
      obtain ⟨m₀, hm₀, rfl⟩ := hm
      rcases completeRow_targets a.alphabet a.transitions.length m₀ p hp t ht with
        rfl | ⟨q, hq, htq⟩
      · omega
      · rcases List.mem_append.1 hm₀ with h | h
        · have := hat m₀ h q hq t htq
          omega
        · simp only [List.mem_singleton] at h
          subst h
          simp at hq
theorem reverseTable_wf (a : NFA V) :
    (reverseTable a).length = a.transitions.length ∧
      ∀ m ∈ reverseTable a, ∀ p ∈ m, ∀ t ∈ p.2, t < a.transitions.length := by
  rw [reverseTable]
  refine @List.foldlRecOn _ _
    (fun tr : List (List (V × List Nat)) => tr.length = a.transitions.length ∧
      ∀ m ∈ tr, ∀ p ∈ m, ∀ t ∈ p.2, t < a.transitions.length)
    (List.range a.transitions.length) _ (List.replicate a.transitions.length []) ?_ ?_
  · refine ⟨by simp, ?_⟩
    intro m hm
    rw [List.eq_of_mem_replicate hm]
    simp
  · intro tr htr i hi
    rw [List.mem_range] at hi
    refine @List.foldlRecOn _ _
      (fun tr : List (List (V × List Nat)) => tr.length = a.transitions.length ∧
        ∀ m ∈ tr, ∀ p ∈ m, ∀ t ∈ p.2, t < a.transitions.length)
      (a.transitions.getD i []) _ tr htr ?_
    intro tr' htr' p _
    refine @List.foldlRecOn _ _
      (fun tr : List (List (V × List Nat)) => tr.length = a.transitions.length ∧
        ∀ m ∈ tr, ∀ p ∈ m, ∀ t ∈ p.2, t < a.transitions.length)
      p.2 _ tr' htr' ?_
    intro tr'' htr'' e _
    refine ⟨by rw [List.length_set]; exact htr''.1, ?_⟩
    intro m hm q hq t ht
    rcases List.mem_or_eq_of_mem_set hm with hm' | rfl
    · exact htr''.2 m hm' q hq t ht
    · rcases mem_pushEntry_targets _ _ _ q hq t ht with ⟨q', hq', htq'⟩ | rfl
      · by_cases he : e < tr''.length
        · have hrow : tr''.getD e [] ∈ tr'' := by
            rw [List.getD_eq_getElem?_getD, List.getElem?_eq_getElem he]
            exact List.getElem_mem _
          exact htr''.2 _ hrow q' hq' t htq'
        · rw [List.getD_eq_getElem?_getD, List.getElem?_eq_none (by omega)] at hq'
          simp at hq'
      · exact hi

theorem wfIdx_reverse (a : NFA V) (ha : a.wfIdx) : a.reverse.wfIdx := by
  obtain ⟨hai, haf, hat⟩ := ha
  obtain ⟨hrl, hrt⟩ := reverseTable_wf a
  refine ⟨?_, ?_, ?_⟩
  · intro i hi
    show i < (reverseTable a).length
    rw [hrl]
    exact haf i hi
  · intro i hi
    show i < (reverseTable a).length
    rw [hrl]
    exact hai i hi
  · intro m hm p hp t ht
    show t < (reverseTable a).length
    rw [hrl]
    exact hrt m hm p hp t ht

theorem shift_fnda_wf (b : NFA V) (l : Nat) (hb : b.wfIdx) :
    (∀ i ∈ (shift_fnda b l).initials,
        l ≤ i ∧ i < l + b.transitions.length) ∧
      (∀ i ∈ (shift_fnda b l).finals, l ≤ i ∧ i < l + b.transitions.length) ∧
      (shift_fnda b l).transitions.length = b.transitions.length ∧
      ∀ m ∈ (shift_fnda b l).transitions, ∀ p ∈ m, ∀ t ∈ p.2,
        l ≤ t ∧ t < l + b.transitions.length := by
  obtain ⟨hbi, hbf, hbt⟩ := hb
  refine ⟨?_, ?_, by simp [shift_fnda], ?_⟩
  · intro i hi
    simp only [shift_fnda, List.mem_map] at hi
    obtain ⟨y, hy, rfl⟩ := hi
    have := hbi y hy
    omega
  · intro i hi
    simp only [shift_fnda, List.mem_map] at hi
    obtain ⟨y, hy, rfl⟩ := hi
    have := hbf y hy
    omega
  · intro m hm p hp t ht
    simp only [shift_fnda, List.mem_map] at hm
    obtain ⟨m₀, hm₀, rfl⟩ := hm
    rw [List.mem_map] at hp
    obtain ⟨p₀, hp₀, rfl⟩ := hp
    simp only [List.mem_map] at ht
    obtain ⟨t₀, ht₀, rfl⟩ := ht
    have := hbt m₀ hm₀ p₀ hp₀ t₀ ht₀
    omega

theorem concatRewired_wf (a b' : NFA V) (l n : Nat)
    (hlen : a.transitions.length ≤ n)
    (ha : ∀ m ∈ a.transitions, ∀ p ∈ m, ∀ t ∈ p.2, t < n)
    (hb : ∀ m ∈ b'.transitions, ∀ p ∈ m, ∀ t ∈ p.2, t < n) :
    (concatRewired a b' l).length = a.transitions.length ∧
      ∀ m ∈ concatRewired a b' l, ∀ p ∈ m, ∀ t ∈ p.2, t < n := by
  rw [concatRewired]
  refine @List.foldlRecOn _ _
    (fun tr : List (List (V × List Nat)) => tr.length = a.transitions.length ∧
      ∀ m ∈ tr, ∀ p ∈ m, ∀ t ∈ p.2, t < n)
    b'.initials _ a.transitions ⟨rfl, ha⟩ ?_
  intro tr htr e _
  refine @List.foldlRecOn _ _
    (fun tr : List (List (V × List Nat)) => tr.length = a.transitions.length ∧
      ∀ m ∈ tr, ∀ p ∈ m, ∀ t ∈ p.2, t < n)
    (b'.transitions.getD (e - l) []) _ tr htr ?_
  intro tr' htr' p hp
  have hpt : ∀ t ∈ p.2, t < n := by
    by_cases he : e - l < b'.transitions.length
    · have hrow : b'.transitions.getD (e - l) [] ∈ b'.transitions := by
        rw [List.getD_eq_getElem?_getD, List.getElem?_eq_getElem he]
        exact List.getElem_mem _
      exact fun t ht => hb _ hrow p hp t ht
    · rw [List.getD_eq_getElem?_getD, List.getElem?_eq_none (by omega)] at hp
      simp at hp
  refine @List.foldlRecOn _ _
    (fun tr : List (List (V × List Nat)) => tr.length = a.transitions.length ∧
      ∀ m ∈ tr, ∀ p ∈ m, ∀ t ∈ p.2, t < n)
    a.finals _ tr' htr' ?_
  intro tr'' htr'' f _
  refine ⟨by rw [List.length_set]; exact htr''.1, ?_⟩
  intro m hm q hq t ht
  rcases List.mem_or_eq_of_mem_set hm with hm' | rfl
  · exact htr''.2 m hm' q hq t ht
  · rcases mem_appendEntry_targets _ _ _ q hq t ht with ⟨q', hq', htq'⟩ | hmem
    · by_cases hf : f < tr''.length
      · have hrow : tr''.getD f [] ∈ tr'' := by
          rw [List.getD_eq_getElem?_getD, List.getElem?_eq_getElem hf]
          exact List.getElem_mem _
        exact htr''.2 _ hrow q' hq' t htq'
      · rw [List.getD_eq_getElem?_getD, List.getElem?_eq_none (by omega)] at hq'
        simp at hq'
    · exact hpt t hmem

theorem wfIdx_concatenate (a b : NFA V) (ha : a.wfIdx) (hb : b.wfIdx) :
    (a.concatenate b).wfIdx := by
  have hai := ha.1
  have haf := ha.2.1
  have hat := ha.2.2
  obtain ⟨hsi, hsf, hsl, hst⟩ := shift_fnda_wf b a.transitions.length hb
  have htot : ∀ m ∈ (shift_fnda b a.transitions.length).transitions, ∀ p ∈ m,
      ∀ t ∈ p.2, t < a.transitions.length + b.transitions.length :=
    fun m hm p hp t ht => (hst m hm p hp t ht).2
  obtain ⟨hrl, hrt⟩ := concatRewired_wf a (shift_fnda b a.transitions.length)
    a.transitions.length (a.transitions.length + b.transitions.length)
    (by omega)
    (fun m hm p hp t ht => by have := hat m hm p hp t ht; omega)
    htot
  have hlen : (a.concatenate b).transitions.length =
      a.transitions.length + b.transitions.length := by
    show (concatRewired _ _ _ ++ _).length = _
    rw [List.length_append, hrl, hsl]
  refine ⟨?_, ?_, ?_⟩
  · intro i hi
    rw [hlen]
    have := hai i hi
    omega
  · intro i hi
    rw [hlen]
    show i < _
    have hfin : i ∈ (if (shift_fnda b a.transitions.length).finals.all
        (· ∉ (shift_fnda b a.transitions.length).initials) then
          (shift_fnda b a.transitions.length).finals
        else append_hashset a.finals (shift_fnda b a.transitions.length).finals) := hi
    split at hfin
    · have := hsf i hfin
      omega
    · rcases (mem_append_hashset _ _ _).1 hfin with h | h
      · have := haf i h
        omega
      · have := hsf i h
        omega
  · intro m hm p hp t ht
    rw [hlen]
    rcases List.mem_append.1 hm with h | h
    · exact hrt m h p hp t ht
    · exact htot m h p hp t ht

theorem mem_mapInsertSet_targets (mp : List (V × List Nat)) (k : V) (x : Nat)
    (p : V × List Nat) (hp : p ∈ mapInsertSet mp k x) (t : Nat) (ht : t ∈ p.2) :
    (∃ q ∈ mp, t ∈ q.2) ∨ t = x := by
  rw [mapInsertSet] at hp
  split at hp <;> rename_i s hlk
  · rcases List.mem_append.1 hp with h | h
    · exact Or.inl ⟨p, h, ht⟩
    · simp only [List.mem_singleton] at h
      subst h
      simp only at ht
      rw [mem_sinsert] at ht
      rcases ht with rfl | ht
      · exact Or.inr rfl
      · simp at ht
  · rcases mem_insertA _ _ _ _ hp with h | h
    · exact Or.inl ⟨p, h, ht⟩
    · subst h
      simp only at ht
      rw [mem_sinsert] at ht
      rcases ht with rfl | ht
      · exact Or.inr rfl
      · exact Or.inl ⟨(k, s), lookupA_mem mp k s hlk, ht⟩

theorem kleeneMap_targets (a : NFA V) :
    ∀ p ∈ kleeneMap a, ∀ t ∈ p.2, ∃ m ∈ a.transitions, ∃ q ∈ m, t ∈ q.2 := by
  rw [kleeneMap]
  refine @List.foldlRecOn _ _
    (fun mp : List (V × List Nat) => ∀ p ∈ mp, ∀ t ∈ p.2, ∃ m ∈ a.transitions, ∃ q ∈ m, t ∈ q.2)
    a.initials _ [] (by simp) ?_
  intro mp hmp i _
  refine @List.foldlRecOn _ _
    (fun mp : List (V × List Nat) => ∀ p ∈ mp, ∀ t ∈ p.2, ∃ m ∈ a.transitions, ∃ q ∈ m, t ∈ q.2)
    (a.transitions.getD i []) _ mp hmp ?_
  intro mp' hmp' p hp
  have hrowp : ∀ t ∈ p.2, ∃ m ∈ a.transitions, ∃ q ∈ m, t ∈ q.2 := by
    by_cases hi : i < a.transitions.length
    · have hrow : a.transitions.getD i [] ∈ a.transitions := by
        rw [List.getD_eq_getElem?_getD, List.getElem?_eq_getElem hi]
        exact List.getElem_mem _
      exact fun t ht => ⟨_, hrow, p, hp, ht⟩
    · rw [List.getD_eq_getElem?_getD, List.getElem?_eq_none (by omega)] at hp
      simp at hp
  refine @List.foldlRecOn _ _
    (fun mp : List (V × List Nat) => ∀ p ∈ mp, ∀ t ∈ p.2, ∃ m ∈ a.transitions, ∃ q ∈ m, t ∈ q.2)
    p.2 _ mp' hmp' ?_
  intro mp'' hmp'' x hx
  intro q hq t ht
  rcases mem_mapInsertSet_targets mp'' p.1 x q hq t ht with ⟨q', hq', htq'⟩ | rfl
  · exact hmp'' q' hq' t htq'
  · exact hrowp t hx
theorem mem_kleeneMergeRow_targets (row : List (V × List Nat)) (k : V)
    (v : List Nat) (p : V × List Nat) (hp : p ∈ kleeneMergeRow row k v)
    (t : Nat) (ht : t ∈ p.2) :
    (∃ q ∈ row, t ∈ q.2) ∨ t ∈ v := by
  rw [kleeneMergeRow] at hp
  rcases mem_insertA _ _ _ _ hp with h | h
  · split at h
    · exact Or.inl ⟨p, h, ht⟩
    · rcases List.mem_append.1 h with h' | h'
      · exact Or.inl ⟨p, h', ht⟩
      · simp only [List.mem_singleton] at h'
        subst h'
        simp at ht
  · subst h
    simp only at ht
    rw [mem_foldl_sinsert] at ht
    rcases ht with ht | ht
    · exact Or.inr ht
    · rw [mem_foldl_sinsert] at ht
      rcases ht with ht | ht
      · cases hlk : lookupA row k with
        | none => rw [hlk] at ht; simp at ht
        | some old =>
          rw [hlk] at ht
          simp only [Option.getD_some] at ht
          exact Or.inl ⟨(k, old), lookupA_mem row k old hlk, ht⟩
      · simp at ht

theorem kleeneTable_wf (a : NFA V) (map : List (V × List Nat)) (n : Nat)
    (ha : ∀ m ∈ a.transitions, ∀ p ∈ m, ∀ t ∈ p.2, t < n)
    (hmap : ∀ p ∈ map, ∀ t ∈ p.2, t < n) :
    (kleeneTable a map).length = a.transitions.length ∧
      ∀ m ∈ kleeneTable a map, ∀ p ∈ m, ∀ t ∈ p.2, t < n := by
  rw [kleeneTable]
  refine @List.foldlRecOn _ _
    (fun tr : List (List (V × List Nat)) => tr.length = a.transitions.length ∧
      ∀ m ∈ tr, ∀ p ∈ m, ∀ t ∈ p.2, t < n)
    a.finals _ a.transitions ⟨rfl, ha⟩ ?_
  intro tr htr i _
  refine ⟨by rw [List.length_set]; exact htr.1, ?_⟩
  intro m hm
  rcases List.mem_or_eq_of_mem_set hm with hm' | rfl
  · exact htr.2 m hm'
  · have hrow : ∀ q ∈ tr.getD i [], ∀ t' ∈ q.2, t' < n := by
      by_cases hi : i < tr.length
      · have hr : tr.getD i [] ∈ tr := by
          rw [List.getD_eq_getElem?_getD, List.getElem?_eq_getElem hi]
          exact List.getElem_mem _
        exact fun q hq t' ht' => htr.2 _ hr q hq t' ht'
      · rw [List.getD_eq_getElem?_getD, List.getElem?_eq_none (by omega)]
        simp
    refine @List.foldlRecOn _ _
      (fun row : List (V × List Nat) => ∀ p ∈ row, ∀ t ∈ p.2, t < n)
      map _ (tr.getD i []) hrow ?_
    intro row hrowOk q hq p hp t ht
    rcases mem_kleeneMergeRow_targets row q.1 q.2 p hp t ht with ⟨q', hq', htq'⟩ | hv
    · exact hrowOk q' hq' t htq'
    · exact hmap q hq t hv

theorem wfIdx_kleene (a : NFA V) (ha : a.wfIdx) : a.kleene.wfIdx := by
  obtain ⟨hai, haf, hat⟩ := ha
  have hmap : ∀ p ∈ kleeneMap a, ∀ t ∈ p.2, t < a.transitions.length := by
    intro p hp t ht
    obtain ⟨m, hm, q, hq, htq⟩ := kleeneMap_targets a p hp t ht
    exact hat m hm q hq t htq
  obtain ⟨hkl, hkt⟩ := kleeneTable_wf a (kleeneMap a) a.transitions.length hat hmap
  have hlen : a.kleene.transitions.length = a.transitions.length + 1 := by
    show (kleeneTable a (kleeneMap a) ++ [kleeneMap a]).length = _
    rw [List.length_append, hkl]
    rfl
  refine ⟨?_, ?_, ?_⟩
  · intro i hi
    simp only [NFA.kleene, List.mem_singleton] at hi
    subst hi
    omega
  · intro i hi
    rw [hlen]
    have hi' : i ∈ sinsert a.transitions.length a.finals := hi
    rw [mem_sinsert] at hi'
    rcases hi' with rfl | hi'
    · omega
    · have := haf i hi'
      omega
  · intro m hm p hp t ht
    rw [hlen]
    have hm' : m ∈ kleeneTable a (kleeneMap a) ++ [kleeneMap a] := hm
    rcases List.mem_append.1 hm' with h | h
    · have := hkt m h p hp t ht
      omega
    · simp only [List.mem_singleton] at h
      subst h
      have := hmap p hp t ht
      omega

theorem wfIdx_at_most (a : NFA V) (ha : a.wfIdx) (u : Nat) :
    (a.at_most u).wfIdx := by
  rw [NFA.at_most]
  have ha' : (if a.initials.any (· ∈ a.finals) then a
      else
        { a with
          initials := sinsert a.transitions.length a.initials
          finals := sinsert a.transitions.length a.finals
          transitions := a.transitions ++ [[]] }).wfIdx := by
    split
    · exact ha
    · obtain ⟨hai, haf, hat⟩ := ha
      refine ⟨?_, ?_, ?_⟩
      · intro i hi
        simp only [List.length_append, List.length_singleton]
        have hi' : i ∈ sinsert a.transitions.length a.initials := hi
        rw [mem_sinsert] at hi'
        rcases hi' with rfl | hi'
        · omega
        · have := hai i hi'
          omega
      · intro i hi
        simp only [List.length_append, List.length_singleton]
        have hi' : i ∈ sinsert a.transitions.length a.finals := hi
        rw [mem_sinsert] at hi'
        rcases hi' with rfl | hi'
        · omega
        · have := haf i hi'
          omega
      · intro m hm p hp t ht
        simp only [List.length_append, List.length_singleton]
        have hm' : m ∈ a.transitions ++ [[]] := hm
        rcases List.mem_append.1 hm' with h | h
        · have := hat m h p hp t ht
          omega
        · simp only [List.mem_singleton] at h
          subst h
          simp at hp
  refine @List.foldlRecOn _ _ (fun x : NFA V => x.wfIdx) (List.range u) _ _
    (wfIdx_new_empty_word _) ?_
  intro x hx _ _
  exact wfIdx_concatenate x _ hx ha'

theorem wfIdx_at_least (a : NFA V) (ha : a.wfIdx) (u : Nat) :
    (a.at_least u).wfIdx := by
  rw [NFA.at_least]
  refine wfIdx_concatenate _ _ ?_ (wfIdx_kleene a ha)
  refine @List.foldlRecOn _ _ (fun x : NFA V => x.wfIdx) (List.range u) _ _
    (wfIdx_new_empty_word _) ?_
  intro x hx _ _
  exact wfIdx_concatenate x _ hx ha

theorem wfIdx_repeat (a : NFA V) (ha : a.wfIdx) (lo hi : RBound) (c : NFA V)
    (hc : a.repeat lo hi = some c) : c.wfIdx := by
  rw [NFA.repeat] at hc
  cases he : endOfBound hi with
  | none => rw [he] at hc; cases hc
  | some o =>
    rw [he] at hc
    cases o with
    | none =>
      simp only at hc
      cases hc
      exact wfIdx_at_least a ha _
    | some e =>
      simp only at hc
      split at hc
      · cases hc
        exact wfIdx_new_empty _
      · cases hc
        refine wfIdx_concatenate _ _ ?_ (wfIdx_at_most a ha _)
        refine @List.foldlRecOn _ _ (fun x : NFA V => x.wfIdx)
          (List.range (startOfBound lo)) _ _ (wfIdx_new_empty_word _) ?_
        intro x hx _ _
        exact wfIdx_concatenate x _ hx ha

theorem mem_succsAll_of_row (tr : List (List (V × List Nat))) (e : Nat)
    (p : V × List Nat) (hp : p ∈ tr.getD e []) (t : Nat) (ht : t ∈ p.2) :
    t ∈ succsAll tr e := by
  rw [succsAll, List.mem_flatten]
  exact ⟨p.2, List.mem_map_of_mem Prod.snd hp, ht⟩

theorem mem_keepList (a : NFA V) (x : Nat) :
    x ∈ keepList a ↔ x < a.transitions.length ∧ x ∈ reachClosure a := by
  rw [keepList, List.mem_filter, List.mem_range]
  simp

theorem wfIdx_make_reachable (a : NFA V) (ha : a.wfIdx) :
    a.make_reachable.wfIdx := by
  obtain ⟨hai, haf, hat⟩ := ha
  have hacc : ∀ x, x ∈ reachClosure a ↔ Reach a.transitions a.initials x :=
    fun x => mem_reachAux_iff a.transitions a.initials hat x
  have hlen : a.make_reachable.transitions.length = (keepList a).length := by
    simp [NFA.make_reachable]
  have hren : ∀ x ∈ keepList a, (keepList a).indexOf x < (keepList a).length :=
    fun x hx => List.indexOf_lt_length.mpr hx
  refine ⟨?_, ?_, ?_⟩
  · intro i hi
    rw [hlen]
    simp only [NFA.make_reachable, List.mem_map] at hi
    obtain ⟨x, hx, rfl⟩ := hi
    refine hren x ((mem_keepList a x).2 ⟨hai x hx, (hacc x).2 (ReachG.base x hx)⟩)
  · intro i hi
    rw [hlen]
    simp only [NFA.make_reachable, List.mem_map, List.mem_filter] at hi
    obtain ⟨x, ⟨hxf, hxacc⟩, rfl⟩ := hi
    refine hren x ((mem_keepList a x).2 ⟨haf x hxf, by simpa using hxacc⟩)
  · intro m hm p hp t ht
    rw [hlen]
    simp only [NFA.make_reachable, List.mem_map] at hm
    obtain ⟨i, hik, rfl⟩ := hm
    rw [List.mem_map] at hp
    obtain ⟨p₀, hp₀, rfl⟩ := hp
    simp only [List.mem_map] at ht
    obtain ⟨t₀, ht₀, rfl⟩ := ht
    obtain ⟨hilen, hiacc⟩ := (mem_keepList a i).1 hik
    have hrow : a.transitions.getD i [] ∈ a.transitions := by
      rw [List.getD_eq_getElem?_getD, List.getElem?_eq_getElem hilen]
      exact List.getElem_mem _
    have ht₀len : t₀ < a.transitions.length := hat _ hrow p₀ hp₀ t₀ ht₀
    have ht₀reach : Reach a.transitions a.initials t₀ :=
      ReachG.step i t₀ ((hacc i).1 hiacc)
        (mem_succsAll_of_row a.transitions i p₀ hp₀ t₀ ht₀)
    exact hren t₀ ((mem_keepList a t₀).2 ⟨ht₀len, (hacc t₀).2 ht₀reach⟩)

theorem wfIdx_make_coreachable (a : NFA V) (ha : a.wfIdx) :
    a.make_coreachable.wfIdx :=
  wfIdx_reverse _ (wfIdx_make_reachable _ (wfIdx_reverse a ha))

theorem wfIdx_trim (a : NFA V) (ha : a.wfIdx) : a.trim.wfIdx :=
  wfIdx_make_coreachable _ (wfIdx_make_reachable a ha)
/-- C2: evaluating the constructors at the failing input: `new_length({a,b}, 2)`
violates the index invariant — its state `2` (the loop runs over all `l + 1`
rows) maps each symbol to the out-of-range state `3 = transitions.length` —
while the other four public constructors establish the invariant and every
NFA-returning operation preserves it. -/
theorem c2_index_invariant (alphabet : List V) (s : List V) (u : Nat)
    (lo hi : RBound) (a b c : NFA V) (ha : a.wfIdx) (hb : b.wfIdx) :
    ¬ (NFA.new_length ['a', 'b'] 2).wfIdx ∧
      (NFA.new_empty alphabet).wfIdx ∧
      (NFA.new_full alphabet).wfIdx ∧
      (NFA.new_matching alphabet s).wfIdx ∧
      (NFA.new_empty_word alphabet).wfIdx ∧
      a.complete.wfIdx ∧
      a.reverse.wfIdx ∧
      a.make_reachable.wfIdx ∧
      a.make_coreachable.wfIdx ∧
      a.trim.wfIdx ∧
      (a.unite b).wfIdx ∧
      (a.concatenate b).wfIdx ∧
      a.kleene.wfIdx ∧
      (a.at_most u).wfIdx ∧
      (a.at_least u).wfIdx ∧
      (a.repeat lo hi = some c → c.wfIdx) :=
  ⟨by decide, wfIdx_new_empty alphabet, wfIdx_new_full alphabet,
    wfIdx_new_matching alphabet s, wfIdx_new_empty_word alphabet,
    wfIdx_complete a ha, wfIdx_reverse a ha, wfIdx_make_reachable a ha,
    wfIdx_make_coreachable a ha, wfIdx_trim a ha, wfIdx_unite a b ha hb,
    wfIdx_concatenate a b ha hb, wfIdx_kleene a ha, wfIdx_at_most a ha u,
    wfIdx_at_least a ha u, wfIdx_repeat a ha lo hi c⟩

theorem c2_index_invariant_witness :
    (NFA.new_empty_word ['a'] : NFA Char).wfIdx ∧
      (NFA.new_full ['a'] : NFA Char).wfIdx ∧
      ¬ (NFA.new_length ['a', 'b'] 2).wfIdx ∧
      ((NFA.new_empty_word ['a']).unite (NFA.new_full ['a'])).wfIdx :=
  have h := c2_index_invariant ['a'] ['a'] 1 (.incl 0) .unb
    (NFA.new_empty_word ['a']) (NFA.new_full ['a']) (NFA.new_empty ['a'])
    (by decide) (by decide)
  ⟨by decide, by decide, h.1, h.2.2.2.2.2.2.2.2.2.2.1⟩

/-- C8 (amended): for a well-formed NFA, `is_full` returns true iff the
initials and finals intersect **and every state reachable from the initials by
one or more transition steps is final** — the initial states themselves are
not checked (unless re-entered by a transition), which is where the original
claim fails. -/
theorem c8_is_full_amended (a : NFA V) (hwf : wfTargets a.transitions) :
    a.is_full = true ↔
      (∃ x ∈ a.initials, x ∈ a.finals) ∧
        ∀ e, Reach a.transitions a.initials e →
          ∀ t ∈ succsAll a.transitions e, t ∈ a.finals :=
  is_full_iff_step_reachable_final a hwf

theorem c8_is_full_amended_witness :
    wfTargets (NFA.new_full ['a'] : NFA Char).transitions ∧
      ((NFA.new_full ['a'] : NFA Char).is_full = true ↔
        (∃ x ∈ (NFA.new_full ['a'] : NFA Char).initials,
            x ∈ (NFA.new_full ['a'] : NFA Char).finals) ∧
          ∀ e, Reach (NFA.new_full ['a'] : NFA Char).transitions
              (NFA.new_full ['a'] : NFA Char).initials e →
            ∀ t ∈ succsAll (NFA.new_full ['a'] : NFA Char).transitions e,
              t ∈ (NFA.new_full ['a'] : NFA Char).finals) :=
  ⟨by decide, c8_is_full_amended (NFA.new_full ['a']) (by decide)⟩
theorem getD_set_self {α : Type} (l : List α) (i : Nat) (x d : α)
    (h : i < l.length) : (l.set i x).getD i d = x := by
  rw [List.getD_eq_getElem?_getD, List.getElem?_set_eq h]
  rfl

theorem getD_set_ne {α : Type} (l : List α) (i j : Nat) (x d : α) (h : i ≠ j) :
    (l.set i x).getD j d = l.getD j d := by
  rw [List.getD_eq_getElem?_getD, List.getElem?_set_ne h,
    ← List.getD_eq_getElem?_getD]

theorem lookupA_mapAppendEntry (m : List (V × List Nat)) (v w : V)
    (ts : List Nat) :
    lookupA (m.map (fun p => if p.1 = v then (p.1, p.2 ++ ts) else p)) w =
      if v = w then (lookupA m v).map (· ++ ts) else lookupA m w := by
  induction m with
  | nil => simp only [List.map_nil, lookupA]; split <;> simp
  | cons p m ih =>
    by_cases hp : p.1 = v
    · by_cases hw : v = w
      · subst hw
        simp [lookupA, hp]
      · have hpw : ¬ p.1 = w := by rw [hp]; exact hw
        simpa [lookupA, hp, hpw, hw] using ih
    · by_cases hw : v = w
      · subst hw
        simpa [lookupA, hp] using ih
      · by_cases hpw : p.1 = w
        · have hw' : ¬ w = v := fun h => hw h.symm
          simp [lookupA, hp, hpw, hw, hw']
        · simpa [lookupA, hp, hpw, hw] using ih

theorem lookupA_appendEntry (m : List (V × List Nat)) (v w : V) (ts : List Nat) :
    lookupA (appendEntry m v ts) w =
      if v = w then some ((lookupA m v).getD [] ++ ts) else lookupA m w := by
  rw [appendEntry]
  split <;> rename_i hsome
  · rw [lookupA_mapAppendEntry]
    cases hlk : lookupA m v with
    | some old => simp [hlk]
    | none => rw [hlk] at hsome; simp at hsome
  · rw [lookupA_append]
    by_cases hvw : v = w
    · subst hvw
      cases hlk : lookupA m v with
      | some old => rw [hlk] at hsome; simp at hsome
      | none => simp [hlk, lookupA, Option.orElse]
    · cases hlk : lookupA m w with
      | some old => simp [hlk, hvw, Option.orElse]
      | none => simp [hlk, hvw, lookupA, Option.orElse]

theorem tgt_set (tr : List (List (V × List Nat))) (f g : Nat)
    (row : List (V × List Nat)) (v : V) :
    tgt (tr.set f row) g v =
      if f = g ∧ f < tr.length then (lookupA row v).getD [] else tgt tr g v := by
  by_cases hfg : f = g
  · subst hfg
    by_cases hf : f < tr.length
    · rw [tgt, getD_set_self tr f row [] hf, if_pos ⟨rfl, hf⟩]
    · rw [List.set_eq_of_length_le (by omega), if_neg (by omega)]
  · rw [tgt, getD_set_ne tr f g row [] hfg, if_neg (by simp [hfg]), tgt]

theorem finalsFold_length (fs : List Nat) (k : V) (ts : List Nat)
    (tr : List (List (V × List Nat))) :
    (fs.foldl (fun tr f => tr.set f (appendEntry (tr.getD f []) k ts)) tr).length =
      tr.length := by
  induction fs generalizing tr with
  | nil => rfl
  | cons f fs ih =>
    rw [List.foldl_cons, ih, List.length_set]

theorem finalsFold_tgt (fs : List Nat) (k : V) (ts : List Nat)
    (tr : List (List (V × List Nat))) (g : Nat) (v : V) (t : Nat) :
    (t ∈ tgt (fs.foldl (fun tr f => tr.set f (appendEntry (tr.getD f []) k ts)) tr) g v ↔
      t ∈ tgt tr g v ∨ (g ∈ fs ∧ g < tr.length ∧ v = k ∧ t ∈ ts)) := by
  induction fs generalizing tr with
  | nil => simp
  | cons f fs ih =>
    rw [List.foldl_cons, ih, List.length_set]
    have hstep : ∀ u, u ∈ tgt (tr.set f (appendEntry (tr.getD f []) k ts)) g v ↔
        u ∈ tgt tr g v ∨ (f = g ∧ f < tr.length ∧ v = k ∧ u ∈ ts) := by
      intro u
      rw [tgt_set]
      split <;> rename_i hcond
      · obtain ⟨rfl, hf⟩ := hcond
        rw [lookupA_appendEntry]
        by_cases hkv : k = v
        · rw [if_pos hkv]
          subst hkv
          simp only [Option.getD_some, List.mem_append]
          rw [tgt]
          constructor
          · rintro (h | h)
            · exact Or.inl h
            · exact Or.inr ⟨by trivial, hf, by trivial, h⟩
          · rintro (h | ⟨h1, h2, h3, h⟩)
            · exact Or.inl h
            · exact Or.inr h
        · rw [if_neg hkv]
          rw [tgt]
          constructor
          · exact fun h => Or.inl h
          · rintro (h | ⟨h1, h2, hvk, h⟩)
            · exact h
            · exact absurd hvk.symm hkv
      · constructor
        · intro h
          exact Or.inl h
        · rintro (h | ⟨rfl, hf, rfl, hu⟩)
          · exact h
          · exact absurd ⟨rfl, hf⟩ hcond
    rw [hstep]
    simp only [List.mem_cons]
    constructor
    · rintro ((h | ⟨rfl, hf, rfl, hu⟩) | ⟨hg, hgl, rfl, hu⟩)
      · exact Or.inl h
      · exact Or.inr ⟨Or.inl rfl, hf, rfl, hu⟩
      · exact Or.inr ⟨Or.inr hg, hgl, rfl, hu⟩
    · rintro (h | ⟨rfl | hg, hgl, rfl, hu⟩)
      · exact Or.inl (Or.inl h)
      · exact Or.inl (Or.inr ⟨rfl, hgl, rfl, hu⟩)
      · exact Or.inr ⟨hg, hgl, rfl, hu⟩

theorem entriesFold_length (row : List (V × List Nat)) (fs : List Nat)
    (tr : List (List (V × List Nat))) :
    (row.foldl
      (fun tr p => fs.foldl
        (fun tr f => tr.set f (appendEntry (tr.getD f []) p.1 p.2)) tr) tr).length =
      tr.length := by
  induction row generalizing tr with
  | nil => rfl
  | cons p row ih =>
    rw [List.foldl_cons, ih, finalsFold_length]

theorem entriesFold_tgt (row : List (V × List Nat)) (fs : List Nat)
    (tr : List (List (V × List Nat))) (g : Nat) (v : V) (t : Nat) :
    (t ∈ tgt (row.foldl
        (fun tr p => fs.foldl
          (fun tr f => tr.set f (appendEntry (tr.getD f []) p.1 p.2)) tr) tr) g v ↔
      t ∈ tgt tr g v ∨
        (g ∈ fs ∧ g < tr.length ∧ ∃ p ∈ row, p.1 = v ∧ t ∈ p.2)) := by
  induction row generalizing tr with
  | nil => simp
  | cons p row ih =>
    rw [List.foldl_cons, ih, finalsFold_length, finalsFold_tgt]
    simp only [List.mem_cons]
    constructor
    · rintro ((h | ⟨hg, hgl, rfl, hu⟩) | ⟨hg, hgl, q, hq, rfl, hu⟩)
      · exact Or.inl h
      · exact Or.inr ⟨hg, hgl, p, Or.inl rfl, rfl, hu⟩
      · exact Or.inr ⟨hg, hgl, q, Or.inr hq, rfl, hu⟩
    · rintro (h | ⟨hg, hgl, q, rfl | hq, rfl, hu⟩)
      · exact Or.inl (Or.inl h)
      · exact Or.inl (Or.inr ⟨hg, hgl, rfl, hu⟩)
      · exact Or.inr ⟨hg, hgl, q, hq, rfl, hu⟩

theorem concatRewired_length (a b' : NFA V) (l : Nat) :
    (concatRewired a b' l).length = a.transitions.length := by
  rw [concatRewired]
  generalize a.transitions = tr
  induction b'.initials generalizing tr with
  | nil => rfl
  | cons e es ih =>
    rw [List.foldl_cons, ih, entriesFold_length]

theorem concatRewired_tgt (a b' : NFA V) (l : Nat) (g : Nat) (v : V) (t : Nat) :
    (t ∈ tgt (concatRewired a b' l) g v ↔
      t ∈ tgt a.transitions g v ∨
        (g ∈ a.finals ∧ g < a.transitions.length ∧
          ∃ e ∈ b'.initials, ∃ p ∈ b'.transitions.getD (e - l) [],
            p.1 = v ∧ t ∈ p.2)) := by
  rw [concatRewired]
  have key : ∀ (es : List Nat) (tr : List (List (V × List Nat))),
      (t ∈ tgt (es.foldl
          (fun tr e => (b'.transitions.getD (e - l) []).foldl
            (fun tr p => a.finals.foldl
              (fun tr f => tr.set f (appendEntry (tr.getD f []) p.1 p.2)) tr) tr)
          tr) g v ↔
        t ∈ tgt tr g v ∨
          (g ∈ a.finals ∧ g < tr.length ∧
            ∃ e ∈ es, ∃ p ∈ b'.transitions.getD (e - l) [], p.1 = v ∧ t ∈ p.2)) := by
    intro es
    induction es with
    | nil => simp
    | cons e es ih =>
      intro tr
      rw [List.foldl_cons, ih, entriesFold_length, entriesFold_tgt]
      simp only [List.mem_cons]
      constructor
      · rintro ((h | ⟨hg, hgl, p, hp, rfl, hu⟩) | ⟨hg, hgl, e', he', p, hp, rfl, hu⟩)
        · exact Or.inl h
        · exact Or.inr ⟨hg, hgl, e, Or.inl rfl, p, hp, rfl, hu⟩
        · exact Or.inr ⟨hg, hgl, e', Or.inr he', p, hp, rfl, hu⟩
      · rintro (h | ⟨hg, hgl, e', rfl | he', p, hp, rfl, hu⟩)
        · exact Or.inl (Or.inl h)
        · exact Or.inl (Or.inr ⟨hg, hgl, p, hp, rfl, hu⟩)
        · exact Or.inr ⟨hg, hgl, e', he', p, hp, rfl, hu⟩
  exact key b'.initials a.transitions
theorem getD_map_rows {α β : Type} (tr : List α) (f : α → β) (da : α) (db : β)
    (i : Nat) (hi : i < tr.length) :
    (tr.map f).getD i db = f (tr.getD i da) := by
  rw [List.getD_eq_getElem?_getD, List.getElem?_map, List.getElem?_eq_getElem hi]
  simp [List.getD_eq_getElem?_getD, List.getElem?_eq_getElem hi]

theorem tgt_append_left (tr₁ tr₂ : List (List (V × List Nat))) (g : Nat)
    (v : V) (hg : g < tr₁.length) :
    tgt (tr₁ ++ tr₂) g v = tgt tr₁ g v := by
  rw [tgt, List.getD_append _ _ _ _ hg, tgt]

/-- C4 (amended): `concatenate` copies every transition leaving a
second-operand initial state onto every first-operand final state, and the
final-state set of the result is the **second** operand's (shifted) finals
alone when the second operand's initials and finals are disjoint, otherwise
the union of the first operand's finals with the second's shifted finals. -/
theorem c4_concatenate_amended (a b : NFA V) (ha : a.wfIdx)
    (hrb : ∀ m ∈ b.transitions, (m.map Prod.fst).Nodup) :
    (∀ f ∈ a.finals, ∀ (v : V) (t : Nat),
        (t ∈ targets (a.concatenate b) f v ↔
          t ∈ targets a f v ∨
            ∃ e ∈ b.initials, ∃ t₀ ∈ targets b e v,
              t = t₀ + a.transitions.length)) ∧
      ((∀ x ∈ b.finals, x ∉ b.initials) →
        (a.concatenate b).finals = b.finals.map (· + a.transitions.length)) ∧
      ((∃ x ∈ b.finals, x ∈ b.initials) →
        ∀ x, x ∈ (a.concatenate b).finals ↔
          x ∈ a.finals ∨ ∃ y ∈ b.finals, x = y + a.transitions.length) := by
  have hdisj : (shift_fnda b a.transitions.length).finals.all
      (· ∉ (shift_fnda b a.transitions.length).initials) = true ↔
      ∀ x ∈ b.finals, x ∉ b.initials := by
    rw [List.all_eq_true]
    constructor
    · intro h x hx hc
      have hx' : x + a.transitions.length ∈ (shift_fnda b a.transitions.length).finals :=
        List.mem_map_of_mem _ hx
      have := h _ hx'
      simp only [decide_eq_true_eq] at this
      exact this (List.mem_map_of_mem _ hc)
    · intro h y hy
      simp only [decide_eq_true_eq]
      simp only [shift_fnda, List.mem_map] at hy
      obtain ⟨x, hx, rfl⟩ := hy
      intro hc
      simp only [shift_fnda, List.mem_map] at hc
      obtain ⟨x', hx', hx'eq⟩ := hc
      have : x' = x := by omega
      subst this
      exact h x' hx hx'
  refine ⟨?_, ?_, ?_⟩
  · intro f hf v t
    have hflen : f < a.transitions.length := ha.2.1 f hf
    have h1 : targets (a.concatenate b) f v =
        tgt (concatRewired a (shift_fnda b a.transitions.length)
          a.transitions.length) f v := by
      rw [targets]
      show tgt (concatRewired _ _ _ ++ _) f v = _
      exact tgt_append_left _ _ f v (by rw [concatRewired_length]; exact hflen)
    rw [h1, concatRewired_tgt]
    rw [targets]
    constructor
    · rintro (h | ⟨_, _, e, he, p, hp, rfl, hu⟩)
      · exact Or.inl h
      · simp only [shift_fnda, List.mem_map] at he
        obtain ⟨e₀, he₀, rfl⟩ := he
        have hsub : e₀ + a.transitions.length - a.transitions.length = e₀ := by omega
        rw [hsub] at hp
        have hrows : (shift_fnda b a.transitions.length).transitions.getD e₀ [] =
            (b.transitions.getD e₀ []).map
              (fun q => (q.1, q.2.map (· + a.transitions.length))) := by
          by_cases he' : e₀ < b.transitions.length
          · exact getD_map_rows _ _ [] [] e₀ he'
          · show (List.map _ b.transitions).getD e₀ [] = _
            rw [List.getD_eq_getElem?_getD, List.getElem?_eq_none
              (by simpa using (by omega : b.transitions.length ≤ e₀)),
              List.getD_eq_getElem?_getD, List.getElem?_eq_none (by omega)]
            rfl
        rw [hrows, List.mem_map] at hp
        obtain ⟨q, hq, rfl⟩ := hp
        simp only [List.mem_map] at hu
        obtain ⟨t₀, ht₀, rfl⟩ := hu
        refine Or.inr ⟨e₀, he₀, t₀, ?_, rfl⟩
        rw [targets, tgt, lookupA_of_mem_nodup _ q ?_ hq]
        · exact ht₀
        · by_cases he' : e₀ < b.transitions.length
          · refine hrb _ ?_
            rw [List.getD_eq_getElem?_getD, List.getElem?_eq_getElem he']
            exact List.getElem_mem _
          · rw [List.getD_eq_getElem?_getD, List.getElem?_eq_none (by omega)] at hq
            simp at hq
    · rintro (h | ⟨e₀, he₀, t₀, ht₀, rfl⟩)
      · exact Or.inl h
      · refine Or.inr ⟨hf, hflen, e₀ + a.transitions.length,
          List.mem_map_of_mem _ he₀, ?_⟩
        rw [targets, tgt] at ht₀
        cases hlk : lookupA (b.transitions.getD e₀ []) v with
        | none => rw [hlk] at ht₀; simp at ht₀
        | some ts =>
          rw [hlk] at ht₀
          simp only [Option.getD_some] at ht₀
          have hent := lookupA_mem _ _ _ hlk
          have hsub : e₀ + a.transitions.length - a.transitions.length = e₀ := by
            omega
          refine ⟨(v, ts.map (· + a.transitions.length)), ?_, rfl, ?_⟩
          · rw [hsub]
            by_cases he' : e₀ < b.transitions.length
            · rw [show (shift_fnda b a.transitions.length).transitions.getD e₀ [] =
                  (b.transitions.getD e₀ []).map
                    (fun q => (q.1, q.2.map (· + a.transitions.length))) from
                getD_map_rows _ _ [] [] e₀ he']
              exact List.mem_map_of_mem _ hent
            · rw [List.getD_eq_getElem?_getD, List.getElem?_eq_none (by omega)]
                at hent
              simp at hent
          · exact List.mem_map_of_mem _ ht₀
  · intro hd
    show (if (shift_fnda b a.transitions.length).finals.all
        (· ∉ (shift_fnda b a.transitions.length).initials) then
          (shift_fnda b a.transitions.length).finals
        else append_hashset a.finals (shift_fnda b a.transitions.length).finals) = _
    rw [if_pos (hdisj.2 hd)]
    rfl
  · intro hd x
    have hcond : ¬ ((shift_fnda b a.transitions.length).finals.all
        (· ∉ (shift_fnda b a.transitions.length).initials) = true) := by
      rw [hdisj]
      obtain ⟨y, hy1, hy2⟩ := hd
      intro h
      exact h y hy1 hy2
    show x ∈ (if (shift_fnda b a.transitions.length).finals.all
        (· ∉ (shift_fnda b a.transitions.length).initials) then
          (shift_fnda b a.transitions.length).finals
        else append_hashset a.finals (shift_fnda b a.transitions.length).finals) ↔ _
    rw [if_neg hcond, mem_append_hashset]
    constructor
    · rintro (h | h)
      · exact Or.inl h
      · simp only [shift_fnda, List.mem_map] at h
        obtain ⟨y, hy, rfl⟩ := h
        exact Or.inr ⟨y, hy, rfl⟩
    · rintro (h | ⟨y, hy, rfl⟩)
      · exact Or.inl h
      · exact Or.inr (List.mem_map_of_mem _ hy)

theorem c4_concatenate_amended_witness :
    (NFA.new_empty_word ['a'] : NFA Char).wfIdx ∧
      (∀ x ∈ (NFA.new_matching ['a'] ['a']).finals,
          x ∉ (NFA.new_matching ['a'] ['a']).initials) ∧
      ((NFA.new_empty_word ['a']).concatenate (NFA.new_matching ['a'] ['a'])).finals =
        (NFA.new_matching ['a'] ['a']).finals.map
          (· + (NFA.new_empty_word ['a'] : NFA Char).transitions.length) :=
  have h := c4_concatenate_amended (NFA.new_empty_word ['a'])
    (NFA.new_matching ['a'] ['a']) (by decide) (by decide)
  ⟨by decide, by decide, h.2.1 (by decide)⟩
theorem lookupA_eq_none_iff {α : Type} (m : List (V × α)) (v : V) :
    lookupA m v = none ↔ v ∉ m.map Prod.fst := by
  induction m with
  | nil => simp [lookupA]
  | cons p m ih =>
    rw [lookupA]
    by_cases hp : p.1 = v
    · simp [hp]
    · rw [if_neg hp, ih]
      simp only [List.map_cons, List.mem_cons]
      constructor
      · intro h hc
        rcases hc with hc | hc
        · exact hp hc.symm
        · exact h hc
      · intro h hc
        exact h (Or.inr hc)

theorem lookupA_append_single {α : Type} (m : List (V × α)) (v : V) (x : α)
    (u : V) :
    lookupA (m ++ [(v, x)]) u =
      if (lookupA m u).isSome then lookupA m u
      else if u = v then some x else none := by
  rw [lookupA_append]
  cases hlk : lookupA m u with
  | some y => simp [Option.orElse]
  | none =>
    simp only [Option.isSome_none, Bool.false_eq_true, if_false]
    by_cases huv : u = v
    · subst huv
      simp [lookupA, Option.orElse]
    · have : ¬ v = u := fun h => huv h.symm
      simp [lookupA, Option.orElse, this, huv]

theorem fillRow_lookup (alphabet : List V) (l : Nat) (m : List (V × Nat)) (w : V) :
    lookupA (fillRow alphabet l m) w =
      if (lookupA m w).isSome then lookupA m w
      else if w ∈ alphabet then some l else none := by
  rw [fillRow]
  induction alphabet generalizing m with
  | nil =>
    simp only [List.foldl_nil, List.not_mem_nil, if_false]
    split <;> rename_i h
    · rfl
    · cases hlk : lookupA m w with
      | none => rfl
      | some x => rw [hlk] at h; simp at h
  | cons v al ih =>
    rw [List.foldl_cons]
    by_cases hvm : (lookupA m v).isSome
    · rw [if_pos hvm, ih]
      by_cases hw : (lookupA m w).isSome
      · rw [if_pos hw, if_pos hw]
      · rw [if_neg hw, if_neg hw]
        by_cases hwal : w ∈ al
        · rw [if_pos hwal, if_pos (List.mem_cons_of_mem _ hwal)]
        · rw [if_neg hwal]
          by_cases hwv : w = v
          · subst hwv
            rw [if_pos (List.mem_cons_self _ _)]
            cases hlk : lookupA m w with
            | none => rw [hlk] at hvm; simp at hvm
            | some x => rw [hlk] at hw; simp at hw
          · rw [if_neg (by simp [hwv, hwal])]
    · rw [if_neg hvm, ih, lookupA_append_single]
      by_cases hw : (lookupA m w).isSome
      · rw [if_pos hw, if_pos hw, if_pos hw]
      · rw [if_neg hw, if_neg hw]
        by_cases hwv : w = v
        · subst hwv
          rw [if_pos rfl]
          simp only [Option.isSome_some, if_pos trivial, if_true]
          rw [if_pos (List.mem_cons_self _ _)]
        · rw [if_neg hwv]
          simp only [Option.isSome_none, Bool.false_eq_true, if_false]
          by_cases hwal : w ∈ al
          · rw [if_pos hwal, if_pos (List.mem_cons_of_mem _ hwal)]
          · rw [if_neg hwal, if_neg (by simp [hwv, hwal])]

theorem mem_fillRow (alphabet : List V) (l : Nat) (m : List (V × Nat))
    (p : V × Nat) (hp : p ∈ fillRow alphabet l m) :
    p ∈ m ∨ (p.1 ∈ alphabet ∧ p.2 = l) := by
  rw [fillRow] at hp
  revert p hp
  refine @List.foldlRecOn _ _
    (fun b : List (V × Nat) => ∀ p ∈ b, p ∈ m ∨ (p.1 ∈ alphabet ∧ p.2 = l))
    alphabet _ m (fun p hp => Or.inl hp) ?_
  intro m' hm' v hv
  split
  · exact hm'
  · intro p hp
    rcases List.mem_append.1 hp with h | h
    · exact hm' p h
    · simp only [List.mem_singleton] at h
      subst h
      exact Or.inr ⟨hv, rfl⟩

theorem fillRow_keys_nodup (alphabet : List V) (l : Nat) (m : List (V × Nat))
    (hm : (m.map Prod.fst).Nodup) :
    ((fillRow alphabet l m).map Prod.fst).Nodup := by
  rw [fillRow]
  refine @List.foldlRecOn _ _
    (fun b : List (V × Nat) => (b.map Prod.fst).Nodup) alphabet _ m hm ?_
  intro m' hm' v _
  split <;> rename_i hv
  · exact hm'
  · rw [List.map_append, List.map_cons, List.map_nil]
    rw [List.nodup_append]
    refine ⟨hm', List.nodup_singleton v, ?_⟩
    intro u hu hc
    simp only [List.mem_singleton] at hc
    subst hc
    have : lookupA m' u = none := by
      cases hlk : lookupA m' u with
      | none => rfl
      | some x => rw [hlk] at hv; simp at hv
    exact (lookupA_eq_none_iff m' u).1 this hu
theorem complete_alphabet (d : DFA V) : d.complete.alphabet = d.alphabet := by
  rw [DFA.complete]
  split <;> rfl

theorem complete_initial (d : DFA V) : d.complete.initial = d.initial := by
  rw [DFA.complete]
  split <;> rfl

theorem complete_finals (d : DFA V) : d.complete.finals = d.finals := by
  rw [DFA.complete]
  split <;> rfl

theorem complete_length_of_incomplete (d : DFA V) (h : ¬ d.is_complete = true) :
    d.complete.transitions.length = d.transitions.length + 1 := by
  rw [DFA.complete, if_neg h]
  simp

theorem complete_length_le (d : DFA V) :
    d.transitions.length ≤ d.complete.transitions.length := by
  rw [DFA.complete]
  split
  · exact le_refl _
  · simp

theorem complete_row_incomplete (d : DFA V) (h : ¬ d.is_complete = true)
    (g : Nat) (hg : g < d.transitions.length + 1) :
    d.complete.transitions.getD g [] =
      fillRow d.alphabet d.transitions.length ((d.transitions ++ [[]]).getD g []) := by
  rw [DFA.complete, if_neg h]
  exact getD_map_rows _ _ [] [] g (by simpa using hg)

theorem append_sink_row (d : DFA V) (g : Nat) :
    (d.transitions ++ ([[]] : List (List (V × Nat)))).getD g [] =
      if g < d.transitions.length then d.transitions.getD g [] else [] := by
  split <;> rename_i hg
  · exact List.getD_append _ _ _ _ hg
  · by_cases hg' : g = d.transitions.length
    · subst hg'
      rw [List.getD_eq_getElem?_getD, List.getElem?_append_right (le_refl _)]
      simp
    · rw [List.getD_eq_getElem?_getD, List.getElem?_eq_none (by simp; omega)]
      rfl

theorem runFrom_sink_false (d : DFA V) (hd : d.WF) (h : ¬ d.is_complete = true) :
    ∀ w, d.complete.runFrom d.transitions.length w = false := by
  intro w
  induction w with
  | nil =>
    rw [DFA.runFrom, complete_finals]
    simp only [decide_eq_false_iff_not]
    intro hc
    have := hd.2.1 _ hc
    omega
  | cons c ws ih =>
    rw [DFA.runFrom]
    rw [complete_row_incomplete d h _ (by omega), append_sink_row,
      if_neg (by omega), fillRow_lookup]
    simp only [lookupA, Option.isSome_none, Bool.false_eq_true, if_false]
    by_cases hc : c ∈ d.alphabet
    · rw [if_pos hc]
      exact ih
    · rw [if_neg hc]

theorem runFrom_complete_eq (d : DFA V) (hd : d.WF) :
    ∀ (w : List V) (g : Nat), g < d.transitions.length →
      d.complete.runFrom g w = d.runFrom g w := by
  by_cases hcm : d.is_complete = true
  · have : d.complete = d := by rw [DFA.complete, if_pos hcm]
    intro w g _
    rw [this]
  · intro w
    induction w with
    | nil =>
      intro g _
      rw [DFA.runFrom, DFA.runFrom, complete_finals]
    | cons c ws ih =>
      intro g hg
      rw [DFA.runFrom, DFA.runFrom]
      rw [complete_row_incomplete d hcm _ (by omega), append_sink_row, if_pos hg,
        fillRow_lookup]
      cases hlk : lookupA (d.transitions.getD g []) c with
      | some t =>
        simp only [Option.isSome_some, if_true]
        have hrow : d.transitions.getD g [] ∈ d.transitions := by
          rw [List.getD_eq_getElem?_getD, List.getElem?_eq_getElem hg]
          exact List.getElem_mem _
        have ht : t < d.transitions.length :=
          (hd.2.2.1 _ hrow).2 _ (lookupA_mem _ _ _ hlk) |>.1
        exact ih t ht
      | none =>
        simp only [Option.isSome_none, Bool.false_eq_true, if_false]
        by_cases hc : c ∈ d.alphabet
        · rw [if_pos hc]
          exact runFrom_sink_false d hd hcm ws
        · rw [if_neg hc]

theorem complete_row_total (d : DFA V) (hd : d.WF) (g : Nat)
    (hg : g < d.complete.transitions.length) (v : V) (hv : v ∈ d.alphabet) :
    (lookupA (d.complete.transitions.getD g []) v).isSome := by
  by_cases hcm : d.is_complete = true
  · have heq : d.complete = d := by rw [DFA.complete, if_pos hcm]
    rw [heq] at hg ⊢
    rw [DFA.is_complete, List.all_eq_true] at hcm
    have hrow : d.transitions.getD g [] ∈ d.transitions := by
      rw [List.getD_eq_getElem?_getD, List.getElem?_eq_getElem hg]
      exact List.getElem_mem _
    have := hcm _ hrow
    rw [List.all_eq_true] at this
    simpa using this v hv
  · rw [complete_length_of_incomplete d hcm] at hg
    rw [complete_row_incomplete d hcm g hg, fillRow_lookup]
    by_cases hs : (lookupA ((d.transitions ++ [[]]).getD g []) v).isSome = true
    · rw [if_pos hs]
      exact hs
    · rw [if_neg hs, if_pos hv]
      simp

theorem complete_target_lt (d : DFA V) (hd : d.WF) (g : Nat)
    (hg : g < d.complete.transitions.length) (v : V) (t : Nat)
    (ht : lookupA (d.complete.transitions.getD g []) v = some t) :
    t < d.complete.transitions.length := by
  by_cases hcm : d.is_complete = true
  · have heq : d.complete = d := by rw [DFA.complete, if_pos hcm]
    rw [heq] at hg ht ⊢
    have hrow : d.transitions.getD g [] ∈ d.transitions := by
      rw [List.getD_eq_getElem?_getD, List.getElem?_eq_getElem hg]
      exact List.getElem_mem _
    exact (hd.2.2.1 _ hrow).2 _ (lookupA_mem _ _ _ ht) |>.1
  · rw [complete_length_of_incomplete d hcm] at hg ⊢
    rw [complete_row_incomplete d hcm g hg, fillRow_lookup] at ht
    split at ht
    · rw [append_sink_row] at ht
      split at ht <;> rename_i hg'
      · have hrow : d.transitions.getD g [] ∈ d.transitions := by
          rw [List.getD_eq_getElem?_getD, List.getElem?_eq_getElem hg']
          exact List.getElem_mem _
        have := (hd.2.2.1 _ hrow).2 _ (lookupA_mem _ _ _ ht) |>.1
        omega
      · rw [lookupA] at ht
        cases ht
    · split at ht
      · cases ht
        omega
      · cases ht

theorem complete_key_in_alphabet (d : DFA V) (hd : d.WF) (g : Nat) (v : V)
    (hv : v ∉ d.alphabet) :
    lookupA (d.complete.transitions.getD g []) v = none := by
  by_cases hg : g < d.complete.transitions.length
  · by_cases hcm : d.is_complete = true
    · have heq : d.complete = d := by rw [DFA.complete, if_pos hcm]
      rw [heq] at hg ⊢
      have hrow : d.transitions.getD g [] ∈ d.transitions := by
        rw [List.getD_eq_getElem?_getD, List.getElem?_eq_getElem hg]
        exact List.getElem_mem _
      rw [lookupA_eq_none_iff]
      intro hc
      rw [List.mem_map] at hc
      obtain ⟨p, hp, rfl⟩ := hc
      exact hv ((hd.2.2.1 _ hrow).2 _ hp).2
    · rw [complete_length_of_incomplete d hcm] at hg
      rw [complete_row_incomplete d hcm g hg, fillRow_lookup]
      have hnone : lookupA ((d.transitions ++ [[]]).getD g []) v = none := by
        rw [append_sink_row]
        split <;> rename_i hg'
        · have hrow : d.transitions.getD g [] ∈ d.transitions := by
            rw [List.getD_eq_getElem?_getD, List.getElem?_eq_getElem hg']
            exact List.getElem_mem _
          rw [lookupA_eq_none_iff]
          intro hc
          rw [List.mem_map] at hc
          obtain ⟨p, hp, rfl⟩ := hc
          exact hv ((hd.2.2.1 _ hrow).2 _ hp).2
        · rfl
      rw [hnone]
      simp [hv]
  · rw [List.getD_eq_getElem?_getD, List.getElem?_eq_none (by omega)]
    rfl
theorem negate_transitions (d : DFA V) :
    d.negate.transitions = d.complete.transitions := rfl

theorem negate_initial (d : DFA V) : d.negate.initial = d.initial := by
  show d.complete.initial = d.initial
  exact complete_initial d

theorem negate_alphabet (d : DFA V) : d.negate.alphabet = d.alphabet := by
  show d.complete.alphabet = d.alphabet
  exact complete_alphabet d

theorem mem_negate_finals (d : DFA V) (g : Nat) :
    g ∈ d.negate.finals ↔ g < d.complete.transitions.length ∧ g ∉ d.finals := by
  show g ∈ (List.range d.complete.transitions.length).filter
    (fun x => x ∉ d.complete.finals) ↔ _
  rw [List.mem_filter, List.mem_range, complete_finals]
  simp

theorem runFrom_negate (d : DFA V) (hd : d.WF) :
    ∀ (w : List V), (∀ c ∈ w, c ∈ d.alphabet) →
      ∀ g, g < d.complete.transitions.length →
        d.negate.runFrom g w = ! d.complete.runFrom g w := by
  intro w
  induction w with
  | nil =>
    intro _ g hg
    rw [DFA.runFrom, DFA.runFrom, complete_finals]
    by_cases hgf : g ∈ d.finals
    · have : g ∉ d.negate.finals := by
        rw [mem_negate_finals]
        intro hc
        exact hc.2 hgf
      simp [hgf, this]
    · have : g ∈ d.negate.finals := (mem_negate_finals d g).2 ⟨hg, hgf⟩
      simp [hgf, this]
  | cons c ws ih =>
    intro hw g hg
    rw [DFA.runFrom, DFA.runFrom, negate_transitions]
    have hc : c ∈ d.alphabet := hw c (List.mem_cons_self _ _)
    have hsome := complete_row_total d hd g hg c hc
    cases hlk : lookupA (d.complete.transitions.getD g []) c with
    | none => rw [hlk] at hsome; simp at hsome
    | some t =>
      have ht : t < d.complete.transitions.length :=
        complete_target_lt d hd g hg c t hlk
      exact ih (fun x hx => hw x (List.mem_cons_of_mem _ hx)) t ht

theorem runFrom_negate_foreign (d : DFA V) (hd : d.WF) :
    ∀ (w : List V), (∃ c ∈ w, c ∉ d.alphabet) →
      ∀ g, d.negate.runFrom g w = false := by
  intro w
  induction w with
  | nil => rintro ⟨c, hc, _⟩; simp at hc
  | cons c ws ih =>
    rintro ⟨c', hc', hcal⟩ g
    rw [DFA.runFrom, negate_transitions]
    rcases List.mem_cons.1 hc' with rfl | hc'ws
    · rw [complete_key_in_alphabet d hd g c' hcal]
    · cases hlk : lookupA (d.complete.transitions.getD g []) c with
      | none => rfl
      | some t => exact ih ⟨c', hc'ws, hcal⟩ t

/-- C5: `DFA::negate` completes the automaton and replaces the final set by
its complement over all states; consequently, for every word over the
automaton's alphabet, `negate().run` is the boolean negation of `run`. -/
theorem c5_negate_complement_and_run (d : DFA V) (hd : d.WF) :
    d.negate.transitions = d.complete.transitions ∧
      (∀ g, g ∈ d.negate.finals ↔
        g < d.complete.transitions.length ∧ g ∉ d.complete.finals) ∧
      ∀ w, (∀ c ∈ w, c ∈ d.alphabet) → d.negate.run w = ! d.run w := by
  refine ⟨rfl, ?_, ?_⟩
  · intro g
    rw [mem_negate_finals, complete_finals]
  · intro w hw
    rw [DFA.run, DFA.run, negate_initial]
    have hinit : d.initial < d.complete.transitions.length :=
      lt_of_lt_of_le hd.1 (complete_length_le d)
    rw [runFrom_negate d hd w hw d.initial hinit,
      runFrom_complete_eq d hd w d.initial hd.1]

theorem c5_negate_complement_and_run_witness :
    exDfa.WF ∧ exDfa.negate.run ['a'] = ! exDfa.run ['a'] :=
  ⟨by decide, (c5_negate_complement_and_run exDfa (by decide)).2.2 ['a'] (by decide)⟩
theorem read_union_aux_zero (acc : List Operations) (ts : List (Token × Nat)) :
    read_union_aux 0 acc ts = .nofuel := rfl

theorem read_union_aux_succ (f : Nat) (acc : List Operations)
    (ts : List (Token × Nat)) :
    read_union_aux (f + 1) acc ts =
      match read_concat f ts with
      | .ok o rest =>
        if peak rest = some Token.union then
          read_union_aux f (acc ++ [o]) (rest.drop 1)
        else collapseWith .union (acc ++ [o]) rest
      | r => r := rfl

theorem read_concat_zero (ts : List (Token × Nat)) :
    read_concat 0 ts = .nofuel := rfl

theorem read_concat_succ (f : Nat) (ts : List (Token × Nat)) :
    read_concat (f + 1) ts = read_concat_aux f [] ts := rfl

theorem read_concat_aux_zero (acc : List Operations) (ts : List (Token × Nat)) :
    read_concat_aux 0 acc ts = .nofuel := rfl

theorem read_concat_aux_succ (f : Nat) (acc : List Operations)
    (ts : List (Token × Nat)) :
    read_concat_aux (f + 1) acc ts =
      match peak ts with
      | none => collapseWith .concat acc ts
      | some t =>
        if t = .dot ∨ t = .epsilon ∨ t = .letter then
          match read_letter ts with
          | .ok o rest => read_concat_aux f (acc ++ [o]) rest
          | r => r
        else if t = .lpar then
          match read_paren f ts with
          | .ok o rest => read_concat_aux f (acc ++ [o]) rest
          | r => r
        else if t = .kleene ∨ t = .plus ∨ t = .question then
          .err ("Unexpected " ++ toString (Char.ofNat (ts.headD (.error, 0)).2))
        else if t = .rpar ∨ t = .union ∨ t = .endTok then
          collapseWith .concat acc ts
        else .crashed := rfl

theorem read_paren_zero (ts : List (Token × Nat)) : read_paren 0 ts = .nofuel :=
  rfl

theorem read_paren_succ (f : Nat) (ts : List (Token × Nat)) :
    read_paren (f + 1) ts =
      (if peak ts ≠ some .lpar then .err "Expected left parenthesis."
       else
        match read_union_aux f [] (ts.drop 1) with
        | .ok o rest =>
          if peak rest ≠ some .rpar then .err "Expected right parenthesis."
          else
            let p := read_quantif (rest.drop 1) o
            .ok p.1 p.2
        | r => r) := by
  rw [read_paren]

theorem read_quantif_suffix (ts : List (Token × Nat)) (o : Operations) :
    (read_quantif ts o).2 <:+ ts := by
  induction ts generalizing o with
  | nil => exact List.suffix_refl _
  | cons p rest ih =>
    obtain ⟨t, c⟩ := p
    rw [read_quantif]
    by_cases h1 : t = Token.plus
    · rw [if_pos h1]
      exact (ih _).trans (List.suffix_cons _ _)
    · rw [if_neg h1]
      by_cases h2 : t = Token.kleene
      · rw [if_pos h2]
        exact (ih _).trans (List.suffix_cons _ _)
      · rw [if_neg h2]
        by_cases h3 : t = Token.question
        · rw [if_pos h3]
          exact (ih _).trans (List.suffix_cons _ _)
        · rw [if_neg h3]

theorem read_letter_ok (ts : List (Token × Nat)) (o : Operations)
    (rest : List (Token × Nat)) (h : read_letter ts = .ok o rest) :
    rest <:+ ts ∧ rest.length < ts.length := by
  cases ts with
  | nil => cases h
  | cons p rest₀ =>
    obtain ⟨t, c⟩ := p
    rw [read_letter] at h
    have key : ∀ o' rest', (read_quantif rest₀ o').2 = rest' →
        rest' <:+ (t, c) :: rest₀ ∧ rest'.length < ((t, c) :: rest₀).length := by
      intro o' rest' heq
      subst heq
      have hs := read_quantif_suffix rest₀ o'
      exact ⟨hs.trans (List.suffix_cons _ _),
        lt_of_le_of_lt (List.IsSuffix.length_le hs) (by simp)⟩
    split at h
    · cases h
      exact key _ _ rfl
    · split at h
      · cases h
        exact key _ _ rfl
      · split at h
        · cases h
          exact key _ _ rfl
        · cases h

theorem read_letter_not_other (ts : List (Token × Nat)) :
    read_letter ts ≠ .crashed ∧ read_letter ts ≠ .nofuel := by
  cases ts with
  | nil => exact ⟨(fun h => nomatch h), (fun h => nomatch h)⟩
  | cons p rest₀ =>
    obtain ⟨t, c⟩ := p
    rw [read_letter]
    split
    · exact ⟨(fun h => nomatch h), (fun h => nomatch h)⟩
    · split
      · exact ⟨(fun h => nomatch h), (fun h => nomatch h)⟩
      · split
        · exact ⟨(fun h => nomatch h), (fun h => nomatch h)⟩
        · exact ⟨(fun h => nomatch h), (fun h => nomatch h)⟩

theorem collapseWith_ok (wrap : List Operations → Operations)
    (acc : List Operations) (ts : List (Token × Nat)) :
    ∃ o, collapseWith wrap acc ts = .ok o ts := by
  match acc with
  | [] => exact ⟨wrap [], rfl⟩
  | [a] => exact ⟨a, rfl⟩
  | a :: b :: rest => exact ⟨wrap (a :: b :: rest), rfl⟩
theorem peak_eq_some (ts : List (Token × Nat)) (t : Token) (h : peak ts = some t) :
    ∃ c rest, ts = (t, c) :: rest := by
  cases ts with
  | nil => cases h
  | cons p rest =>
    obtain ⟨t', c⟩ := p
    simp only [peak, List.head?_cons, Option.map_some] at h
    cases h
    exact ⟨c, rest, rfl⟩

theorem noErr_of_suffix (rest ts : List (Token × Nat)) (h : rest <:+ ts)
    (hn : noErr ts) : noErr rest :=
  fun p hp => hn p (h.subset hp)

theorem parser_total (f : Nat) :
    (∀ acc ts, noErr ts → 4 * ts.length + 4 ≤ f →
      (read_union_aux f acc ts ≠ PResult.crashed ∧
       read_union_aux f acc ts ≠ PResult.nofuel) ∧
      ∀ o rest, read_union_aux f acc ts = PResult.ok o rest → rest <:+ ts) ∧
    (∀ ts, noErr ts → 4 * ts.length + 3 ≤ f →
      (read_concat f ts ≠ PResult.crashed ∧
       read_concat f ts ≠ PResult.nofuel) ∧
      ∀ o rest, read_concat f ts = PResult.ok o rest → rest <:+ ts) ∧
    (∀ acc ts, noErr ts → 4 * ts.length + 2 ≤ f →
      (read_concat_aux f acc ts ≠ PResult.crashed ∧
       read_concat_aux f acc ts ≠ PResult.nofuel) ∧
      ∀ o rest, read_concat_aux f acc ts = PResult.ok o rest → rest <:+ ts) ∧
    (∀ ts, noErr ts → 4 * ts.length + 1 ≤ f →
      (read_paren f ts ≠ PResult.crashed ∧
       read_paren f ts ≠ PResult.nofuel) ∧
      ∀ o rest, read_paren f ts = PResult.ok o rest →
        rest <:+ ts ∧ rest.length + 2 ≤ ts.length) := by
  induction f with
  | zero =>
    exact ⟨fun _ _ _ hf => absurd hf (by omega),
           fun _ _ hf => absurd hf (by omega),
           fun _ _ _ hf => absurd hf (by omega),
           fun _ _ hf => absurd hf (by omega)⟩
  | succ f ih =>
    obtain ⟨ihA, ihB, ihC, ihD⟩ := ih
    refine ⟨?_, ?_, ?_, ?_⟩
    · -- read_union_aux
      intro acc ts hne hf
      rw [read_union_aux_succ]
      cases hc : read_concat f ts with
      | ok o rest =>
        have hB := ihB ts hne (by omega)
        have hsuf : rest <:+ ts := hB.2 o rest hc
        have hlen : rest.length ≤ ts.length := hsuf.length_le
        by_cases hu : peak rest = some Token.union
        · obtain ⟨c, r₀, hre⟩ := peak_eq_some rest Token.union hu
          have hr1 : 1 ≤ rest.length := by rw [hre]; simp
          have hdl : (rest.drop 1).length = rest.length - 1 := by
            simp [List.length_drop]
          simp only [if_pos hu]
          have hne' : noErr (rest.drop 1) :=
            noErr_of_suffix _ _ ((List.drop_suffix 1 rest).trans hsuf) hne
          have hA := ihA (acc ++ [o]) (rest.drop 1) hne' (by omega)
          exact ⟨hA.1, fun o₂ r₂ hok =>
            (hA.2 o₂ r₂ hok).trans ((List.drop_suffix 1 rest).trans hsuf)⟩
        · simp only [if_neg hu]
          obtain ⟨o', hco⟩ := collapseWith_ok Operations.union (acc ++ [o]) rest
          rw [hco]
          refine ⟨⟨(fun h => nomatch h), (fun h => nomatch h)⟩, ?_⟩
          intro o₂ r₂ hok
          cases hok
          exact hsuf
      | err m =>
        exact ⟨⟨(fun h => nomatch h), (fun h => nomatch h)⟩,
          fun o₂ r₂ hok => nomatch hok⟩
      | crashed => exact absurd hc (ihB ts hne (by omega)).1.1
      | nofuel => exact absurd hc (ihB ts hne (by omega)).1.2
    · -- read_concat
      intro ts hne hf
      rw [read_concat_succ]
      exact ihC [] ts hne (by omega)
    · -- read_concat_aux
      intro acc ts hne hf
      rw [read_concat_aux_succ]
      cases hp : peak ts with
      | none =>
        obtain ⟨o', hco⟩ := collapseWith_ok Operations.concat acc ts
        rw [hco]
        refine ⟨⟨(fun h => nomatch h), (fun h => nomatch h)⟩, ?_⟩
        intro o₂ r₂ hok
        cases hok
        exact List.suffix_refl _
      | some t =>
        by_cases h1 : t = Token.dot ∨ t = Token.epsilon ∨ t = Token.letter
        · simp only [if_pos h1]
          cases hl : read_letter ts with
          | ok o rest =>
            obtain ⟨hsuf, hlen⟩ := read_letter_ok ts o rest hl
            have hne' : noErr rest := noErr_of_suffix _ _ hsuf hne
            have hC := ihC (acc ++ [o]) rest hne' (by omega)
            exact ⟨hC.1, fun o₂ r₂ hok => (hC.2 o₂ r₂ hok).trans hsuf⟩
          | err m =>
            exact ⟨⟨(fun h => nomatch h), (fun h => nomatch h)⟩,
              fun o₂ r₂ hok => nomatch hok⟩
          | crashed => exact absurd hl (read_letter_not_other ts).1
          | nofuel => exact absurd hl (read_letter_not_other ts).2
        · simp only [if_neg h1]
          by_cases h2 : t = Token.lpar
          · simp only [if_pos h2]
            cases hp2 : read_paren f ts with
            | ok o rest =>
              obtain ⟨hsuf, hlen⟩ := (ihD ts hne (by omega)).2 o rest hp2
              have hne' : noErr rest := noErr_of_suffix _ _ hsuf hne
              have hC := ihC (acc ++ [o]) rest hne' (by omega)
              exact ⟨hC.1, fun o₂ r₂ hok => (hC.2 o₂ r₂ hok).trans hsuf⟩
            | err m =>
              exact ⟨⟨(fun h => nomatch h), (fun h => nomatch h)⟩,
                fun o₂ r₂ hok => nomatch hok⟩
            | crashed => exact absurd hp2 (ihD ts hne (by omega)).1.1
            | nofuel => exact absurd hp2 (ihD ts hne (by omega)).1.2
          · simp only [if_neg h2]
            by_cases h3 : t = Token.kleene ∨ t = Token.plus ∨ t = Token.question
            · simp only [if_pos h3]
              exact ⟨⟨(fun h => nomatch h), (fun h => nomatch h)⟩,
                fun o₂ r₂ hok => nomatch hok⟩
            · simp only [if_neg h3]
              by_cases h4 : t = Token.rpar ∨ t = Token.union ∨ t = Token.endTok
              · simp only [if_pos h4]
                obtain ⟨o', hco⟩ := collapseWith_ok Operations.concat acc ts
                rw [hco]
                refine ⟨⟨(fun h => nomatch h), (fun h => nomatch h)⟩, ?_⟩
                intro o₂ r₂ hok
                cases hok
                exact List.suffix_refl _
              · exfalso
                obtain ⟨c, rest₀, hre⟩ := peak_eq_some ts t hp
                have hterr : t ≠ Token.error := by
                  have := hne (t, c) (by rw [hre]; exact List.mem_cons_self _ _)
                  simpa using this
                cases t with
                | error => exact hterr rfl
                | union => exact h4 (Or.inr (Or.inl rfl))
                | lpar => exact h2 rfl
                | rpar => exact h4 (Or.inl rfl)
                | dot => exact h1 (Or.inl rfl)
                | kleene => exact h3 (Or.inl rfl)
                | question => exact h3 (Or.inr (Or.inr rfl))
                | plus => exact h3 (Or.inr (Or.inl rfl))
                | epsilon => exact h1 (Or.inr (Or.inl rfl))
                | letter => exact h1 (Or.inr (Or.inr rfl))
                | endTok => exact h4 (Or.inr (Or.inr rfl))
    · -- read_paren
      intro ts hne hf
      rw [read_paren_succ]
      by_cases hl : peak ts = some Token.lpar
      · have hnl : ¬ peak ts ≠ some Token.lpar := fun hcon => hcon hl
        simp only [if_neg hnl]
        obtain ⟨c, rest₀, hre⟩ := peak_eq_some ts Token.lpar hl
        have hts1 : 1 ≤ ts.length := by rw [hre]; simp
        have hdl : (ts.drop 1).length = ts.length - 1 := by
          simp [List.length_drop]
        have hne' : noErr (ts.drop 1) :=
          noErr_of_suffix _ _ (List.drop_suffix 1 ts) hne
        cases hu : read_union_aux f [] (ts.drop 1) with
        | ok o rest =>
          have hA := ihA [] (ts.drop 1) hne' (by omega)
          have hsuf : rest <:+ ts.drop 1 := hA.2 o rest hu
          have hlen : rest.length ≤ ts.length - 1 := by
            have := hsuf.length_le
            omega
          by_cases hr : peak rest = some Token.rpar
          · have hnr : ¬ peak rest ≠ some Token.rpar := fun hcon => hcon hr
            simp only [if_neg hnr]
            obtain ⟨c', rest₁, hre'⟩ := peak_eq_some rest Token.rpar hr
            have hr1 : 1 ≤ rest.length := by rw [hre']; simp
            have hdr : (rest.drop 1).length = rest.length - 1 := by
              simp [List.length_drop]
            have hq := read_quantif_suffix (rest.drop 1) o
            have hqlen : (read_quantif (rest.drop 1) o).2.length ≤ rest.length - 1 := by
              have := hq.length_le
              omega
            refine ⟨⟨(fun h => nomatch h), (fun h => nomatch h)⟩, ?_⟩
            intro o₂ r₂ hok
            cases hok
            constructor
            · exact (hq.trans ((List.drop_suffix 1 rest).trans
                (hsuf.trans (List.drop_suffix 1 ts))))
            · omega
          · simp only [if_pos hr]
            exact ⟨⟨(fun h => nomatch h), (fun h => nomatch h)⟩,
              fun o₂ r₂ hok => nomatch hok⟩
        | err m =>
          exact ⟨⟨(fun h => nomatch h), (fun h => nomatch h)⟩,
            fun o₂ r₂ hok => nomatch hok⟩
        | crashed => exact absurd hu (ihA [] (ts.drop 1) hne' (by omega)).1.1
        | nofuel => exact absurd hu (ihA [] (ts.drop 1) hne' (by omega)).1.2
      · simp only [if_pos hl]
        exact ⟨⟨(fun h => nomatch h), (fun h => nomatch h)⟩,
          fun o₂ r₂ hok => nomatch hok⟩
/-- C7: the claim is refuted by the `Error`-token path.  Tokenizing an
unrecognized byte sequence (here the lone byte `0xFF`) yields an `Error`
token, and `read_concat`'s token dispatch has no arm for it: the `else`
branch is the source's `unreachable!()`, which aborts the process instead of
returning a descriptive error value.  On every `Error`-free token stream the
claim's positive part does hold: the parser terminates with `Ok` or `Err` and
never aborts (and the fuel of the embedding is never exhausted, so the fuel
is an artifact, not a behaviour). -/
theorem c7_error_token_aborts_read_union :
    read_union (tokens [255]) = PResult.crashed ∧
    ∀ s : List Nat, noErr (tokens s) →
      read_union (tokens s) ≠ PResult.crashed ∧
      read_union (tokens s) ≠ PResult.nofuel := by
  constructor
  · rfl
  · intro s hne
    exact ((parser_total (5 * (tokens s).length + 5)).1 [] (tokens s) hne
      (by omega)).1

/-- Witness for C7 at the concrete input `"a|b"` (bytes 97, 124, 98): its
token stream is `Error`-free, and the parser neither aborts nor runs out of
fuel on it. -/
theorem c7_error_token_aborts_read_union_witness :
    noErr (tokens [97, 124, 98]) ∧
    read_union (tokens [97, 124, 98]) ≠ PResult.crashed ∧
    read_union (tokens [97, 124, 98]) ≠ PResult.nofuel := by
  have hne : noErr (tokens [97, 124, 98]) := by
    unfold noErr
    decide
  exact ⟨hne, c7_error_token_aborts_read_union.2 [97, 124, 98] hne⟩
theorem any_congr_mem (s s' : List Nat) (p : Nat → Bool)
    (h : ∀ x, x ∈ s ↔ x ∈ s') : s.any p = s'.any p := by
  rcases Bool.eq_false_or_eq_true (s'.any p) with hb | hb
  · rw [hb]
    rw [List.any_eq_true] at hb ⊢
    obtain ⟨x, hx, hpx⟩ := hb
    exact ⟨x, (h x).2 hx, hpx⟩
  · rw [hb]
    rw [List.any_eq_false] at hb ⊢
    exact fun x hx => hb x ((h x).1 hx)

theorem nil_iff_of_mem_iff {α : Type} (s s' : List α)
    (h : ∀ x, x ∈ s ↔ x ∈ s') : s = [] ↔ s' = [] := by
  rw [List.eq_nil_iff_forall_not_mem, List.eq_nil_iff_forall_not_mem]
  exact ⟨fun hs x hx => hs x ((h x).2 hx), fun hs x hx => hs x ((h x).1 hx)⟩

theorem tgt_lt (tr : List (List (V × List Nat))) (hwf : wfTargets tr)
    (g : Nat) (v : V) (t : Nat) (ht : t ∈ tgt tr g v) : t < tr.length := by
  rw [tgt] at ht
  cases hlk : lookupA (tr.getD g []) v with
  | none => rw [hlk] at ht; simp at ht
  | some ts =>
    rw [hlk] at ht
    simp only [Option.getD_some] at ht
    by_cases hg : g < tr.length
    · have hrow : tr.getD g [] ∈ tr := by
        rw [List.getD_eq_getElem?_getD, List.getElem?_eq_getElem hg]
        exact List.getElem_mem _
      exact hwf _ hrow _ (lookupA_mem _ _ _ hlk) t ht
    · rw [List.getD_eq_getElem?_getD, List.getElem?_eq_none (by omega)] at hlk
      simp [lookupA] at hlk

theorem stepSet_lt (a : NFA V) (hwf : wfTargets a.transitions) (s : List Nat)
    (v : V) (t : Nat) (ht : t ∈ stepSet a s v) : t < a.transitions.length := by
  obtain ⟨q, _, hq⟩ := (mem_stepSet a s v t).1 ht
  exact tgt_lt a.transitions hwf q v t hq

theorem stepSet_nil_foreign (a : NFA V) (hrows : rowsOk a.alphabet a.transitions)
    (s : List Nat) (v : V) (hv : v ∉ a.alphabet) : stepSet a s v = [] := by
  rw [List.eq_nil_iff_forall_not_mem]
  intro t ht
  obtain ⟨q, _, hq⟩ := (mem_stepSet a s v t).1 ht
  rw [targets, tgt] at hq
  cases hlk : lookupA (a.transitions.getD q []) v with
  | none => rw [hlk] at hq; simp at hq
  | some ts =>
    have hmem := lookupA_mem _ _ _ hlk
    by_cases hg : q < a.transitions.length
    · have hrow : a.transitions.getD q [] ∈ a.transitions := by
        rw [List.getD_eq_getElem?_getD, List.getElem?_eq_getElem hg]
        exact List.getElem_mem _
      exact hv ((hrows _ hrow).2 _ hmem)
    · rw [List.getD_eq_getElem?_getD, List.getElem?_eq_none (by omega)] at hlk
      simp [lookupA] at hlk

theorem runFrom_congr (a : NFA V) (w : List V) (s s' : List Nat)
    (h : ∀ x, x ∈ s ↔ x ∈ s') : runFrom a s w = runFrom a s' w := by
  induction w generalizing s s' with
  | nil =>
    rw [runFrom, runFrom]
    exact any_congr_mem s s' _ h
  | cons v ls ih =>
    rw [runFrom, runFrom]
    have hmem : ∀ x, x ∈ stepSet a s v ↔ x ∈ stepSet a s' v :=
      fun x => stepSet_congr a s s' v h x
    have hnil := nil_iff_of_mem_iff _ _ hmem
    by_cases hn : stepSet a s v = []
    · rw [if_pos hn, if_pos (hnil.1 hn)]
    · rw [if_neg hn, if_neg (fun hc => hn (hnil.2 hc))]
      exact ih _ _ hmem

theorem getD_append_lt {α : Type} (l l' : List α) (i : Nat) (d : α)
    (h : i < l.length) : (l ++ l').getD i d = l.getD i d := by
  rw [List.getD_eq_getElem?_getD, List.getD_eq_getElem?_getD,
    List.getElem?_append_left h]

theorem getD_append_self {α : Type} (l : List α) (x d : α) :
    (l ++ [x]).getD l.length d = x := by
  rw [List.getD_eq_getElem?_getD, List.getElem?_append_right (le_refl _)]
  simp

theorem lookupA_isSome_of_mem_keys {α : Type} (m : List (V × α)) (v : V)
    (h : v ∈ m.map Prod.fst) : ∃ b, lookupA m v = some b := by
  cases hlk : lookupA m v with
  | none => exact absurd ((lookupA_eq_none_iff m v).1 hlk) (fun hc => hc h)
  | some b => exact ⟨b, rfl⟩

theorem entry_snd_lt (M : List (Nat × Nat)) (L : Nat)
    (hsnd : M.map Prod.snd = List.range L) (p : Nat × Nat) (hp : p ∈ M) :
    p.2 < L := by
  have : p.2 ∈ M.map Prod.snd := List.mem_map_of_mem Prod.snd hp
  rw [hsnd, List.mem_range] at this
  exact this

theorem entry_unique_of_snd (M : List (Nat × Nat)) (L : Nat)
    (hsnd : M.map Prod.snd = List.range L) (p q : Nat × Nat) (hp : p ∈ M)
    (hq : q ∈ M) (h : p.2 = q.2) : p = q := by
  have hnd : (M.map Prod.snd).Nodup := by rw [hsnd]; exact List.nodup_range L
  exact List.inj_on_of_nodup_map hnd hp hq h

theorem entry_unique_of_fst {α : Type} (M : List (V × α))
    (hnd : (M.map Prod.fst).Nodup) (p q : V × α) (hp : p ∈ M) (hq : q ∈ M)
    (h : p.1 = q.1) : p = q :=
  List.inj_on_of_nodup_map hnd hp hq h

theorem insertA_keys_nodup {α : Type} (m : List (V × α)) (v : V) (x : α)
    (hnd : (m.map Prod.fst).Nodup) :
    ((insertA m v x).map Prod.fst).Nodup := by
  rw [insertA]
  split
  · have hkeys : (m.map (fun p => if p.1 = v then (v, x) else p)).map Prod.fst =
        m.map Prod.fst := by
      rw [List.map_map]
      refine List.map_congr_left fun p _ => ?_
      by_cases hp : p.1 = v
      · simp [hp]
      · simp [hp]
    rw [hkeys]
    exact hnd
  · rename_i hnone
    have hkey : v ∉ m.map Prod.fst := by
      rw [← lookupA_eq_none_iff]
      cases hl : lookupA m v with
      | none => rfl
      | some b => rw [hl] at hnone; simp at hnone
    rw [List.map_append]
    simp only [List.map_cons, List.map_nil]
    rw [List.nodup_append]
    exact ⟨hnd, List.nodup_singleton v, by simpa using hkey⟩

theorem map_len_le (a : NFA V) (M : List (Nat × Nat))
    (hnd : (M.map Prod.fst).Nodup)
    (hm : ∀ p ∈ M, ∃ s, subOk a s ∧ maskOf s = p.1) :
    M.length ≤ 2 ^ a.transitions.length := by
  have hlt : ∀ k ∈ M.map Prod.fst, k < 2 ^ a.transitions.length := by
    intro k hk
    rw [List.mem_map] at hk
    obtain ⟨p, hp, rfl⟩ := hk
    obtain ⟨s, hs, hmask⟩ := hm p hp
    rw [← hmask]
    exact maskOf_lt s _ hs.2
  have hsub : (M.map Prod.fst).toFinset ⊆ Finset.range (2 ^ a.transitions.length) := by
    intro k hk
    rw [Finset.mem_range]
    exact hlt k (List.mem_toFinset.1 hk)
  have hcard := Finset.card_le_card hsub
  rw [Finset.card_range, List.toFinset_card_of_nodup hnd, List.length_map] at hcard
  exact hcard
theorem smallStep_nil (a : NFA V) (iter : List Nat) (j : Nat) (st : BuildSt V)
    (v : V) (h : iter.all (· < a.transitions.length) = true)
    (hnil : stepSet a iter v = []) : smallStep a iter j st v = some st := by
  rw [smallStep, if_neg (fun hc => hc h)]
  simp [hnil]

theorem smallStep_old (a : NFA V) (iter : List Nat) (j : Nat) (st : BuildSt V)
    (v : V) (h : iter.all (· < a.transitions.length) = true)
    (hnn : stepSet a iter v ≠ []) (j' : Nat)
    (hlk : lookupA st.map (maskOf (stepSet a iter v)) = some j') :
    smallStep a iter j st v = some
      { st with dfa := { st.dfa with
                         transitions := st.dfa.transitions.set j
                           (insertA (st.dfa.transitions.getD j []) v j') } } := by
  rw [smallStep, if_neg (fun hc => hc h)]
  simp [hnn, hlk]

theorem smallStep_new (a : NFA V) (iter : List Nat) (j : Nat) (st : BuildSt V)
    (v : V) (h : iter.all (· < a.transitions.length) = true)
    (hnn : stepSet a iter v ≠ [])
    (hlk : lookupA st.map (maskOf (stepSet a iter v)) = none) :
    smallStep a iter j st v = some
      { dfa := { st.dfa with
                 finals :=
                   if (stepSet a iter v).any (· ∈ a.finals) then
                     sinsert st.dfa.transitions.length st.dfa.finals
                   else st.dfa.finals,
                 transitions := (st.dfa.transitions ++ [[]]).set j
                   (insertA ((st.dfa.transitions ++ [[]]).getD j []) v
                     st.dfa.transitions.length) },
        map := st.map ++ [(maskOf (stepSet a iter v), st.dfa.transitions.length)],
        queue := st.queue ++ [(maskOf (stepSet a iter v), stepSet a iter v)] } := by
  rw [smallStep, if_neg (fun hc => hc h)]
  have hlk2 : lookupA
      (st.map ++ [(maskOf (stepSet a iter v), st.dfa.transitions.length)])
      (maskOf (stepSet a iter v)) = some st.dfa.transitions.length := by
    rw [lookupA_append_single, hlk]
    simp
  simp [hnn, hlk, hlk2]
theorem getD_mem {α : Type} (l : List α) (i : Nat) (d : α) (h : i < l.length) :
    l.getD i d ∈ l := by
  rw [List.getD_eq_getElem?_getD, List.getElem?_eq_getElem h]
  exact List.getElem_mem _

theorem rowCorrect_mono (a : NFA V) (st st₂ : BuildSt V) (j2 : Nat)
    (s : List Nat) (hrow : rowFor st₂ j2 = rowFor st j2)
    (hmp : ∀ p, p ∈ st.map → p ∈ st₂.map)
    (h : rowCorrect a st j2 s) : rowCorrect a st₂ j2 s := by
  refine ⟨fun v hv => ⟨fun hn => by rw [hrow]; exact (h.1 v hv).1 hn, fun hn => ?_⟩,
    fun v hv => by rw [hrow]; exact h.2 v hv⟩
  obtain ⟨j', hj', hm⟩ := (h.1 v hv).2 hn
  exact ⟨j', by rw [hrow]; exact hj', hmp _ hm⟩
theorem smallStep_pinv (a : NFA V) (hwfT : wfTargets a.transitions) (j : Nat)
    (iter : List Nat) (pre : List V) (st : BuildSt V)
    (hinv : PInv a j iter pre st) (v : V) (hv : v ∈ a.alphabet)
    (hvp : v ∉ pre) :
    ∃ st₂, smallStep a iter j st v = some st₂ ∧
      PInv a j iter (pre ++ [v]) st₂ ∧ phiM a st₂ ≤ phiM a st := by
  obtain ⟨hal, hini, hsnd, hknd, hqnd, hq, hjm, hjq, hpre, hnpre, hmap, hfin,
    hrows, h0, hsub⟩ := hinv
  have hall : iter.all (· < a.transitions.length) = true := by
    rw [List.all_eq_true]
    intro x hx
    simpa using hsub.2 x hx
  have hjL : j < st.dfa.transitions.length :=
    entry_snd_lt st.map _ hsnd (maskOf iter, j) hjm
  by_cases hnil : stepSet a iter v = []
  · refine ⟨st, smallStep_nil a iter j st v hall hnil, ?_, le_refl _⟩
    refine ⟨hal, hini, hsnd, hknd, hqnd, hq, hjm, hjq, ?_, ?_, hmap, hfin,
      hrows, h0, hsub⟩
    · intro v' hv'
      rcases List.mem_append.1 hv' with hin | hin
      · exact hpre v' hin
      · rw [List.mem_singleton] at hin
        subst hin
        exact ⟨fun _ => hnpre v' hvp, fun hc => absurd hnil hc⟩
    · intro v' hv'
      exact hnpre v' (fun hc => hv' (List.mem_append_left _ hc))
  · have hitlt : ∀ t ∈ stepSet a iter v, t < a.transitions.length :=
      fun t ht => stepSet_lt a hwfT iter v t ht
    cases hlk : lookupA st.map (maskOf (stepSet a iter v)) with
    | some j' =>
      have hj'm : (maskOf (stepSet a iter v), j') ∈ st.map := lookupA_mem _ _ _ hlk
      have hj'L : j' < st.dfa.transitions.length :=
        entry_snd_lt st.map _ hsnd _ hj'm
      refine ⟨_, smallStep_old a iter j st v hall hnil j' hlk, ?_, le_refl _⟩
      set st₂ : BuildSt V :=
        { st with dfa := { st.dfa with
                           transitions := st.dfa.transitions.set j
                             (insertA (st.dfa.transitions.getD j []) v j') } }
        with hst₂
      have hlen2 : st₂.dfa.transitions.length = st.dfa.transitions.length :=
        List.length_set _ _ _
      have hrowj : rowFor st₂ j = insertA (rowFor st j) v j' :=
        getD_set_self _ _ _ _ hjL
      have hrowne : ∀ j2, j2 ≠ j → rowFor st₂ j2 = rowFor st j2 :=
        fun j2 hne => getD_set_ne _ j j2 _ _ (fun hc => hne hc.symm)
      refine ⟨hal, hini, by rw [hlen2]; exact hsnd, hknd, hqnd, hq, hjm, hjq,
        ?_, ?_, ?_, by rw [hlen2]; exact hfin, ?_, h0, hsub⟩
      · intro v' hv'
        rcases List.mem_append.1 hv' with hin | hin
        · have hvv : ¬ v = v' := fun hc => hvp (hc ▸ hin)
          refine ⟨fun hn => ?_, fun hn => ?_⟩
          · rw [hrowj, lookupA_insertA, if_neg hvv]
            exact (hpre v' hin).1 hn
          · obtain ⟨j'', hj'', hm⟩ := (hpre v' hin).2 hn
            exact ⟨j'', by rw [hrowj, lookupA_insertA, if_neg hvv]; exact hj'', hm⟩
        · rw [List.mem_singleton] at hin
          subst hin
          refine ⟨fun hc => absurd hc hnil, fun _ => ?_⟩
          exact ⟨j', by rw [hrowj, lookupA_insertA, if_pos rfl], hj'm⟩
      · intro v' hv'
        have hvne : ¬ v = v' := fun hc => hv' (hc ▸ List.mem_append_right _ (List.mem_singleton_self v))
        rw [hrowj, lookupA_insertA, if_neg hvne]
        exact hnpre v' (fun hc => hv' (List.mem_append_left _ hc))
      · intro p hp
        obtain ⟨s', hs', hmask', hfiff, hdisj⟩ := hmap p hp
        by_cases hpj : p.2 = j
        · have hpe : p = (maskOf iter, j) :=
            entry_unique_of_snd st.map _ hsnd p (maskOf iter, j) hp hjm hpj
          exact ⟨s', hs', hmask', hfiff, Or.inl (by rw [hpe])⟩
        · refine ⟨s', hs', hmask', hfiff, ?_⟩
          rcases hdisj with hfirst | ⟨hmq, hrow⟩ | ⟨hmq, hrc⟩
          · exact Or.inl hfirst
          · exact Or.inr (Or.inl ⟨hmq, by rw [hrowne p.2 hpj]; exact hrow⟩)
          · exact Or.inr (Or.inr ⟨hmq,
              rowCorrect_mono a st st₂ p.2 s' (hrowne p.2 hpj) (fun q hq' => hq') hrc⟩)
      · intro m hm
        rcases List.mem_or_eq_of_mem_set hm with hm' | hm'
        · refine ⟨(hrows m hm').1, fun p hp => ?_⟩
          rw [hlen2]
          exact (hrows m hm').2 p hp
        · subst hm'
          have hold := hrows (rowFor st j) (getD_mem _ _ _ hjL)
          refine ⟨insertA_keys_nodup _ _ _ hold.1, fun p hp => ?_⟩
          rw [hlen2]
          rcases mem_insertA _ _ _ p hp with hin | hin
          · exact hold.2 p hin
          · rw [hin]
            exact ⟨hj'L, hv⟩
    | none =>
      have hfresh : maskOf (stepSet a iter v) ∉ st.map.map Prod.fst :=
        (lookupA_eq_none_iff _ _).1 hlk
      refine ⟨_, smallStep_new a iter j st v hall hnil hlk, ?_, ?_⟩
      pick_goal 2
      · have hrange : ∀ p ∈ st.map ++
            [(maskOf (stepSet a iter v), st.dfa.transitions.length)],
            ∃ s, subOk a s ∧ maskOf s = p.1 := by
          intro p hp
          rcases List.mem_append.1 hp with hin | hin
          · obtain ⟨s', hs', hmask', _, _⟩ := hmap p hin
            exact ⟨s', hs', hmask'⟩
          · rw [List.mem_singleton] at hin
            subst hin
            exact ⟨stepSet a iter v, ⟨hnil, hitlt⟩, rfl⟩
        have hknd2 : ((st.map ++
            [(maskOf (stepSet a iter v), st.dfa.transitions.length)]).map
              Prod.fst).Nodup := by
          rw [List.map_append]
          rw [List.nodup_append]
          refine ⟨hknd, List.nodup_singleton _, ?_⟩
          intro x hx hx2
          simp only [List.map_cons, List.map_nil, List.mem_singleton] at hx2
          subst hx2
          exact hfresh hx
        have hcap := map_len_le a _ hknd2 hrange
        rw [List.length_append, List.length_cons, List.length_nil] at hcap
        rw [phiM, phiM]
        simp only [List.length_append, List.length_cons, List.length_nil,
          Nat.zero_add]
        have hsplit : 2 ^ a.transitions.length - st.map.length =
            (2 ^ a.transitions.length - (st.map.length + 1)) + 1 := by omega
        rw [hsplit, add_mul, one_mul]
        omega
      · have hjL' : j < (st.dfa.transitions ++ [[]]).length := by
          rw [List.length_append]
          simp only [List.length_cons, List.length_nil]
          omega
        have hgetDj : (st.dfa.transitions ++ [[]]).getD j [] = rowFor st j :=
          getD_append_lt _ _ _ _ hjL
        have hrowj2 : ((st.dfa.transitions ++ [[]]).set j
            (insertA ((st.dfa.transitions ++ [[]]).getD j []) v
              st.dfa.transitions.length)).getD j [] =
            insertA (rowFor st j) v st.dfa.transitions.length := by
          rw [getD_set_self _ _ _ _ hjL', hgetDj]
        have hrowne2 : ∀ j2, j2 ≠ j → j2 < st.dfa.transitions.length →
            ((st.dfa.transitions ++ [[]]).set j
              (insertA ((st.dfa.transitions ++ [[]]).getD j []) v
                st.dfa.transitions.length)).getD j2 [] = rowFor st j2 := by
          intro j2 hne hlt
          rw [getD_set_ne _ _ _ _ _ (fun hc => hne hc.symm),
            getD_append_lt _ _ _ _ hlt]
          rfl
        have hrowL2 : ((st.dfa.transitions ++ [[]]).set j
            (insertA ((st.dfa.transitions ++ [[]]).getD j []) v
              st.dfa.transitions.length)).getD st.dfa.transitions.length [] = [] := by
          rw [getD_set_ne _ _ _ _ _ (fun hc => by omega),
            getD_append_self]
        have hmiK : maskOf iter ∈ st.map.map Prod.fst :=
          List.mem_map_of_mem Prod.fst hjm
        refine ⟨hal, hini, ?_, ?_, ?_, ?_, List.mem_append_left _ hjm, ?_, ?_,
          ?_, ?_, ?_, ?_, List.mem_append_left _ h0, hsub⟩
        · simp only [List.map_append, List.map_cons, List.map_nil,
            List.length_set, List.length_append, List.length_cons,
            List.length_nil, hsnd]
          rw [← List.range_succ]
        · simp only [List.map_append, List.map_cons, List.map_nil]
          rw [List.nodup_append]
          refine ⟨hknd, List.nodup_singleton _, ?_⟩
          intro x hx hx2
          rw [List.mem_singleton] at hx2
          subst hx2
          exact hfresh hx
        · simp only [List.map_append, List.map_cons, List.map_nil]
          rw [List.nodup_append]
          refine ⟨hqnd, List.nodup_singleton _, ?_⟩
          intro x hx hx2
          rw [List.mem_singleton] at hx2
          subst hx2
          rw [List.mem_map] at hx
          obtain ⟨qq, hqq, heq⟩ := hx
          exact hfresh (heq ▸ (hq qq hqq).1)
        · intro q hq'
          rcases List.mem_append.1 hq' with hin | hin
          · refine ⟨?_, (hq q hin).2.1, (hq q hin).2.2⟩
            simp only [List.map_append, List.map_cons, List.map_nil,
              List.mem_append, List.mem_singleton]
            exact Or.inl (hq q hin).1
          · rw [List.mem_singleton] at hin
            subst hin
            refine ⟨?_, ⟨hnil, hitlt⟩, rfl⟩
            simp only [List.map_append, List.map_cons, List.map_nil,
              List.mem_append, List.mem_singleton]
            exact Or.inr trivial
        · intro hc
          simp only [List.map_append, List.map_cons, List.map_nil,
            List.mem_append, List.mem_singleton] at hc
          rcases hc with hc | hc
          · exact hjq hc
          · exact hfresh (hc ▸ hmiK)
        · intro v' hv'
          rcases List.mem_append.1 hv' with hin | hin
          · have hvv : ¬ v = v' := fun hc => hvp (hc ▸ hin)
            refine ⟨fun hn => ?_, fun hn => ?_⟩
            · show lookupA (((st.dfa.transitions ++ [[]]).set j
                (insertA ((st.dfa.transitions ++ [[]]).getD j []) v
                  st.dfa.transitions.length)).getD j []) v' = none
              rw [hrowj2, lookupA_insertA, if_neg hvv]
              exact (hpre v' hin).1 hn
            · obtain ⟨j'', hj'', hm⟩ := (hpre v' hin).2 hn
              refine ⟨j'', ?_, List.mem_append_left _ hm⟩
              show lookupA (((st.dfa.transitions ++ [[]]).set j
                (insertA ((st.dfa.transitions ++ [[]]).getD j []) v
                  st.dfa.transitions.length)).getD j []) v' = some j''
              rw [hrowj2, lookupA_insertA, if_neg hvv]
              exact hj''
          · rw [List.mem_singleton] at hin
            subst hin
            refine ⟨fun hc => absurd hc hnil, fun _ => ?_⟩
            refine ⟨st.dfa.transitions.length, ?_,
              List.mem_append_right _ (List.mem_singleton_self _)⟩
            show lookupA (((st.dfa.transitions ++ [[]]).set j
              (insertA ((st.dfa.transitions ++ [[]]).getD j []) v'
                st.dfa.transitions.length)).getD j []) v' = some st.dfa.transitions.length
            rw [hrowj2, lookupA_insertA, if_pos rfl]
        · intro v' hv'
          have hvv : ¬ v = v' :=
            fun hc => hv' (hc ▸ List.mem_append_right _ (List.mem_singleton_self v))
          show lookupA (((st.dfa.transitions ++ [[]]).set j
            (insertA ((st.dfa.transitions ++ [[]]).getD j []) v
              st.dfa.transitions.length)).getD j []) v' = none
          rw [hrowj2, lookupA_insertA, if_neg hvv]
          exact hnpre v' (fun hc => hv' (List.mem_append_left _ hc))
        · intro p hp
          rcases List.mem_append.1 hp with hin | hin
          · obtain ⟨s', hs', hmask', hfiff, hdisj⟩ := hmap p hin
            have hp2L : p.2 < st.dfa.transitions.length :=
              entry_snd_lt st.map _ hsnd p hin
            have hfiff2 : p.2 ∈ (if (stepSet a iter v).any (· ∈ a.finals) then
                sinsert st.dfa.transitions.length st.dfa.finals
                else st.dfa.finals) ↔ s'.any (· ∈ a.finals) = true := by
              by_cases hfb : (stepSet a iter v).any (· ∈ a.finals) = true
              · rw [if_pos hfb, mem_sinsert]
                constructor
                · rintro (hc | h)
                  · omega
                  · exact hfiff.1 h
                · exact fun h => Or.inr (hfiff.2 h)
              · rw [if_neg hfb]
                exact hfiff
            by_cases hpj : p.2 = j
            · have hpe : p = (maskOf iter, j) :=
                entry_unique_of_snd st.map _ hsnd p (maskOf iter, j) hin hjm hpj
              exact ⟨s', hs', hmask', hfiff2, Or.inl (by rw [hpe])⟩
            · refine ⟨s', hs', hmask', hfiff2, ?_⟩
              rcases hdisj with hfirst | ⟨hmq, hrow⟩ | ⟨hmq, hrc⟩
              · exact Or.inl hfirst
              · refine Or.inr (Or.inl ⟨?_, ?_⟩)
                · simp only [List.map_append, List.map_cons, List.map_nil,
                    List.mem_append, List.mem_singleton]
                  exact Or.inl hmq
                · show ((st.dfa.transitions ++ [[]]).set j
                    (insertA ((st.dfa.transitions ++ [[]]).getD j []) v
                      st.dfa.transitions.length)).getD p.2 [] = []
                  rw [hrowne2 p.2 hpj hp2L]
                  exact hrow
              · refine Or.inr (Or.inr ⟨?_, ?_⟩)
                · intro hc
                  simp only [List.map_append, List.map_cons, List.map_nil,
                    List.mem_append, List.mem_singleton] at hc
                  rcases hc with hc | hc
                  · exact hmq hc
                  · exact hfresh (hc ▸ List.mem_map_of_mem Prod.fst hin)
                · refine rowCorrect_mono a st _ p.2 s' ?_
                    (fun q hq' => List.mem_append_left _ hq') hrc
                  show ((st.dfa.transitions ++ [[]]).set j
                    (insertA ((st.dfa.transitions ++ [[]]).getD j []) v
                      st.dfa.transitions.length)).getD p.2 [] = rowFor st p.2
                  exact hrowne2 p.2 hpj hp2L
          · rw [List.mem_singleton] at hin
            subst hin
            refine ⟨stepSet a iter v, ⟨hnil, hitlt⟩, rfl, ?_, ?_⟩
            · by_cases hfb : (stepSet a iter v).any (· ∈ a.finals) = true
              · simp only [if_pos hfb]
                exact ⟨fun _ => hfb, fun _ => (mem_sinsert _ _ _).2 (Or.inl rfl)⟩
              · simp only [if_neg hfb]
                exact ⟨fun hc => absurd (hfin _ hc) (lt_irrefl _),
                  fun hc => absurd hc hfb⟩
            · refine Or.inr (Or.inl ⟨?_, ?_⟩)
              · simp only [List.map_append, List.map_cons, List.map_nil,
                  List.mem_append, List.mem_singleton]
                exact Or.inr trivial
              · show ((st.dfa.transitions ++ [[]]).set j
                  (insertA ((st.dfa.transitions ++ [[]]).getD j []) v
                    st.dfa.transitions.length)).getD st.dfa.transitions.length [] = []
                exact hrowL2
        · intro i hi
          simp only [List.length_set, List.length_append, List.length_cons,
            List.length_nil]
          by_cases hfb : (stepSet a iter v).any (· ∈ a.finals) = true
          · rw [if_pos hfb] at hi
            rcases (mem_sinsert _ _ _).1 hi with hc | hc
            · omega
            · have := hfin i hc
              omega
          · rw [if_neg hfb] at hi
            have := hfin i hi
            omega
        · intro m hm
          simp only [List.length_set, List.length_append, List.length_cons,
            List.length_nil]
          rcases List.mem_or_eq_of_mem_set hm with hm' | hm'
          · rcases List.mem_append.1 hm' with hin | hin
            · refine ⟨(hrows m hin).1, fun p hp => ?_⟩
              have := (hrows m hin).2 p hp
              exact ⟨by omega, this.2⟩
            · rw [List.mem_singleton] at hin
              subst hin
              exact ⟨List.nodup_nil, fun p hp => absurd hp (List.not_mem_nil p)⟩
          · subst hm'
            rw [hgetDj]
            have hold := hrows (rowFor st j) (getD_mem _ _ _ hjL)
            refine ⟨insertA_keys_nodup _ _ _ hold.1, fun p hp => ?_⟩
            rcases mem_insertA _ _ _ p hp with hin | hin
            · have := hold.2 p hin
              exact ⟨by omega, this.2⟩
            · rw [hin]
              exact ⟨by omega, hv⟩
theorem fold_pinv (a : NFA V) (hwfT : wfTargets a.transitions) (j : Nat)
    (iter : List Nat) :
    ∀ (l pre : List V) (st : BuildSt V), (pre ++ l).Nodup →
      (∀ v ∈ l, v ∈ a.alphabet) → PInv a j iter pre st →
      ∃ st₂,
        l.foldl (fun ost v => ost.bind (fun s => smallStep a iter j s v))
          (some st) = some st₂ ∧
        PInv a j iter (pre ++ l) st₂ ∧ phiM a st₂ ≤ phiM a st := by
  intro l
  induction l with
  | nil =>
    intro pre st _ _ hinv
    exact ⟨st, rfl, by simpa using hinv, le_refl _⟩
  | cons v l' ih =>
    intro pre st hnd hsub hinv
    have hvp : v ∉ pre := by
      rw [List.nodup_append] at hnd
      intro hc
      exact hnd.2.2 hc (List.mem_cons_self v l')
    obtain ⟨st₂, hstep, hinv₂, hphi₂⟩ :=
      smallStep_pinv a hwfT j iter pre st hinv v (hsub v (List.mem_cons_self v l')) hvp
    have hnd' : ((pre ++ [v]) ++ l').Nodup := by
      rw [List.append_assoc]
      simpa using hnd
    obtain ⟨st₃, hfold, hinv₃, hphi₃⟩ :=
      ih (pre ++ [v]) st₂ hnd' (fun w hw => hsub w (List.mem_cons_of_mem v hw)) hinv₂
    refine ⟨st₃, ?_, ?_, le_trans hphi₃ hphi₂⟩
    · rw [List.foldl_cons]
      rw [show (some st).bind (fun s => smallStep a iter j s v) =
        smallStep a iter j st v from rfl, hstep]
      exact hfold
    · rw [show pre ++ v :: l' = (pre ++ [v]) ++ l' by simp]
      exact hinv₃
theorem smallLoop_succ (a : NFA V) (f : Nat) (st : BuildSt V) :
    smallLoop a (f + 1) st =
      match st.queue with
      | [] => some st
      | (elem, iter) :: rest =>
        match
          a.alphabet.foldl
            (fun ost v => ost.bind
              (fun s => smallStep a iter ((lookupA st.map elem).getD 0) s v))
            (some { st with queue := rest })
        with
        | none => none
        | some st' => smallLoop a f st' := rfl

theorem smallLoop_succ_cons (a : NFA V) (f : Nat) (st : BuildSt V) (elem : Nat)
    (iter : List Nat) (rest : List (Nat × List Nat))
    (hq : st.queue = (elem, iter) :: rest) (j : Nat)
    (hj : (lookupA st.map elem).getD 0 = j) (res : BuildSt V)
    (hfold : a.alphabet.foldl
        (fun ost v => ost.bind (fun s => smallStep a iter j s v))
        (some { st with queue := rest }) = some res) :
    smallLoop a (f + 1) st = smallLoop a f res := by
  rw [smallLoop_succ, hq]
  subst hj
  simp only [hfold]

theorem smallLoop_inv (a : NFA V) (hwf : a.WF) :
    ∀ (fuel : Nat) (st : BuildSt V), SInv a st → phiM a st < fuel →
      ∃ st', smallLoop a fuel st = some st' ∧ SInv a st' ∧ st'.queue = [] := by
  intro fuel
  induction fuel with
  | zero => intro st _ hphi; omega
  | succ f ih =>
    intro st hinv hphi
    obtain ⟨hal, hini, hsnd, hknd, hqnd, hq, hmap, hfin, hrows, h0⟩ := hinv
    cases hqueue : st.queue with
    | nil =>
      refine ⟨st, ?_, ⟨hal, hini, hsnd, hknd, hqnd, hq, hmap, hfin, hrows, h0⟩,
        hqueue⟩
      rw [smallLoop_succ, hqueue]
    | cons qe rest =>
      obtain ⟨elem, iter⟩ := qe
      have hqe : (elem, iter) ∈ st.queue := by
        rw [hqueue]
        exact List.mem_cons_self _ _
      obtain ⟨helemK, hsubIter, hmaskIter⟩ := hq (elem, iter) hqe
      obtain ⟨j, hlkj⟩ := lookupA_isSome_of_mem_keys st.map elem helemK
      have hejM : (elem, j) ∈ st.map := lookupA_mem _ _ _ hlkj
      have hjm : (maskOf iter, j) ∈ st.map := by
        rw [hmaskIter]
        exact hejM
      obtain ⟨s₀, hs₀, hmask₀, hfiff₀, hdisj₀⟩ := hmap (elem, j) hejM
      have helemQ : elem ∈ st.queue.map Prod.fst :=
        List.mem_map_of_mem Prod.fst hqe
      have hrow0 : rowFor st j = [] := by
        rcases hdisj₀ with ⟨_, hr⟩ | ⟨hnq, _⟩
        · exact hr
        · exact absurd helemQ hnq
      have hqnd' : (rest.map Prod.fst).Nodup ∧ elem ∉ rest.map Prod.fst := by
        rw [hqueue, List.map_cons, List.nodup_cons] at hqnd
        exact ⟨hqnd.2, hqnd.1⟩
      have pinv₁ : PInv a j iter []
          { st with queue := rest } := by
        refine ⟨hal, hini, hsnd, hknd, hqnd'.1,
          fun q hq' => hq q (by rw [hqueue]; exact List.mem_cons_of_mem _ hq'),
          hjm, ?_, fun v hv => absurd hv (List.not_mem_nil v), ?_, ?_, hfin,
          hrows, h0, hsubIter⟩
        · rw [hmaskIter]
          exact hqnd'.2
        · intro v _
          show lookupA (rowFor st j) v = none
          rw [hrow0]
          rfl
        · intro p hp
          obtain ⟨s', hs', hmask', hfiff', hdisj'⟩ := hmap p hp
          by_cases hpm : p.1 = maskOf iter
          · exact ⟨s', hs', hmask', hfiff', Or.inl hpm⟩
          · refine ⟨s', hs', hmask', hfiff', ?_⟩
            rcases hdisj' with ⟨hmq, hrow⟩ | ⟨hmq, hrc⟩
            · refine Or.inr (Or.inl ⟨?_, hrow⟩)
              rw [hqueue, List.map_cons] at hmq
              rcases List.mem_cons.1 hmq with hc | hc
              · rw [hmaskIter] at hpm
                exact absurd hc hpm
              · exact hc
            · refine Or.inr (Or.inr ⟨?_, hrc⟩)
              intro hc
              exact hmq (by rw [hqueue, List.map_cons]; exact List.mem_cons_of_mem _ hc)
      obtain ⟨st₂, hfold, hinv₂, hphi₂⟩ :=
        fold_pinv a hwf.1.2.2 j iter a.alphabet [] { st with queue := rest }
          (by simpa using hwf.2.1) (fun v hv => hv) pinv₁
      rw [List.nil_append] at hinv₂
      obtain ⟨hal₂, hini₂, hsnd₂, hknd₂, hqnd₂, hq₂, hjm₂, hjq₂, hpre₂, hnpre₂,
        hmap₂, hfin₂, hrows₂, h0₂, hsub₂⟩ := hinv₂
      have sinv₂ : SInv a st₂ := by
        refine ⟨hal₂, hini₂, hsnd₂, hknd₂, hqnd₂, hq₂, ?_, hfin₂, hrows₂, h0₂⟩
        intro p hp
        obtain ⟨s', hs', hmask', hfiff', hdisj'⟩ := hmap₂ p hp
        rcases hdisj' with hfirst | hqd | hpd
        · have hpe : p = (maskOf iter, j) :=
            entry_unique_of_fst st₂.map hknd₂ p (maskOf iter, j) hp hjm₂
              (by rw [hfirst])
          have hmm : ∀ x, x ∈ s' ↔ x ∈ iter :=
            (maskOf_eq_iff s' iter).1 (by rw [hmask', hfirst])
          refine ⟨iter, hsubIter, by rw [hpe], ?_, Or.inr ⟨by rw [hpe]; exact hjq₂, ?_⟩⟩
          · rw [← any_congr_mem s' iter _ hmm]
            exact hfiff'
          · rw [hpe]
            exact ⟨hpre₂, fun v hv => hnpre₂ v hv⟩
        · exact ⟨s', hs', hmask', hfiff', Or.inl hqd⟩
        · exact ⟨s', hs', hmask', hfiff', Or.inr hpd⟩
      have hphi₁ : phiM a { st with queue := rest } + 1 = phiM a st := by
        simp only [phiM, hqueue, List.length_cons]
        omega
      obtain ⟨st', hloop, hsinv', hq'⟩ := ih st₂ sinv₂ (by omega)
      refine ⟨st', ?_, hsinv', hq'⟩
      rw [smallLoop_succ_cons a f st elem iter rest hqueue j
        (by rw [hlkj]; rfl) st₂ hfold]
      exact hloop
theorem sinv_init (a : NFA V) (hwf : a.WF) (hne : a.initials ≠ []) :
    SInv a
      { dfa := { alphabet := a.alphabet, initial := 0,
                 finals := if a.initials.any (· ∈ a.finals) then [0] else [],
                 transitions := [[]] },
        map := [(maskOf a.initials, 0)],
        queue := [(maskOf a.initials, a.initials.dedup)] } := by
  have hdmem : ∀ x, x ∈ a.initials.dedup ↔ x ∈ a.initials :=
    fun x => List.mem_dedup
  have hdmask : maskOf a.initials.dedup = maskOf a.initials :=
    (maskOf_eq_iff _ _).2 hdmem
  have hdsub : subOk a a.initials.dedup := by
    refine ⟨fun hc => hne ((List.dedup_eq_nil _).1 hc), fun x hx => ?_⟩
    exact hwf.1.1 x ((hdmem x).1 hx)
  refine ⟨rfl, rfl, by simp [List.range_succ], by simp, by simp, ?_, ?_, ?_,
    ?_, by simp⟩
  · intro q hq'
    rw [List.mem_singleton] at hq'
    subst hq'
    exact ⟨by simp, hdsub, hdmask⟩
  · intro p hp
    rw [List.mem_singleton] at hp
    subst hp
    refine ⟨a.initials.dedup, hdsub, hdmask, ?_,
      Or.inl ⟨by simp, rfl⟩⟩
    have hany : a.initials.dedup.any (· ∈ a.finals) =
        a.initials.any (· ∈ a.finals) :=
      any_congr_mem _ _ _ hdmem
    by_cases hf : a.initials.any (· ∈ a.finals) = true
    · rw [if_pos hf, hany, hf]
      simp
    · rw [if_neg hf, hany]
      simp only [List.not_mem_nil, false_iff]
      intro hc
      exact hf hc
  · intro i hi
    by_cases hf : a.initials.any (· ∈ a.finals) = true
    · rw [if_pos hf] at hi
      rw [List.mem_singleton] at hi
      subst hi
      simp
    · rw [if_neg hf] at hi
      exact absurd hi (List.not_mem_nil i)
  · intro m hm
    rw [List.mem_singleton] at hm
    subst hm
    exact ⟨List.nodup_nil, fun p hp => absurd hp (List.not_mem_nil p)⟩

theorem phiM_init (a : NFA V) :
    phiM a
      { dfa := { alphabet := a.alphabet, initial := 0,
                 finals := if a.initials.any (· ∈ a.finals) then [0] else [],
                 transitions := [[]] },
        map := [(maskOf a.initials, 0)],
        queue := [(maskOf a.initials, a.initials.dedup)] } < smallFuel a := by
  rw [phiM, smallFuel]
  simp only [List.length_cons, List.length_nil, Nat.zero_add]
  have he : 1 ≤ 2 ^ a.transitions.length := Nat.one_le_two_pow
  have hmul : (2 ^ a.transitions.length - 1) * (a.alphabet.length + 1) ≤
      2 ^ a.transitions.length * (a.alphabet.length + 1) :=
    Nat.mul_le_mul_right _ (Nat.sub_le _ 1)
  omega

theorem small_to_dfa_inv (a : NFA V) (hwf : a.WF) (hne : a.initials ≠ []) :
    ∃ st, a.small_to_dfa = some st ∧ SInv a st ∧ st.queue = [] := by
  obtain ⟨st, h1, h2, h3⟩ := smallLoop_inv a hwf (smallFuel a) _
    (sinv_init a hwf hne) (phiM_init a)
  exact ⟨st, h1, h2, h3⟩
theorem dfaRunFrom_nil (d : DFA V) (q : Nat) :
    DFA.runFrom d q [] = decide (q ∈ d.finals) := rfl

theorem dfaRunFrom_cons (d : DFA V) (q : Nat) (v : V) (ls : List V) :
    DFA.runFrom d q (v :: ls) =
      match lookupA (d.transitions.getD q []) v with
      | none => false
      | some t => DFA.runFrom d t ls := rfl

theorem runFrom_nil (a : NFA V) (s : List Nat) :
    runFrom a s [] = s.any (· ∈ a.finals) := rfl

theorem runFrom_cons (a : NFA V) (s : List Nat) (v : V) (ls : List V) :
    runFrom a s (v :: ls) =
      if stepSet a s v = [] then false else runFrom a (stepSet a s v) ls := rfl

theorem reachG_mono (succ : Nat → List Nat) (init init' : List Nat)
    (h : ∀ y ∈ init', ReachG succ init y) (x : Nat)
    (hx : ReachG succ init' x) : ReachG succ init x := by
  induction hx with
  | base y hy => exact h y hy
  | step e t _ ht ihe => exact ReachG.step e t ihe ht

theorem run_true_reach (a : NFA V) (w : List V) (s : List Nat)
    (h : runFrom a s w = true) :
    ∃ x ∈ a.finals, ReachG (succsAll a.transitions) s x := by
  induction w generalizing s with
  | nil =>
    rw [runFrom_nil, List.any_eq_true] at h
    obtain ⟨x, hx, hxf⟩ := h
    rw [decide_eq_true_eq] at hxf
    exact ⟨x, hxf, ReachG.base x hx⟩
  | cons v ls ih =>
    rw [runFrom_cons] at h
    by_cases hn : stepSet a s v = []
    · rw [if_pos hn] at h
      cases h
    · rw [if_neg hn] at h
      obtain ⟨x, hxf, hreach⟩ := ih (stepSet a s v) h
      refine ⟨x, hxf, reachG_mono _ s _ ?_ x hreach⟩
      intro y hy
      obtain ⟨q, hq, hty⟩ := (mem_stepSet a s v y).1 hy
      exact ReachG.step q y (ReachG.base q hq) (mem_succsAll_of_targets a q y v hty)

theorem sim_run (a : NFA V) (hwf : a.WF) (st : BuildSt V) (hinv : SInv a st)
    (hq : st.queue = []) :
    ∀ (w : List V) (p : Nat × Nat), p ∈ st.map → ∀ s, subOk a s →
      maskOf s = p.1 → DFA.runFrom st.dfa p.2 w = runFrom a s w := by
  obtain ⟨hal, hini, hsnd, hknd, hqnd, hqe, hmap, hfin, hrows, h0⟩ := hinv
  intro w
  induction w with
  | nil =>
    intro p hp s hs hmask
    rw [dfaRunFrom_nil, runFrom_nil]
    obtain ⟨s', hs', hmask', hfiff, _⟩ := hmap p hp
    have hmm : ∀ x, x ∈ s' ↔ x ∈ s :=
      (maskOf_eq_iff s' s).1 (by rw [hmask', hmask])
    rw [← any_congr_mem s' s _ hmm]
    by_cases hmem : p.2 ∈ st.dfa.finals
    · rw [hfiff.1 hmem]
      exact decide_eq_true hmem
    · have hb : s'.any (· ∈ a.finals) = false := by
        rcases Bool.eq_false_or_eq_true (s'.any (· ∈ a.finals)) with hb | hb
        · exact absurd (hfiff.2 hb) hmem
        · exact hb
      rw [hb]
      exact decide_eq_false hmem
  | cons v ls ih =>
    intro p hp s hs hmask
    obtain ⟨s', hs', hmask', hfiff, hdisj⟩ := hmap p hp
    have hmm : ∀ x, x ∈ s' ↔ x ∈ s :=
      (maskOf_eq_iff s' s).1 (by rw [hmask', hmask])
    have hcongr : ∀ t, t ∈ stepSet a s v ↔ t ∈ stepSet a s' v :=
      fun t => stepSet_congr a s s' v (fun q => (hmm q).symm) t
    have hrc : rowCorrect a st p.2 s' := by
      rcases hdisj with ⟨hqm, _⟩ | ⟨_, hrc⟩
      · rw [hq] at hqm
        exact absurd hqm (List.not_mem_nil _)
      · exact hrc
    rw [dfaRunFrom_cons, runFrom_cons]
    by_cases hv : v ∈ a.alphabet
    · by_cases hempty : stepSet a s' v = []
      · have hnone : lookupA (rowFor st p.2) v = none := (hrc.1 v hv).1 hempty
        have hsnil : stepSet a s v = [] := by
          rw [List.eq_nil_iff_forall_not_mem] at hempty ⊢
          exact fun t ht => hempty t ((hcongr t).1 ht)
        rw [show st.dfa.transitions.getD p.2 [] = rowFor st p.2 from rfl, hnone,
          if_pos hsnil]
      · obtain ⟨j', hj', hj'm⟩ := (hrc.1 v hv).2 hempty
        have hsnn : stepSet a s v ≠ [] := by
          intro hc
          apply hempty
          rw [List.eq_nil_iff_forall_not_mem] at hc ⊢
          exact fun t ht => hc t ((hcongr t).2 ht)
        rw [show st.dfa.transitions.getD p.2 [] = rowFor st p.2 from rfl, hj',
          if_neg hsnn]
        exact ih (maskOf (stepSet a s' v), j') hj'm (stepSet a s v)
          ⟨hsnn, fun x hx => stepSet_lt a hwf.1.2.2 s v x hx⟩
          ((maskOf_eq_iff _ _).2 hcongr)
    · have hnone : lookupA (rowFor st p.2) v = none := hrc.2 v hv
      have hsnil : stepSet a s v = [] := stepSet_nil_foreign a hwf.2.2 s v hv
      rw [show st.dfa.transitions.getD p.2 [] = rowFor st p.2 from rfl, hnone,
        if_pos hsnil]
theorem reachG_init_ne (succ : Nat → List Nat) (init : List Nat) (x : Nat)
    (h : ReachG succ init x) : init ≠ [] := by
  induction h with
  | base y hy => exact List.ne_nil_of_mem hy
  | step e t _ _ ihe => exact ihe

theorem exists_reachable_final_of_not_empty (a : NFA V)
    (hwfT : wfTargets a.transitions) (h : ¬ a.is_empty = true) :
    ∃ x, Reach a.transitions a.initials x ∧ x ∈ a.finals := by
  by_contra hc
  push_neg at hc
  exact h ((is_empty_iff_no_reachable_final a hwfT).2 hc)

theorem run_false_of_is_empty (a : NFA V) (hwfT : wfTargets a.transitions)
    (hie : a.is_empty = true) (w : List V) : a.run w = false := by
  rcases Bool.eq_false_or_eq_true (a.run w) with hb | hb
  · rw [NFA.run] at hb
    split at hb
    · cases hb
    · obtain ⟨x, hxf, hreach⟩ := run_true_reach a w a.initials hb
      exact absurd hxf ((is_empty_iff_no_reachable_final a hwfT).1 hie x hreach)
  · exact hb

theorem trivial_dfa_run_false (al : List V) (w : List V) :
    DFA.run { alphabet := al, initial := 0, finals := [],
              transitions := [[]] } w = false := by
  cases w with
  | nil => rfl
  | cons v ls => rfl

theorem small_to_dfa_correct (a : NFA V) (hwf : a.WF)
    (hne : ¬ a.is_empty = true) :
    ∃ st, a.small_to_dfa = some st ∧
      (∀ w, st.dfa.run w = a.run w) ∧
      (∀ p ∈ st.map,
        (p.2 ∈ st.dfa.finals ↔ ∃ q ∈ a.finals, (p.1).testBit q = true)) ∧
      st.dfa.alphabet = a.alphabet ∧ st.dfa.WF := by
  obtain ⟨x, hreach, _⟩ := exists_reachable_final_of_not_empty a hwf.1.2.2 hne
  have hinit : a.initials ≠ [] := reachG_init_ne _ _ x hreach
  obtain ⟨st, hsome, hinv, hqnil⟩ := small_to_dfa_inv a hwf hinit
  have hinv' := hinv
  obtain ⟨hal, hini, hsnd, hknd, hqnd, hqe, hmap, hfin, hrows, h0⟩ := hinv'
  have hdedup : ∀ q, q ∈ a.initials.dedup ↔ q ∈ a.initials :=
    fun q => List.mem_dedup
  have hLpos : 0 < st.dfa.transitions.length := by
    have hmem : (0 : Nat) ∈ st.map.map Prod.snd := List.mem_map_of_mem Prod.snd h0
    rw [hsnd, List.mem_range] at hmem
    exact hmem
  refine ⟨st, hsome, ?_, ?_, hal, ?_⟩
  · intro w
    rw [DFA.run, hini]
    have hrun := sim_run a hwf st hinv hqnil w (maskOf a.initials, 0) h0
      a.initials.dedup
      ⟨fun hc => hinit ((List.dedup_eq_nil _).1 hc),
        fun q hq' => hwf.1.1 q ((hdedup q).1 hq')⟩
      ((maskOf_eq_iff _ _).2 hdedup)
    rw [hrun, runFrom_congr a w _ _ hdedup, NFA.run, if_neg hinit]
  · intro p hp
    obtain ⟨s, hs, hmask, hfiff, _⟩ := hmap p hp
    rw [hfiff, List.any_eq_true]
    constructor
    · rintro ⟨x', hx', hxf⟩
      rw [decide_eq_true_eq] at hxf
      exact ⟨x', hxf, by rw [← hmask]; exact (testBit_maskOf s x').2 hx'⟩
    · rintro ⟨q, hqf, hbit⟩
      rw [← hmask] at hbit
      exact ⟨q, (testBit_maskOf s q).1 hbit, decide_eq_true hqf⟩
  · refine ⟨by rw [hini]; exact hLpos, hfin, ?_, by rw [hal]; exact hwf.2.1⟩
    intro m hm
    refine ⟨(hrows m hm).1, fun p hp => ?_⟩
    have := (hrows m hm).2 p hp
    exact ⟨this.1, by rw [hal]; exact this.2⟩

/-- C1, corrected.  For a well-formed NFA below the 128-state bit-width,
`to_dfa` succeeds and the resulting DFA runs exactly as the NFA on every word;
on the subset-construction path every allocated DFA state is final iff its
encoded subset contains an original final state.  The failure clause of the
claim is wrong as stated: `to_dfa` at or above the bit-width reaches the
`unimplemented!()` abort only when the language is non-empty — an
empty-language automaton of any size succeeds through the `is_empty` fast
path (witnessed concretely by `c1_to_dfa_cex`). -/
theorem c1_to_dfa_amended (a : NFA V) (hwf : a.WF) :
    (a.transitions.length < 128 →
      ∃ d, a.to_dfa = Except.ok d ∧ (∀ w, d.run w = a.run w) ∧
        (¬ a.is_empty = true →
          ∃ st, a.small_to_dfa = some st ∧ d = st.dfa ∧
            ∀ p ∈ st.map,
              (p.2 ∈ d.finals ↔ ∃ q ∈ a.finals, (p.1).testBit q = true))) ∧
    (128 ≤ a.transitions.length → ¬ a.is_empty = true →
      a.to_dfa = Except.error RErr.unimplemented) := by
  constructor
  · intro h128
    by_cases hie : a.is_empty = true
    · refine ⟨_, by rw [NFA.to_dfa, if_pos hie], ?_, fun hc => absurd hie hc⟩
      intro w
      rw [trivial_dfa_run_false, run_false_of_is_empty a hwf.1.2.2 hie]
    · obtain ⟨st, hsome, hrun, hfiff, _, _⟩ := small_to_dfa_correct a hwf hie
      refine ⟨st.dfa, ?_, hrun, fun _ => ⟨st, hsome, rfl, hfiff⟩⟩
      rw [NFA.to_dfa, if_neg hie, if_pos h128, hsome]
  · intro h128 hie
    rw [NFA.to_dfa, if_neg hie, if_neg (by omega)]

/-- Witness for C1 at the one-letter matcher `new_matching({a}, "a")`: it is
well-formed and small, so `to_dfa` succeeds with a run-equivalent DFA. -/
theorem c1_to_dfa_amended_witness :
    ∃ d, (NFA.new_matching ['a'] ['a']).to_dfa = Except.ok d ∧
      (∀ w, d.run w = (NFA.new_matching ['a'] ['a']).run w) ∧
      (¬ (NFA.new_matching ['a'] ['a']).is_empty = true →
        ∃ st, (NFA.new_matching ['a'] ['a']).small_to_dfa = some st ∧
          d = st.dfa ∧
          ∀ p ∈ st.map,
            (p.2 ∈ d.finals ↔
              ∃ q ∈ (NFA.new_matching ['a'] ['a']).finals,
                (p.1).testBit q = true)) :=
  (c1_to_dfa_amended (NFA.new_matching ['a'] ['a']) (by decide)).1 (by decide)
theorem bool_eq_of_iff (x y : Bool) (h : x = true ↔ y = true) : x = y := by
  cases x <;> cases y <;> simp_all

theorem stepSet_nil (a : NFA V) (v : V) : stepSet a [] v = [] := rfl

theorem foldl_stepSet_nil (a : NFA V) (w : List V) :
    w.foldl (stepSet a) [] = [] := by
  induction w with
  | nil => rfl
  | cons v ls ih => rw [List.foldl_cons, stepSet_nil, ih]

theorem runFrom_eq_any (a : NFA V) (w : List V) (s : List Nat) :
    runFrom a s w = (w.foldl (stepSet a) s).any (· ∈ a.finals) := by
  induction w generalizing s with
  | nil => rfl
  | cons v ls ih =>
    rw [runFrom_cons, List.foldl_cons]
    by_cases hn : stepSet a s v = []
    · rw [if_pos hn, hn, foldl_stepSet_nil]
      rfl
    · rw [if_neg hn]
      exact ih (stepSet a s v)

theorem run_eq_any (a : NFA V) (w : List V) :
    a.run w = (w.foldl (stepSet a) a.initials).any (· ∈ a.finals) := by
  rw [NFA.run]
  split
  · rename_i hnil
    rw [hnil, foldl_stepSet_nil]
    rfl
  · exact runFrom_eq_any a w a.initials

theorem active_bounds (a : NFA V) (hwfT : wfTargets a.transitions)
    (w : List V) (s : List Nat) (hs : ∀ x ∈ s, x < a.transitions.length) :
    ∀ x ∈ w.foldl (stepSet a) s, x < a.transitions.length := by
  induction w generalizing s with
  | nil => exact hs
  | cons v ls ih =>
    rw [List.foldl_cons]
    exact ih (stepSet a s v) (fun x hx => stepSet_lt a hwfT s v x hx)

theorem active_of_reach (a : NFA V)
    (hrows : ∀ m ∈ a.transitions, (m.map Prod.fst).Nodup) (s : List Nat)
    (x : Nat) (h : ReachG (succsAll a.transitions) s x) :
    ∃ w : List V, x ∈ w.foldl (stepSet a) s := by
  induction h with
  | base y hy => exact ⟨[], hy⟩
  | step e t _ ht ihe =>
    obtain ⟨w, hw⟩ := ihe
    have hrow : ((a.transitions.getD e []).map Prod.fst).Nodup := by
      by_cases he : e < a.transitions.length
      · exact hrows _ (getD_mem _ _ _ he)
      · rw [List.getD_eq_getElem?_getD, List.getElem?_eq_none (by omega)]
        exact List.nodup_nil
    obtain ⟨v, hv⟩ := targets_of_mem_succsAll a e t hrow ht
    refine ⟨w ++ [v], ?_⟩
    rw [List.foldl_append, List.foldl_cons, List.foldl_nil]
    exact (mem_stepSet a _ v t).2 ⟨e, hw, hv⟩

theorem active_run_true (a : NFA V) (w : List V) (s : List Nat) (x : Nat)
    (hx : x ∈ w.foldl (stepSet a) s) (hxf : x ∈ a.finals) :
    runFrom a s w = true := by
  rw [runFrom_eq_any, List.any_eq_true]
  exact ⟨x, hx, decide_eq_true hxf⟩

theorem is_empty_of_all_false (a : NFA V) (hwfT : wfTargets a.transitions)
    (hrows : ∀ m ∈ a.transitions, (m.map Prod.fst).Nodup)
    (h : ∀ w, a.run w = false) : a.is_empty = true := by
  rcases Bool.eq_false_or_eq_true a.is_empty with hb | hb
  · exact hb
  · obtain ⟨x, hreach, hxf⟩ :=
      exists_reachable_final_of_not_empty a hwfT (by rw [hb]; simp)
    obtain ⟨w, hw⟩ := active_of_reach a hrows a.initials x hreach
    have hr : a.run w = true := by
      rw [NFA.run, if_neg (reachG_init_ne _ _ x hreach)]
      exact active_run_true a w a.initials x hw hxf
    rw [h w] at hr
    cases hr

theorem lookupA_map_pair {α β : Type} (m : List (V × α)) (f : α → β) (v : V) :
    lookupA (m.map (fun p => (p.1, f p.2))) v = (lookupA m v).map f := by
  induction m with
  | nil => simp [lookupA]
  | cons p m ih =>
    by_cases hp : p.1 = v <;> simp [lookupA, hp, ih]

theorem append_hashset_nodup {α : Type} [DecidableEq α] (dst src : List α)
    (h : dst.Nodup) : (append_hashset dst src).Nodup := by
  rw [append_hashset]
  refine @List.foldlRecOn _ _ (fun b : List α => b.Nodup) src _ dst h ?_
  intro s hs x _
  rw [sinsert]
  split
  · exact hs
  · exact List.nodup_cons.2 ⟨by assumption, hs⟩
theorem lookupA_map_singleton (m : List (V × Nat)) (v : V) :
    lookupA (m.map (fun p => (p.1, [p.2]))) v =
      (lookupA m v).map (fun t => [t]) := by
  induction m with
  | nil => simp [lookupA]
  | cons p m ih =>
    by_cases hp : p.1 = v <;> simp [lookupA, hp, ih]

theorem to_nfa_targets (d : DFA V) (q : Nat) (v : V) :
    targets d.to_nfa q v =
      match lookupA (d.transitions.getD q []) v with
      | none => []
      | some t => [t] := by
  rw [targets, tgt]
  show ((lookupA ((d.transitions.map (fun m => m.map (fun p => (p.1, [p.2])))).getD q [])
    v).getD []) = _
  by_cases hq : q < d.transitions.length
  · rw [getD_map_rows d.transitions _ [] _ q hq, lookupA_map_singleton]
    cases lookupA (d.transitions.getD q []) v <;> rfl
  · rw [List.getD_eq_getElem?_getD, List.getElem?_eq_none (by
      rw [List.length_map]; omega)]
    rw [List.getD_eq_getElem?_getD (d.transitions), List.getElem?_eq_none (by omega)]
    rfl

theorem to_nfa_runFrom (d : DFA V) (w : List V) :
    ∀ (q : Nat) (s : List Nat), (∀ x, x ∈ s ↔ x = q) →
      runFrom d.to_nfa s w = DFA.runFrom d q w := by
  induction w with
  | nil =>
    intro q s hs
    rw [runFrom_nil, dfaRunFrom_nil]
    have hany : s.any (· ∈ d.to_nfa.finals) = [q].any (· ∈ d.finals) :=
      any_congr_mem s [q] _ (fun x => by rw [hs x, List.mem_singleton])
    rw [hany]
    simp
  | cons v ls ih =>
    intro q s hs
    rw [runFrom_cons, dfaRunFrom_cons]
    have hstep : ∀ t, t ∈ stepSet d.to_nfa s v ↔
        t ∈ (match lookupA (d.transitions.getD q []) v with
             | none => ([] : List Nat)
             | some u => [u]) := by
      intro t
      rw [mem_stepSet]
      constructor
      · rintro ⟨q', hq', ht⟩
        rw [hs q'] at hq'
        subst hq'
        rw [to_nfa_targets] at ht
        exact ht
      · intro ht
        exact ⟨q, (hs q).2 rfl, by rw [to_nfa_targets]; exact ht⟩
    cases hlk : lookupA (d.transitions.getD q []) v with
    | none =>
      have hnil : stepSet d.to_nfa s v = [] := by
        rw [List.eq_nil_iff_forall_not_mem]
        intro t ht
        have := (hstep t).1 ht
        rw [hlk] at this
        exact absurd this (List.not_mem_nil t)
      rw [if_pos hnil]
    | some u =>
      have hnn : stepSet d.to_nfa s v ≠ [] := by
        intro hc
        have := (hstep u).2 (by rw [hlk]; exact List.mem_singleton_self u)
        rw [hc] at this
        exact absurd this (List.not_mem_nil u)
      rw [if_neg hnn]
      refine ih u (stepSet d.to_nfa s v) ?_
      intro x
      rw [hstep x, hlk, List.mem_singleton]

theorem to_nfa_run (d : DFA V) (w : List V) : d.to_nfa.run w = d.run w := by
  rw [NFA.run, DFA.run]
  have hinit : d.to_nfa.initials = [d.initial] := rfl
  rw [hinit, if_neg (by simp)]
  exact to_nfa_runFrom d w d.initial [d.initial] (fun x => List.mem_singleton)

theorem to_nfa_WF (d : DFA V) (hd : d.WF) : d.to_nfa.WF := by
  obtain ⟨hinit, hfin, hrows, hal⟩ := hd
  have hlen : d.to_nfa.transitions.length = d.transitions.length := by
    show (d.transitions.map _).length = _
    rw [List.length_map]
  refine ⟨⟨?_, ?_, ?_⟩, hal, ?_⟩
  · intro i hi
    rw [show d.to_nfa.initials = [d.initial] from rfl, List.mem_singleton] at hi
    subst hi
    rw [hlen]
    exact hinit
  · intro i hi
    rw [hlen]
    exact hfin i hi
  · intro m hm p hp t ht
    rw [hlen]
    rw [show d.to_nfa.transitions = d.transitions.map
      (fun m => m.map (fun p => (p.1, [p.2]))) from rfl, List.mem_map] at hm
    obtain ⟨m₀, hm₀, rfl⟩ := hm
    rw [List.mem_map] at hp
    obtain ⟨p₀, hp₀, rfl⟩ := hp
    rw [List.mem_singleton] at ht
    subst ht
    exact ((hrows m₀ hm₀).2 p₀ hp₀).1
  · intro m hm
    rw [show d.to_nfa.transitions = d.transitions.map
      (fun m => m.map (fun p => (p.1, [p.2]))) from rfl, List.mem_map] at hm
    obtain ⟨m₀, hm₀, rfl⟩ := hm
    constructor
    · have hkeys : (m₀.map (fun p => (p.1, [p.2]))).map Prod.fst = m₀.map Prod.fst := by
        rw [List.map_map]
        rfl
      rw [hkeys]
      exact (hrows m₀ hm₀).1
    · intro p hp
      rw [List.mem_map] at hp
      obtain ⟨p₀, hp₀, rfl⟩ := hp
      show p₀.1 ∈ d.to_nfa.alphabet
      exact ((hrows m₀ hm₀).2 p₀ hp₀).2

theorem negate_WF (d : DFA V) (hd : d.WF) : d.negate.WF := by
  obtain ⟨hinit, hfin, hrows, hal⟩ := hd
  have hlen : d.transitions.length ≤ d.complete.transitions.length :=
    complete_length_le d
  have hcrows : ∀ m ∈ d.complete.transitions, (m.map Prod.fst).Nodup ∧
      ∀ p ∈ m, p.2 < d.complete.transitions.length ∧ p.1 ∈ d.alphabet := by
    rw [DFA.complete]
    split
    · intro m hm
      refine ⟨(hrows m hm).1, fun p hp => ?_⟩
      exact ⟨((hrows m hm).2 p hp).1, ((hrows m hm).2 p hp).2⟩
    · rename_i hic
      intro m hm
      rw [List.mem_map] at hm
      obtain ⟨m₀, hm₀, rfl⟩ := hm
      have hm₀nd : (m₀.map Prod.fst).Nodup := by
        rcases List.mem_append.1 hm₀ with h | h
        · exact (hrows m₀ h).1
        · rw [List.mem_singleton] at h
          subst h
          exact List.nodup_nil
      refine ⟨fillRow_keys_nodup _ _ _ hm₀nd, fun p hp => ?_⟩
      have hLlen : ((d.transitions ++ [[]]).map
          (fillRow d.alphabet d.transitions.length)).length =
          d.transitions.length + 1 := by
        rw [List.length_map, List.length_append]
        rfl
      rcases mem_fillRow _ _ _ p hp with h | h
      · rcases List.mem_append.1 hm₀ with h₀ | h₀
        · refine ⟨?_, ((hrows m₀ h₀).2 p h).2⟩
          rw [hLlen]
          exact Nat.lt_succ_of_lt ((hrows m₀ h₀).2 p h).1
        · rw [List.mem_singleton] at h₀
          subst h₀
          exact absurd h (List.not_mem_nil p)
      · refine ⟨?_, h.1⟩
        rw [hLlen, h.2]
        exact Nat.lt_succ_self _
  refine ⟨?_, ?_, ?_, ?_⟩
  · rw [negate_transitions, negate_initial]
    exact lt_of_lt_of_le hinit hlen
  · intro i hi
    rw [mem_negate_finals] at hi
    rw [negate_transitions]
    exact hi.1
  · intro m hm
    rw [negate_transitions] at hm
    refine ⟨(hcrows m hm).1, fun p hp => ?_⟩
    rw [negate_transitions, negate_alphabet]
    exact (hcrows m hm).2 p hp
  · rw [negate_alphabet]
    exact hal
theorem getD_append_add {α : Type} (l l' : List α) (i : Nat) (d : α) :
    (l ++ l').getD (l.length + i) d = l'.getD i d := by
  rw [List.getD_eq_getElem?_getD, List.getD_eq_getElem?_getD,
    List.getElem?_append_right (by omega)]
  have h : l.length + i - l.length = i := by omega
  rw [h]

theorem lookupA_map_shift (m : List (V × List Nat)) (l : Nat) (v : V) :
    lookupA (m.map (fun p => (p.1, p.2.map (· + l)))) v =
      (lookupA m v).map (fun ts => ts.map (· + l)) := by
  induction m with
  | nil => simp [lookupA]
  | cons p m ih =>
    by_cases hp : p.1 = v <;> simp [lookupA, hp, ih]

theorem targets_unite_left (a b : NFA V) (q : Nat)
    (hq : q < a.transitions.length) (v : V) :
    targets (a.unite b) q v = targets a q v := by
  show tgt (append_shift_transitions a.transitions b.transitions) q v = _
  rw [append_shift_transitions]
  exact tgt_append_left _ _ q v hq

theorem targets_unite_right (a b : NFA V) (qb : Nat) (v : V) :
    targets (a.unite b) (a.transitions.length + qb) v =
      (targets b qb v).map (· + a.transitions.length) := by
  show tgt (append_shift_transitions a.transitions b.transitions) _ v = _
  rw [append_shift_transitions, targets, tgt, tgt, getD_append_add]
  by_cases hqb : qb < b.transitions.length
  · rw [getD_map_rows b.transitions _ [] _ qb hqb, lookupA_map_shift]
    cases lookupA (b.transitions.getD qb []) v <;> rfl
  · rw [List.getD_eq_getElem?_getD, List.getElem?_eq_none
      (by rw [List.length_map]; omega)]
    rw [List.getD_eq_getElem?_getD b.transitions, List.getElem?_eq_none (by omega)]
    rfl

theorem mem_stepSet_unite (a b : NFA V) (sa sb : List Nat)
    (hsa : ∀ x ∈ sa, x < a.transitions.length) (S : List Nat)
    (hS : ∀ t, t ∈ S ↔ t ∈ sa ∨ ∃ tb ∈ sb, t = tb + a.transitions.length)
    (v : V) (t : Nat) :
    t ∈ stepSet (a.unite b) S v ↔
      t ∈ stepSet a sa v ∨
      ∃ tb ∈ stepSet b sb v, t = tb + a.transitions.length := by
  rw [mem_stepSet]
  constructor
  · rintro ⟨q, hq, ht⟩
    rcases (hS q).1 hq with hqa | ⟨qb, hqb, rfl⟩
    · left
      rw [targets_unite_left a b q (hsa q hqa) v] at ht
      exact (mem_stepSet a sa v t).2 ⟨q, hqa, ht⟩
    · right
      rw [add_comm, targets_unite_right a b qb v, List.mem_map] at ht
      obtain ⟨tb, htb, rfl⟩ := ht
      exact ⟨tb, (mem_stepSet b sb v tb).2 ⟨qb, hqb, htb⟩, rfl⟩
  · rintro (hta | ⟨tb, htb, rfl⟩)
    · obtain ⟨q, hqa, ht⟩ := (mem_stepSet a sa v t).1 hta
      refine ⟨q, (hS q).2 (Or.inl hqa), ?_⟩
      rw [targets_unite_left a b q (hsa q hqa) v]
      exact ht
    · obtain ⟨qb, hqb, ht⟩ := (mem_stepSet b sb v tb).1 htb
      refine ⟨qb + a.transitions.length, (hS _).2 (Or.inr ⟨qb, hqb, rfl⟩), ?_⟩
      rw [add_comm, targets_unite_right a b qb v]
      exact List.mem_map_of_mem _ ht

theorem active_unite (a b : NFA V) (hwfa : wfTargets a.transitions)
    (w : List V) :
    ∀ (sa sb S : List Nat), (∀ x ∈ sa, x < a.transitions.length) →
      (∀ t, t ∈ S ↔ t ∈ sa ∨ ∃ tb ∈ sb, t = tb + a.transitions.length) →
      ∀ t, t ∈ w.foldl (stepSet (a.unite b)) S ↔
        t ∈ w.foldl (stepSet a) sa ∨
        ∃ tb ∈ w.foldl (stepSet b) sb, t = tb + a.transitions.length := by
  induction w with
  | nil => exact fun sa sb S _ hS t => hS t
  | cons v ls ih =>
    intro sa sb S hsa hS t
    rw [List.foldl_cons, List.foldl_cons, List.foldl_cons]
    exact ih (stepSet a sa v) (stepSet b sb v) (stepSet (a.unite b) S v)
      (fun x hx => stepSet_lt a hwfa sa v x hx)
      (fun u => mem_stepSet_unite a b sa sb hsa S hS v u) t

theorem unite_run (a b : NFA V) (hwfa : a.wfIdx) (w : List V) :
    (a.unite b).run w = (a.run w || b.run w) := by
  rw [run_eq_any, run_eq_any, run_eq_any]
  have hSinit : ∀ t, t ∈ (a.unite b).initials ↔
      t ∈ a.initials ∨ ∃ tb ∈ b.initials, t = tb + a.transitions.length := by
    intro t
    exact mem_append_shift_hashset a.initials b.initials a.transitions.length t
  have hact := active_unite a b hwfa.2.2 w a.initials b.initials
    (a.unite b).initials hwfa.1 hSinit
  have hba : ∀ x ∈ w.foldl (stepSet a) a.initials, x < a.transitions.length :=
    active_bounds a hwfa.2.2 w a.initials hwfa.1
  have hFin : ∀ t, t ∈ (a.unite b).finals ↔
      t ∈ a.finals ∨ ∃ tb ∈ b.finals, t = tb + a.transitions.length := by
    intro t
    exact mem_append_shift_hashset a.finals b.finals a.transitions.length t
  refine bool_eq_of_iff _ _ ?_
  rw [Bool.or_eq_true, List.any_eq_true, List.any_eq_true, List.any_eq_true]
  simp only [decide_eq_true_eq]
  constructor
  · rintro ⟨t, htU, htF⟩
    rcases (hact t).1 htU with hA | ⟨tb, htb, rfl⟩
    · left
      refine ⟨t, hA, ?_⟩
      rcases (hFin t).1 htF with h | ⟨yb, _, hy⟩
      · exact h
      · have := hba t hA
        omega
    · right
      refine ⟨tb, htb, ?_⟩
      rcases (hFin _).1 htF with h | ⟨yb, hyb, hy⟩
      · have := hwfa.2.1 _ h
        omega
      · have heq : yb = tb := by omega
        subst heq
        exact hyb
  · rintro (⟨t, htA, htF⟩ | ⟨tb, htB, htF⟩)
    · exact ⟨t, (hact t).2 (Or.inl htA), (hFin t).2 (Or.inl htF)⟩
    · exact ⟨tb + a.transitions.length, (hact _).2 (Or.inr ⟨tb, htB, rfl⟩),
        (hFin _).2 (Or.inr ⟨tb, htF, rfl⟩)⟩

theorem unite_WF (a b : NFA V) (ha : a.WF) (hb : b.WF) : (a.unite b).WF := by
  refine ⟨wfIdx_unite a b ha.1 hb.1, ?_, ?_⟩
  · exact append_hashset_nodup _ _ ha.2.1
  · intro m hm
    have hm' : m ∈ a.transitions ++ b.transitions.map
        (fun m => m.map (fun p => (p.1, p.2.map (· + a.transitions.length)))) := hm
    rcases List.mem_append.1 hm' with h | h
    · refine ⟨(ha.2.2 m h).1, fun p hp => ?_⟩
      show p.1 ∈ append_hashset a.alphabet b.alphabet
      rw [mem_append_hashset]
      exact Or.inl ((ha.2.2 m h).2 p hp)
    · rw [List.mem_map] at h
      obtain ⟨m₀, hm₀, rfl⟩ := h
      constructor
      · have hkeys : ((m₀.map (fun p => (p.1, p.2.map (· + a.transitions.length)))).map
            Prod.fst) = m₀.map Prod.fst := by
          rw [List.map_map]
          rfl
        rw [hkeys]
        exact (hb.2.2 m₀ hm₀).1
      · intro p hp
        rw [List.mem_map] at hp
        obtain ⟨p₀, hp₀, rfl⟩ := hp
        show p₀.1 ∈ append_hashset a.alphabet b.alphabet
        rw [mem_append_hashset]
        exact Or.inr ((hb.2.2 m₀ hm₀).2 p₀ hp₀)
theorem to_dfa_correct (a : NFA V) (hwf : a.WF) (d : DFA V)
    (h : a.to_dfa = Except.ok d) :
    (∀ w, d.run w = a.run w) ∧ d.WF ∧ d.alphabet = a.alphabet := by
  rw [NFA.to_dfa] at h
  by_cases hie : a.is_empty = true
  · rw [if_pos hie] at h
    injection h with h2
    subst h2
    refine ⟨?_, ?_, rfl⟩
    · intro w
      rw [trivial_dfa_run_false, run_false_of_is_empty a hwf.1.2.2 hie]
    · refine ⟨by simp, ?_, ?_, hwf.2.1⟩
      · intro i hi
        exact absurd hi (List.not_mem_nil i)
      · intro m hm
        rw [List.mem_singleton] at hm
        subst hm
        exact ⟨List.nodup_nil, fun p hp => absurd hp (List.not_mem_nil p)⟩
  · rw [if_neg hie] at h
    by_cases h128 : a.transitions.length < 128
    · rw [if_pos h128] at h
      obtain ⟨st, hsome, hrun, hfiff, halph, hWFd⟩ := small_to_dfa_correct a hwf hie
      simp only [hsome] at h
      injection h with h2
      subst h2
      exact ⟨hrun, hWFd, halph⟩
    · rw [if_neg h128] at h
      cases h

theorem negate_run (d : DFA V) (hd : d.WF) (w : List V)
    (hw : ∀ c ∈ w, c ∈ d.alphabet) : d.negate.run w = ! d.run w := by
  rw [DFA.run, DFA.run, negate_initial]
  have hinit : d.initial < d.complete.transitions.length :=
    lt_of_lt_of_le hd.1 (complete_length_le d)
  rw [runFrom_negate d hd w hw d.initial hinit,
    runFrom_complete_eq d hd w d.initial hd.1]

theorem negate_run_foreign (d : DFA V) (hd : d.WF) (w : List V)
    (hw : ∃ c ∈ w, c ∉ d.alphabet) : d.negate.run w = false := by
  rw [DFA.run, negate_initial]
  exact runFrom_negate_foreign d hd w hw d.initial

theorem contains_self_ne_false (a : NFA V) (hwf : a.WF) :
    a.contains a ≠ Except.ok false := by
  intro hcontra
  cases hdfa : a.to_dfa with
  | error e =>
    have hneg : a.negate = Except.error e := by
      rw [NFA.negate, hdfa]
      rfl
    have hc : a.contains a = Except.error e := by
      rw [NFA.contains, hneg]
      rfl
    rw [hc] at hcontra
    cases hcontra
  | ok d =>
    obtain ⟨hrund, hdWF, hdal⟩ := to_dfa_correct a hwf d hdfa
    have hneg : a.negate = Except.ok d.negate := by
      rw [NFA.negate, hdfa]
      rfl
    have hdnWF : d.negate.WF := negate_WF d hdWF
    have hdnnWF : d.negate.negate.WF := negate_WF _ hdnWF
    have hna1WF : (d.negate.negate.to_nfa).WF := to_nfa_WF _ hdnnWF
    have hna2WF : (d.negate.to_nfa).WF := to_nfa_WF _ hdnWF
    have hUWF : ((d.negate.negate.to_nfa).unite (d.negate.to_nfa)).WF :=
      unite_WF _ _ hna1WF hna2WF
    have hstep1 : a.contains a =
        ((d.negate).intersect d).bind (fun i => pure i.is_empty) := by
      rw [NFA.contains, hneg, hdfa]
      rfl
    cases hU : ((d.negate.negate.to_nfa).unite (d.negate.to_nfa)).to_dfa with
    | error e =>
      have hInt : (d.negate).intersect d = Except.error e := by
        rw [DFA.intersect, DFA.unite, hU]
        rfl
      rw [hstep1, hInt] at hcontra
      cases hcontra
    | ok dU =>
      obtain ⟨hrunU, hdUWF, halU⟩ := to_dfa_correct _ hUWF dU hU
      have hInt : (d.negate).intersect d = Except.ok dU.negate := by
        rw [DFA.intersect, DFA.unite, hU]
        rfl
      have hcont : a.contains a = Except.ok (dU.negate).is_empty := by
        rw [hstep1, hInt]
        rfl
      have hUal : ∀ c, c ∈ ((d.negate.negate.to_nfa).unite
          (d.negate.to_nfa)).alphabet ↔ c ∈ d.alphabet := by
        intro c
        show c ∈ append_hashset (d.negate.negate.alphabet) (d.negate.alphabet) ↔ _
        rw [mem_append_hashset]
        simp only [negate_alphabet]
        exact or_self_iff
      have hFfalse : ∀ w, (dU.negate).run w = false := by
        intro w
        by_cases hwa : ∀ c ∈ w, c ∈ dU.alphabet
        · have hwd : ∀ c ∈ w, c ∈ d.alphabet := by
            intro c hc
            exact (hUal c).1 (halU ▸ hwa c hc)
          have hwdn : ∀ c ∈ w, c ∈ d.negate.alphabet := by
            intro c hc
            rw [negate_alphabet]
            exact hwd c hc
          rw [negate_run dU hdUWF w hwa, hrunU w,
            unite_run _ _ hna1WF.1 w, to_nfa_run, to_nfa_run,
            negate_run _ hdnWF w hwdn, negate_run d hdWF w hwd]
          simp
        · push_neg at hwa
          obtain ⟨c, hcw, hcal⟩ := hwa
          exact negate_run_foreign dU hdUWF w ⟨c, hcw, hcal⟩
      have hFWF : (dU.negate).WF := negate_WF dU hdUWF
      have hemp : (dU.negate).is_empty = true := by
        rw [DFA.is_empty]
        refine is_empty_of_all_false _ (to_nfa_WF _ hFWF).1.2.2
          (fun m hm => ((to_nfa_WF _ hFWF).2.2 m hm).1) ?_
        intro w
        rw [to_nfa_run]
        exact hFfalse w
      rw [hcont, hemp] at hcontra
      cases hcontra

/-- C9, corrected.  Reflexivity of `contains` holds only up to the
determinisation capability boundary: for every well-formed automaton,
`a.contains(a)` can never return `false` — whenever the nested subset
constructions stay below the 128-state bit-width the call returns `true` —
but it does not always return `true`: on `bigNfa` (128 states, non-empty
language) the claim's `a.contains(a)` aborts in `big_to_dfa`'s
`unimplemented!()` (see `c9_contains_self_cex`). -/
theorem c9_contains_self_amended (a : NFA V) (hwf : a.WF) (d : DFA V)
    (hd : d.WF) :
    a.contains a ≠ Except.ok false ∧ d.contains d ≠ Except.ok false := by
  constructor
  · exact contains_self_ne_false a hwf
  · rw [DFA.contains]
    exact contains_self_ne_false d.to_nfa (to_nfa_WF d hd)

/-- Witness for C9 at the one-letter matcher NFA and the one-state complete
DFA `exDfa`. -/
theorem c9_contains_self_amended_witness :
    (NFA.new_matching ['a'] ['a']).contains (NFA.new_matching ['a'] ['a']) ≠
      Except.ok false ∧
    exDfa.contains exDfa ≠ Except.ok false :=
  c9_contains_self_amended (NFA.new_matching ['a'] ['a']) (by decide) exDfa
    (by decide)
end Rustomaton
